import Mathlib

/-!
Verification development for the DPGWidgets node-editor core
(src/NodeEditor/node.py and src/NodeEditor/widget.py).

The Python objects are shallowly embedded:
* attribute objects (`OutputNodeAttribute`, `InputNodeAttribute`) live in a
  `Store`, keyed by their dpg-generated `uuid`; Python object references
  become uuid references, field mutation becomes store update;
* `Node` becomes the record `NodeObj`; dynamic per-node processing functions
  are passed as explicit function parameters;
* `NodeEditor` becomes `Editor`, whose `nodes` list holds the
  `(NID, UUID, node)` triples the Python code stores in `self._nodes`;
* GUI calls (`dpg.*`) are effect-free for the modelled state and are dropped,
  except where their absence/presence changes control flow, which is noted
  at each definition.
-/

namespace DPG

/-- Values flowing through the graph (opaque payloads in the source). -/
abbrev Val := Int

/-- Embedding of `InputNodeAttribute` (node.py).
`labelF` is the Python `_label`, `idS` the stable `id`, `parent` the
`_parent` object reference (as a uuid), `buffer` the deque contents
(oldest first) with `bufSize` its `maxlen`, `lastData` is `last_data`. -/
structure InAttr where
  uuid : Nat
  labelF : String
  idS : String
  parent : Option Nat
  buffer : List Val
  bufSize : Nat
  lastData : Option Val
  deriving Repr, DecidableEq

/-- Embedding of `OutputNodeAttribute` (node.py).
`children` is `_children` (uuids of connected input attributes, in order),
`dataF` is `_data`. -/
structure OutAttr where
  uuid : Nat
  labelF : String
  idS : String
  children : List Nat
  dataF : Option Val
  deriving Repr, DecidableEq

/-- The heap of attribute objects: Python object references become uuids
into these lists.  `nextUuid` models the `dpg.generate_uuid()` counter. -/
structure Store where
  ins : List InAttr
  outs : List OutAttr
  nextUuid : Nat
  deriving Repr, DecidableEq

/-- Dummy used to make store lookups total; well-formedness hypotheses in
the theorems guarantee that real lookups never fall through to it. -/
def dummyIn : InAttr := ⟨0, "", "", none, [], 10, none⟩

def dummyOut : OutAttr := ⟨0, "", "", [], none⟩

def Store.findIn (st : Store) (u : Nat) : Option InAttr :=
  st.ins.find? (fun a => a.uuid = u)

def Store.findOut (st : Store) (u : Nat) : Option OutAttr :=
  st.outs.find? (fun a => a.uuid = u)

def Store.getIn (st : Store) (u : Nat) : InAttr :=
  (st.findIn u).getD dummyIn

def Store.getOut (st : Store) (u : Nat) : OutAttr :=
  (st.findOut u).getD dummyOut

def Store.updateIn (st : Store) (u : Nat) (f : InAttr → InAttr) : Store :=
  { st with ins := st.ins.map (fun a => if a.uuid = u then f a else a) }

def Store.updateOut (st : Store) (u : Nat) (f : OutAttr → OutAttr) : Store :=
  { st with outs := st.outs.map (fun a => if a.uuid = u then f a else a) }

/-- `collections.deque(maxlen=cap).append v`: drops from the left on
overflow. -/
def pushBuf (cap : Nat) (b : List Val) (v : Val) : List Val :=
  (b ++ [v]).drop (b.length + 1 - cap)

/-- `OutputNodeAttribute.add_child(self, parent, child)` (node.py 25-30):
if the child is not already connected, link it (the dpg link is GUI-only),
set the child's `_parent` to this output, and append it to `_children`. -/
def addChild (st : Store) (o i : Nat) : Store :=
  if i ∈ (st.getOut o).children then st
  else
    let st1 := st.updateIn i (fun a => { a with parent := some o })
    st1.updateOut o (fun a => { a with children := a.children ++ [i] })

/-- `OutputNodeAttribute.remove_child(self, child)` (node.py 32-36): if
connected, remove the child from `_children` and null its `_parent`.
The final `child._data = None` line assigns an attribute that
`InputNodeAttribute` never defines nor reads (its data lives in `buffer`
and `last_data`), so it has no effect on the modelled state. -/
def removeChild (st : Store) (o i : Nat) : Store :=
  if i ∈ (st.getOut o).children then
    let st1 := st.updateOut o (fun a => { a with children := a.children.erase i })
    st1.updateIn i (fun a => { a with parent := none })
  else st

/-- `OutputNodeAttribute.set_data(self, data)` (node.py 38-41): store the
value and append it to every connected child's buffer. -/
def setData (st : Store) (o : Nat) (v : Val) : Store :=
  let st1 := st.updateOut o (fun a => { a with dataF := some v })
  ((st1.getOut o).children).foldl
    (fun acc c => acc.updateIn c (fun a => { a with buffer := pushBuf a.bufSize a.buffer v }))
    st1

/-- `InputNodeAttribute.clear_connection(self)` (node.py 91-96): if a
parent exists, have it remove this child; then null `_parent`, clear the
buffer and `last_data`. -/
def clearConnection (st : Store) (i : Nat) : Store :=
  let st1 :=
    match (st.getIn i).parent with
    | some p => removeChild st p i
    | none => st
  let st2 := st1.updateIn i (fun a => { a with parent := none })
  st2.updateIn i (fun a => { a with buffer := [], lastData := none })

/-- `InputNodeAttribute.get_data(self)` (node.py 80-86): pop the oldest
buffered value; on an empty buffer fall back to `last_data`. -/
def getData (st : Store) (i : Nat) : Option Val × Store :=
  match (st.getIn i).buffer with
  | [] => ((st.getIn i).lastData, st)
  | v :: rest => (some v, st.updateIn i (fun a => { a with buffer := rest }))

/-- `OutputNodeAttribute.clear_connections(self)` (node.py 43-47). -/
def clearConnectionsOut (st : Store) (o : Nat) : Store :=
  let st1 := ((st.getOut o).children).foldl (fun acc c => removeChild acc o c) st
  st1.updateOut o (fun a => { a with children := [], dataF := none })

/-! ## Nodes (node.py, class Node) -/

/-- The `NodeType` constants (node.py 6-10). -/
def NT_INPUT : Nat := 0
def NT_PROCESS : Nat := 1
def NT_OUTPUT : Nat := 2
def NT_IPO : Nat := 3

/-- Embedding of `Node` (node.py).  `inAttrs` / `outAttrs` hold the uuids of
the owned attribute objects (Python keeps object references).  The
processing function `process` is a method overridden by subclasses; it is
supplied separately wherever execution is modelled.  `dataD` is `_data`,
`internalData` is `internal_data` (an opaque persisted bag). -/
structure NodeObj where
  labelS : String
  uuid : Nat
  staticUuid : Nat
  inAttrs : List Nat
  outAttrs : List Nat
  dataD : Val
  executed : Bool
  nodeType : Nat
  isError : Bool
  priority : Int
  selfExecute : Bool
  internalData : List (String × Val)
  deriving Repr, DecidableEq

/-- `Node.reset_execution(self)` (node.py 241-244). -/
def resetExecution (n : NodeObj) : NodeObj :=
  { n with executed := false, isError := false }

/-- `Node.execute(self, data=None)` (node.py 246-261), with the node's
(overridden) `process` method passed as `f`.  If `_executed` is already
set the method returns its `data` argument unchanged; otherwise it runs
`process`, sets `_executed`, and returns the processed value.  The dpg
title update is GUI-only.  The returned Bool records whether `process`
was actually invoked (observation used by the theorems, not state). -/
def execute (f : Option Val → Option Val) (n : NodeObj) (d : Option Val) :
    NodeObj × Option Val × Bool :=
  if n.executed then (n, d, false)
  else ({ n with executed := true }, f d, true)

/-- Number of times `process` runs across a sequence of `execute` calls
(one call per element of `ds`, threading the node state). -/
def processRuns (f : Option Val → Option Val) (n : NodeObj) : List (Option Val) → Nat
  | [] => 0
  | d :: ds =>
    let r := execute f n d
    (if r.2.2 then 1 else 0) + processRuns f r.1 ds

/-- `Node.execute` at the source's actual granularity (node.py 246-261):
the `_executed` guard is read at entry, `self.process(data)` then runs
with the flag still false, and `self._executed = True` is assigned only
after `process` returns.  The method runs on a mutable node that the
user's processing code can act on — the helpers `_setup_node_helpers`
injects (`run_connected_dependents` and friends) call back into
`execute` on this very node — so `process` is modelled as a transformer
of the node state.  `execute` above is the special case of a processing
function that leaves the node alone (`executeSt_pure`), which is what
every non-re-entrant call site amounts to. -/
def executeSt (f : NodeObj → Option Val → NodeObj × Option Val) (n : NodeObj)
    (d : Option Val) : NodeObj × Option Val × Bool :=
  if n.executed then (n, d, false)
  else
    let r := f n d
    ({ r.1 with executed := true }, r.2, true)

/-- Number of top-level `execute` calls that reach `process` across a
sequence of calls, at the faithful two-phase granularity. -/
def processRunsSt (f : NodeObj → Option Val → NodeObj × Option Val) (n : NodeObj) :
    List (Option Val) → Nat
  | [] => 0
  | d :: ds =>
    let r := executeSt f n d
    (if r.2.2 then 1 else 0) + processRunsSt f r.1 ds

/-- A user processing function that re-enters `execute` from inside its
own body, the way the injected `run_connected_dependents` helper does:
`_execute_connected_next_nodes` calls `_ensure_dependencies_executed` on
the dependent (widget.py 460), which finds this very node absent from
`executed_nodes` and its `_executed` still false — the flag is set only
after `process` returns — and calls `node.execute` on it again
(widget.py 499-510).  Each body entry increments `_data`, so the number
of processing runs is observable in the node state; the fuel is the
re-entrancy depth (the base branch is a plain computation). -/
def reentrantProc : Nat → NodeObj → Option Val → NodeObj × Option Val
  | 0, n, _ => ({ n with dataD := n.dataD + 1 }, some 1)
  | k+1, n, _ =>
    let n1 := { n with dataD := n.dataD + 1 }
    let r := executeSt (reentrantProc k) n1 (some 0)
    (r.1, r.2.1)

/-! ## The editor and its scheduler (widget.py) -/

/-- One element of `NodeEditor._nodes`: the `(NID, UUID, node)` triple
appended by `add_node` (widget.py 58-60, 146). -/
structure Entry where
  nid : String
  nuid : String
  node : NodeObj
  deriving Repr, DecidableEq

/-- Embedding of `NodeEditor`.  `submitted` models whether the dpg editor
widget exists (`dpg.does_item_exist(self.uuid)`), which gates GUI-only
branches in `load`.  Distinct entries are assumed to hold distinct node
objects (Python dict keys in the scheduler are object identities); the
index of an entry in `nodes` stands for that identity. -/
structure Editor where
  nodes : List Entry
  submitted : Bool
  deriving Repr, DecidableEq

/-- The inner owner search of `_build_execution_graph` (widget.py 320-325):
the first node (in `self._nodes` order) whose `_input_attributes` contains
the given input attribute; `break` stops at the first hit. -/
def ownerOfInput (e : Editor) (iu : Nat) : Option Nat :=
  e.nodes.findIdx? (fun ent => iu ∈ ent.node.inAttrs)

/-- The node-level dependency edges of `_build_execution_graph`
(widget.py 307-327): for every node, every output attribute, every
connected child input attribute, an edge from the owner of the output to
the owner of the input (indices into `e.nodes`).  Order and multiplicity
follow the Python loops; `graph[node]` is recovered by `adjOf` and
`in_degree` by `inDegInit` below. -/
def buildEdges (e : Editor) (st : Store) : List (Nat × Nat) :=
  (e.nodes.enum).flatMap (fun p =>
    p.2.node.outAttrs.flatMap (fun ou =>
      ((st.getOut ou).children).filterMap (fun iu =>
        (ownerOfInput e iu).map (fun b => (p.1, b)))))

/-- `graph[u]`: the dependents of `u`, in the order the source appends
them, with multiplicity. -/
def adjOf (edges : List (Nat × Nat)) (u : Nat) : List Nat :=
  edges.filterMap (fun p => if p.1 = u then some p.2 else none)

/-- `in_degree[v]` as `_build_execution_graph` leaves it (one increment per
edge; the Python value is an int). -/
def inDegInit (edges : List (Nat × Nat)) (v : Nat) : Int :=
  (edges.countP (fun p => p.2 = v) : Int)

/-- A heap entry of `_topological_sort`: `(-priority, counter, node)`. -/
abbrev HeapItem := Int × Nat × Nat

/-- `node.priority` looked up by node index; `getattr(node, 'priority', 0)
or 0` is the identity for an int-valued priority field. -/
def prioAt (e : Editor) (v : Nat) : Int :=
  ((e.nodes.get? v).map (fun ent => ent.node.priority)).getD 0

/-- Lexicographic comparison on the `(-priority, counter)` part of a heap
item, the order `heapq` pops tuples in (the node component is never
compared because counters are unique). -/
def hle (x y : HeapItem) : Prop :=
  x.1 < y.1 ∨ (x.1 = y.1 ∧ x.2.1 ≤ y.2.1)

instance : DecidablePred (fun p : HeapItem × HeapItem => hle p.1 p.2) :=
  fun _ => by unfold hle; infer_instance

instance (x y : HeapItem) : Decidable (hle x y) := by unfold hle; infer_instance

/-- `heapq.heappop`: remove and return the least element.  The concrete
list order is irrelevant because the pop always scans for the minimum;
ties go to the earlier list position (unreachable when counters are
unique). -/
def popMin : List HeapItem → Option (HeapItem × List HeapItem)
  | [] => none
  | x :: xs =>
    match popMin xs with
    | none => some (x, [])
    | some (m, rest) => if hle x m then (x, xs) else (m, x :: rest)

/-- Scheduler state during `_topological_sort`: the heap, the mutable
`in_degree` map, and the push `counter`. -/
structure KS where
  heap : List HeapItem
  deg : Nat → Int
  counter : Nat

/-- Seeding loop (widget.py 339-343): push every node of in-degree 0 with
its priority and a fresh counter, scanning `self._nodes` in order. -/
def seedHeap (e : Editor) (d : Nat → Int) : KS :=
  (List.range e.nodes.length).foldl
    (fun ks v =>
      if d v = 0 then
        { ks with heap := ks.heap ++ [(-(prioAt e v), ks.counter, v)],
                  counter := ks.counter + 1 }
      else ks)
    ⟨[], d, 0⟩

/-- Body of the dependents loop (widget.py 350-356): decrement the
dependent's in-degree and, exactly when it reaches 0, push it. -/
def relaxStep (e : Editor) (ks : KS) (w : Nat) : KS :=
  if ks.deg w - 1 = 0 then
    { heap := ks.heap ++ [(-(prioAt e w), ks.counter, w)],
      deg := fun v => if v = w then ks.deg w - 1 else ks.deg v,
      counter := ks.counter + 1 }
  else
    { heap := ks.heap,
      deg := fun v => if v = w then ks.deg w - 1 else ks.deg v,
      counter := ks.counter }

def relax (e : Editor) (ks : KS) (ws : List Nat) : KS :=
  ws.foldl (relaxStep e) ks

/-- Strict lexicographic comparison on `(-priority, counter)`: the pop
order of distinct heap entries. -/
def hlt (x y : HeapItem) : Prop :=
  x.1 < y.1 ∨ (x.1 = y.1 ∧ x.2.1 < y.2.1)

/-- The nodes currently on the heap. -/
def heapNodes (h : List HeapItem) : List Nat := h.map (fun x => x.2.2)

/-- The while loop of `_topological_sort` (widget.py 345-356), fuelled.
Every iteration pops one item, so `e.nodes.length + 1` units of fuel are
never exhausted before the heap empties (each node is pushed at most once:
its in-degree only decreases and crosses 0 at most once). -/
def kahnLoop (e : Editor) (edges : List (Nat × Nat)) :
    Nat → KS → List Nat → List Nat
  | 0, _, acc => acc
  | fuel + 1, ks, acc =>
    match popMin ks.heap with
    | none => acc
    | some (m, rest) =>
      let u := m.2.2
      kahnLoop e edges fuel (relax e { ks with heap := rest } (adjOf edges u))
        (acc ++ [u])

/-- The execution order accumulated by the while loop of
`_topological_sort`, as indices into `e.nodes`. -/
def kahnOrder (e : Editor) (st : Store) : List Nat :=
  let edges := buildEdges e st
  kahnLoop e edges (e.nodes.length + 1) (seedHeap e (inDegInit edges)) []

/-- What `process` iterates over: either a `Node` object (from the
completed sort) or — on the cycle fallback — a raw `(NID, UUID, node)`
triple of `self._nodes`.  `Sum.inl v` is the node of entry `v`,
`Sum.inr v` the entry triple itself. -/
abbrev SortItem := Nat ⊕ Nat

/-- `NodeEditor._topological_sort` (widget.py 329-362): the while-loop
order if it covered every node, otherwise `self._nodes` itself (the list
of triples). -/
def topologicalSort (e : Editor) (st : Store) : List SortItem :=
  let order := kahnOrder e st
  if order.length = e.nodes.length then order.map Sum.inl
  else (List.range e.nodes.length).map Sum.inr

/-- Acyclicity of the node-level dependency graph: some ranking of the
node indices strictly increases along every edge (for a finite graph this
is equivalent to the absence of directed cycles). -/
def Acyclic (e : Editor) (st : Store) : Prop :=
  ∃ rank : Nat → Nat, ∀ p ∈ buildEdges e st, rank p.1 < rank p.2

/-- Precondition for the dependents loop of the scheduler: every target is
accounted for by the in-degree map, heap entries are ready (in-degree 0),
heap nodes are unique, and heap counters are below the running counter. -/
structure RelaxPre (ks : KS) (ws : List Nat) : Prop where
  degGe : ∀ v, (ws.count v : Int) ≤ ks.deg v
  heapZero : ∀ x ∈ ks.heap, ks.deg x.2.2 = 0
  heapNd : (heapNodes ks.heap).Nodup
  counterLt : ∀ x ∈ ks.heap, x.2.1 < ks.counter

/-- What one run of the dependents loop guarantees. -/
structure RelaxPost (e : Editor) (ks ks' : KS) (ws : List Nat) : Prop where
  deg : ∀ v, ks'.deg v = ks.deg v - (ws.count v : Int)
  heapPrefix : ∃ post, ks'.heap = ks.heap ++ post ∧
    ∀ x ∈ post, x.2.2 ∈ ws ∧ x.1 = -(prioAt e x.2.2) ∧ ks.counter ≤ x.2.1
  heapNd : (heapNodes ks'.heap).Nodup
  heapZero : ∀ x ∈ ks'.heap, ks'.deg x.2.2 = 0
  counterMono : ks.counter ≤ ks'.counter
  counterLt : ∀ x ∈ ks'.heap, x.2.1 < ks'.counter
  readyNew : ∀ v, ks'.deg v = 0 → (ks.deg v = 0 ∧ v ∉ ws) ∨ v ∈ heapNodes ks'.heap

/-- The loop invariant of the scheduling while loop, tying the heap, the
in-degree map and the accumulated order `L` to the edge list. -/
structure KInv (e : Editor) (edges : List (Nat × Nat)) (ks : KS) (L : List Nat) : Prop where
  degEq : ∀ v, ks.deg v =
    (edges.countP (fun p => p.2 = v ∧ p.1 ∉ L) : Int)
  heapZero : ∀ x ∈ ks.heap, ks.deg x.2.2 = 0
  heapNotL : ∀ x ∈ ks.heap, x.2.2 ∉ L
  heapNd : (heapNodes ks.heap).Nodup
  heapBound : ∀ x ∈ ks.heap, x.2.2 < e.nodes.length
  heapCounter : ∀ x ∈ ks.heap, x.2.1 < ks.counter
  heapPrio : ∀ x ∈ ks.heap, x.1 = -(prioAt e x.2.2)
  ordNd : L.Nodup
  ordBound : ∀ v ∈ L, v < e.nodes.length
  topo : ∀ p ∈ edges, p.2 ∈ L → p.1 ∈ L ∧ L.indexOf p.1 < L.indexOf p.2
  ready : ∀ v, v < e.nodes.length → ks.deg v = 0 → v ∉ L → v ∈ heapNodes ks.heap

/-! ## One execution pass (`NodeEditor.process` and its helpers) -/

def dummyEntry : Entry :=
  ⟨"", "", ⟨"", 0, 0, [], [], 0, false, 0, false, 0, false, []⟩⟩

def nodeAt (e : Editor) (k : Nat) : NodeObj :=
  ((e.nodes.get? k).getD dummyEntry).node

def setNodeAt (e : Editor) (k : Nat) (n : NodeObj) : Editor :=
  { e with nodes := e.nodes.set k { (e.nodes.get? k).getD dummyEntry with node := n } }

/-- Python `set.add`. -/
def setAdd (l : List Nat) (k : Nat) : List Nat := if k ∈ l then l else l ++ [k]

/-- The mutable state the `process` tick and its helper closures share:
the editor (per-node `_executed` flags), the attribute store,
`executed_nodes`, `execution_count`, and `final_data`.  `runs` counts, per
node, the invocations that actually ran `process` (an observation the
theorems use; it mirrors no Python variable). -/
structure PState where
  ed : Editor
  st : Store
  executedNodes : List Nat
  execCount : Nat → Nat
  finalData : List (Option Val)
  runs : Nat → Nat

/-- The four-way `_node_type` dispatch shared by `process` (widget.py
406-416) and the three helpers (468-476, 503-511, 531-539): select the
input (`data` for INPUT, `None` for PROCESS and OUTPUT, `data` otherwise),
run `Node.execute`, and append OUTPUT results to `final_data`.  Only
`process` itself also appends the result of the final (IPO) branch to
`final_data` (`appendIpo`). -/
def execDispatch (procs : Nat → Option Val → Option Val) (ps : PState)
    (k : Nat) (data : Option Val) (appendIpo : Bool) : PState × Option Val :=
  let n := nodeAt ps.ed k
  let din : Option Val :=
    if n.nodeType = NT_INPUT then data
    else if n.nodeType = NT_PROCESS then none
    else if n.nodeType = NT_OUTPUT then none
    else data
  let r := execute (procs k) n din
  let res := r.2.1
  let doAppend :=
    n.nodeType = NT_OUTPUT ∨
      (appendIpo ∧ n.nodeType ≠ NT_INPUT ∧ n.nodeType ≠ NT_PROCESS ∧ n.nodeType ≠ NT_OUTPUT)
  let ps1 := { ps with
    ed := setNodeAt ps.ed k r.1,
    finalData := if doAppend then ps.finalData ++ [res] else ps.finalData,
    runs := fun v => if v = k ∧ r.2.2 then ps.runs v + 1 else ps.runs v }
  (ps1, res)

/-- Bookkeeping each caller performs right after a dispatch:
`executed_nodes.add(node)` and `execution_count[node] += 1`. -/
def markExecuted (ps : PState) (k : Nat) : PState :=
  { ps with executedNodes := setAdd ps.executedNodes k,
            execCount := fun v => if v = k then ps.execCount v + 1 else ps.execCount v }

/-- `NodeEditor._get_connected_past_nodes` (widget.py 550-564): the owners
of the parents of the node's input attributes, in order, without
deduplication. -/
def getConnectedPastNodes (e : Editor) (st : Store) (k : Nat) : List Nat :=
  (nodeAt e k).inAttrs.filterMap (fun iu =>
    match (st.getIn iu).parent with
    | none => none
    | some p => e.nodes.findIdx? (fun ent => p ∈ ent.node.outAttrs))

/-- `NodeEditor._get_connected_next_nodes` (widget.py 566-581): the owners
of the children of the node's output attributes, deduplicated in first-hit
order. -/
def getConnectedNextNodes (e : Editor) (st : Store) (k : Nat) : List Nat :=
  ((nodeAt e k).outAttrs.flatMap (fun ou =>
      ((st.getOut ou).children).filterMap (fun iu => ownerOfInput e iu))).foldl
    (fun acc b => if b ∈ acc then acc else acc ++ [b]) []

/-- `NodeEditor._ensure_dependencies_executed` (widget.py 487-517):
depth-first upward completion.  The Python recursion has no guard other
than the `executed_nodes` / `self_execute` test and can diverge on
self-executing cycles; `fuel` bounds the modelled recursion depth. -/
def ensureDeps (procs : Nat → Option Val → Option Val) :
    Nat → PState → Nat → Option Val → PState
  | 0, ps, _, _ => ps
  | fuel + 1, ps, k, data =>
    (getConnectedPastNodes ps.ed ps.st k).foldl
      (fun acc p =>
        if p ∉ acc.executedNodes ∨ (nodeAt acc.ed p).selfExecute then
          let acc1 := ensureDeps procs fuel acc p data
          let acc2 := (execDispatch procs acc1 p data false).1
          markExecuted acc2 p
        else acc)
      ps

/-- `NodeEditor._execute_connected_next_nodes` (widget.py 445-485), the
closure behind `run_connected_dependents`: for each directly connected
dependent, first complete its upstream dependencies, then execute it
unless it is already in `executed_nodes` and not `self_execute`.  (The
helper re-installation is closure plumbing with no modelled effect.) -/
def executeConnectedNextNodes (procs : Nat → Option Val → Option Val)
    (fuel : Nat) (ps : PState) (k : Nat) (data : Option Val) :
    PState × List (Option Val) :=
  (getConnectedNextNodes ps.ed ps.st k).foldl
    (fun acc nxt =>
      let acc1 := ensureDeps procs fuel acc.1 nxt data
      if nxt ∉ acc1.executedNodes ∨ (nodeAt acc1.ed nxt).selfExecute then
        let (acc2, res) := execDispatch procs acc1 nxt data false
        (markExecuted acc2 nxt, acc.2 ++ [res])
      else (acc1, acc.2))
    (ps, [])

/-- `NodeEditor._execute_connected_next_nodes_multiple` (widget.py
431-443), the closure behind `run_connected_dependents(times)`. -/
def executeConnectedNextNodesMultiple (procs : Nat → Option Val → Option Val)
    (fuel : Nat) (ps : PState) (k : Nat) (data : Option Val) (times : Nat) :
    PState × List (List (Option Val)) :=
  (List.range times).foldl
    (fun acc _ =>
      let r := executeConnectedNextNodes procs fuel acc.1 k data
      (r.1, acc.2 ++ [r.2]))
    (ps, [])

/-- `NodeEditor._execute_next_nodes` (widget.py 519-548), the closure
behind `run_remaining_in_order`, over the tail of the execution order
after the current index.  Helpers are only ever installed from `process`
after a completed (non-fallback) sort — on the fallback order `process`
raises before installing any helper (see the C3 theorem) — so the order
is passed here as node indices. -/
def executeNextNodes (procs : Nat → Option Val → Option Val)
    (ps : PState) (order : List Nat) (curIdx : Nat) (data : Option Val) :
    PState × List (Option Val) :=
  (order.drop (curIdx + 1)).foldl
    (fun acc k =>
      if k ∉ acc.1.executedNodes ∨ (nodeAt acc.1.ed k).selfExecute then
        let (ps2, res) := execDispatch procs acc.1 k data false
        (markExecuted ps2 k, acc.2 ++ [res])
      else acc)
    (ps, [])

/-- The per-item body of the `process` loop (widget.py 393-423).  A
fallback `Sum.inr` item is a raw `(NID, UUID, node)` tuple:
`_setup_node_helpers` then assigns an attribute on a tuple, raising
`AttributeError`; the `except` block calls `tuple.setTitleError`, raising
`AttributeError` again, which propagates out of `process`. -/
def processLoop (procs : Nat → Option Val → Option Val) (data : Option Val) :
    List SortItem → PState → Except String PState
  | [], ps => .ok ps
  | item :: rest, ps =>
    match item with
    | .inr _ => .error "AttributeError"
    | .inl k =>
      if k ∈ ps.executedNodes ∧ ¬(nodeAt ps.ed k).selfExecute then
        processLoop procs data rest ps
      else
        let ps1 := (execDispatch procs ps k data true).1
        processLoop procs data rest (markExecuted ps1 k)

def initialPState (e : Editor) (st : Store) : PState :=
  ⟨e, st, [], fun _ => 0, [], fun _ => 0⟩

/-- `NodeEditor.process(self, data, no_sort=False)` (widget.py 371-429)
with the default `no_sort=False`: reset every node, compute the sorted
order, run the loop, and return `final_data` if nonempty, else `data`.
`Sum.inl` is the collected `final_data`, `Sum.inr` the passed-through
`data`. -/
def processEditor (procs : Nat → Option Val → Option Val) (e : Editor)
    (st : Store) (data : Option Val) :
    Except String (PState × (List (Option Val) ⊕ Option Val)) :=
  let e1 : Editor :=
    { e with nodes := e.nodes.map (fun ent => { ent with node := resetExecution ent.node }) }
  if e1.nodes.isEmpty then .ok (initialPState e1 st, .inr data)
  else
    match processLoop procs data (topologicalSort e1 st) (initialPState e1 st) with
    | .error s => .error s
    | .ok ps => .ok (ps, if ps.finalData.isEmpty then .inr data else .inl ps.finalData)

/-! ## Persistence codec (`NodeEditor.save` / `NodeEditor.load`) -/

/-- `to_dict` of an attribute (node.py 57-64, 102-109): label, stable id
and uuid (the constant `'type'` tag carries no information beyond the
list the record sits in). -/
structure AttrRec where
  labelR : String
  idR : String
  uuidR : Nat
  deriving Repr, DecidableEq

/-- `Node.to_dict` (node.py 291-311) plus the `node_id` / `node_uuid`
fields `save` adds (widget.py 160-167).  `positionR` is the dpg position,
`(0, 0)` headless. -/
structure NodeRec where
  labelR : String
  uuidR : Nat
  staticUuidR : Nat
  nodeTypeR : Nat
  dataR : Val
  positionR : Int × Int
  internalDataR : List (String × Val)
  inputAttributesR : List AttrRec
  outputAttributesR : List AttrRec
  nodeIdR : String
  nodeUuidR : String
  deriving Repr, DecidableEq

/-- The exported record of `NodeEditor.save` (widget.py 169-173).
Connections are pairs `(output_attr.uuid, input_attr.uuid)`. -/
structure SaveRec where
  version : String
  nodesR : List NodeRec
  connectionsR : List (Nat × Nat)
  deriving Repr, DecidableEq

def attrRecOfIn (st : Store) (u : Nat) : AttrRec :=
  let a := st.getIn u; ⟨a.labelF, a.idS, a.uuid⟩

def attrRecOfOut (st : Store) (u : Nat) : AttrRec :=
  let a := st.getOut u; ⟨a.labelF, a.idS, a.uuid⟩

def nodeToDict (st : Store) (ent : Entry) : NodeRec :=
  let n := ent.node
  ⟨n.labelS, n.uuid, n.staticUuid, n.nodeType, n.dataD, (0, 0), n.internalData,
    n.inAttrs.map (attrRecOfIn st), n.outAttrs.map (attrRecOfOut st),
    ent.nid, ent.nuid⟩

/-- `NodeEditor.save` (widget.py 148-173). -/
def save (e : Editor) (st : Store) : SaveRec :=
  let connections := e.nodes.flatMap (fun ent =>
    ent.node.outAttrs.flatMap (fun ou =>
      ((st.getOut ou).children).map (fun iu => (ou, iu))))
  ⟨"1.0", e.nodes.map (nodeToDict st), connections⟩

/-- What a registered node factory builds (`node_factory(label, data)`):
a concrete `Node` subclass with a fixed node type, priority,
self-execute flag and attribute lists.  The factory functions themselves
are external user code; this record captures the structure of the node
they return. -/
structure FactoryDef where
  nodeTypeF : Nat
  priorityF : Int
  selfExecuteF : Bool
  inLabelsF : List String
  outLabelsF : List String
  deriving Repr, DecidableEq

/-- A fresh `InputNodeAttribute(label)` with the default stable id
`label + str(uuid)` (node.py 67-78) and default buffer size 10. -/
def mkInAttr (lbl : String) (u : Nat) : InAttr :=
  ⟨u, lbl, lbl ++ toString u, none, [], 10, none⟩

/-- A fresh `OutputNodeAttribute(label)` (node.py 13-23). -/
def mkOutAttr (lbl : String) (u : Nat) : OutAttr :=
  ⟨u, lbl, lbl ++ toString u, [], none⟩

/-- Running a factory: the `Node.__init__` uuids and the attribute uuids
are drawn from the process-wide `dpg.generate_uuid()` counter (node uuid,
static uuid, then the input and output attributes, in creation order). -/
def runFactory (fd : FactoryDef) (label : String) (data : Val) (st : Store) :
    NodeObj × Store :=
  let c := st.nextUuid
  let nIn := fd.inLabelsF.length
  let nOut := fd.outLabelsF.length
  let inUuids := (List.range nIn).map (fun j => c + 2 + j)
  let outUuids := (List.range nOut).map (fun j => c + 2 + nIn + j)
  let node : NodeObj :=
    ⟨label, c, c + 1, inUuids, outUuids, data, false, fd.nodeTypeF, false,
      fd.priorityF, fd.selfExecuteF, []⟩
  let newIns := (inUuids.zip fd.inLabelsF).map (fun p => mkInAttr p.2 p.1)
  let newOuts := (outUuids.zip fd.outLabelsF).map (fun p => mkOutAttr p.2 p.1)
  (node, { ins := st.ins ++ newIns, outs := st.outs ++ newOuts,
           nextUuid := c + 2 + nIn + nOut })

/-- `Node.load_from_dict` (node.py 323-333): restore `static_uuid`,
`internal_data`, `init_pos` (GUI-only) and `_node_type`.
`_update_attributes` (313-321) assigns `attr.label`, an attribute the
attribute classes never define nor read (their label is `_label`), so it
leaves the modelled state unchanged. -/
def loadFromDict (n : NodeObj) (rec : NodeRec) : NodeObj :=
  { n with staticUuid := rec.staticUuidR,
           internalData := rec.internalDataR,
           nodeType := rec.nodeTypeR }

/-- What an entry of `uuid_mapping` points at. -/
inductive MapTarget where
  | nodeM : MapTarget
  | inM : Nat → MapTarget
  | outM : Nat → MapTarget
  deriving Repr, DecidableEq

/-- The `NodeManager` registry (node.py 335-352): a dict from type id to
factory. -/
abbrev Registry := List (String × FactoryDef)

def Registry.find (reg : Registry) (nid : String) : Option FactoryDef :=
  (reg.find? (fun p => p.1 = nid)).map (fun p => p.2)

/-- The node-creation loop of `NodeEditor.load` (widget.py 184-215).
When the type id is missing from the registry (or falsy), `node` is set
to `None` and the very next uses of it (`len(node._input_attributes)`, or
`node._load_position = ...` — every record from `to_dict` has a
`position` key) raise `AttributeError`; the blanket `except` then makes
`load` return `False`, keeping whatever was already rebuilt.  Returns
(success, editor, store, uuid_mapping). -/
def loadNodesLoop (reg : Registry) :
    List NodeRec → Editor → Store → List (Nat × MapTarget) →
    Bool × Editor × Store × List (Nat × MapTarget)
  | [], e, st, mp => (true, e, st, mp)
  | rec :: rest, e, st, mp =>
    match (if rec.nodeIdR = "" then none else reg.find rec.nodeIdR) with
    | none => (false, e, st, mp)
    | some fd =>
      let r := runFactory fd rec.labelR rec.dataR st
      let node := loadFromDict r.1 rec
      let mp1 := mp ++ [(rec.uuidR, MapTarget.nodeM)]
      let mp2 := mp1 ++ rec.inputAttributesR.enum.filterMap (fun p =>
        (node.inAttrs.get? p.1).map (fun u => (p.2.uuidR, MapTarget.inM u)))
      let mp3 := mp2 ++ rec.outputAttributesR.enum.filterMap (fun p =>
        (node.outAttrs.get? p.1).map (fun u => (p.2.uuidR, MapTarget.outM u)))
      loadNodesLoop reg rest
        { e with nodes := e.nodes ++ [⟨rec.nodeIdR, rec.nodeUuidR, node⟩] }
        r.2 mp3

/-- `uuid_mapping.get`: dict lookup (keys are distinct in every record a
well-formed graph exports, so first-match lookup is dict lookup). -/
def mapLookup (mp : List (Nat × MapTarget)) (u : Nat) : Option MapTarget :=
  (mp.find? (fun p => p.1 = u)).map (fun p => p.2)

/-- The connection-replay loop of `NodeEditor.load` (widget.py 236-254).
The guard `if output_attr and input_attr and hasattr(output_attr,
'add_child')` passes only when the output side maps to an
`OutputNodeAttribute`; a non-input object on the input side would raise on
`clear_connection` (first component `false`, the outer handler returns
`False`).  Headless (`dpg.does_item_exist(self.uuid)` false) the raw
append/set_parent branch runs, otherwise `add_child`. -/
def replayConns (submitted : Bool) (mp : List (Nat × MapTarget)) :
    List (Nat × Nat) → Store → Bool × Store
  | [], st => (true, st)
  | c :: rest, st =>
    match mapLookup mp c.1, mapLookup mp c.2 with
    | some (MapTarget.outM o), some t =>
      match t with
      | MapTarget.inM i =>
        let st1 := clearConnection st i
        let st2 :=
          if submitted then addChild st1 o i
          else
            let st' := st1.updateOut o (fun a => { a with children := a.children ++ [i] })
            st'.updateIn i (fun a => { a with parent := some o })
        replayConns submitted mp rest st2
      | _ => (false, st)
    | _, _ => replayConns submitted mp rest st

/-- `Node.clear_all_connections` (node.py 145-152). -/
def clearAllConnectionsNode (st : Store) (n : NodeObj) : Store :=
  let st1 := n.inAttrs.foldl clearConnection st
  n.outAttrs.foldl clearConnectionsOut st1

/-- `NodeEditor.clear_graph` (widget.py 262-270). -/
def clearGraph (e : Editor) (st : Store) : Editor × Store :=
  let st1 := e.nodes.foldl (fun acc ent => clearAllConnectionsNode acc ent.node) st
  ({ e with nodes := [] }, st1)

/-- `NodeEditor.load(data, clear_existing=True)` (widget.py 175-260).
The visual-resubmission block (218-234) only redraws dpg items.  Returns
the Python return value (`True` on success, `False` when the blanket
`except` caught) together with the resulting editor and store. -/
def load (reg : Registry) (rec : SaveRec) (e : Editor) (st : Store) :
    Bool × Editor × Store :=
  let cg := clearGraph e st
  match loadNodesLoop reg rec.nodesR cg.1 cg.2 [] with
  | (false, e2, st2, _) => (false, e2, st2)
  | (true, e2, st2, mp) =>
    let r := replayConns e2.submitted mp rec.connectionsR st2
    (r.1, e2, r.2)

/-- Position-level connection relation: node `a`'s `p`-th output attribute
feeds node `b`'s `q`-th input attribute. -/
def attrInAt (e : Editor) (k q : Nat) : Option Nat :=
  (e.nodes.get? k).bind (fun ent => ent.node.inAttrs.get? q)

def attrOutAt (e : Editor) (k p : Nat) : Option Nat :=
  (e.nodes.get? k).bind (fun ent => ent.node.outAttrs.get? p)

def ConnectedAt (e : Editor) (st : Store) (a p b q : Nat) : Prop :=
  ∃ ou iu, attrOutAt e a p = some ou ∧ attrInAt e b q = some iu ∧
    iu ∈ (st.getOut ou).children

/-- The node a factory call followed by `load_from_dict` produces, with
uuids drawn from counter `c` (see `runFactory` and `loadFromDict`). -/
def builtNode (fd : FactoryDef) (rec : NodeRec) (c : Nat) : NodeObj :=
  ⟨rec.labelR, c, rec.staticUuidR,
    (List.range fd.inLabelsF.length).map (fun j => c + 2 + j),
    (List.range fd.outLabelsF.length).map (fun j => c + 2 + fd.inLabelsF.length + j),
    rec.dataR, false, rec.nodeTypeR, false, fd.priorityF, fd.selfExecuteF,
    rec.internalDataR⟩

/-- Number of uuids one node creation consumes. -/
def blockSize (fd : FactoryDef) : Nat := 2 + fd.inLabelsF.length + fd.outLabelsF.length

/-- What the node-creation loop of `load` builds, in closed form: the new
entries, the freshly created attribute objects, the uuid mapping, and the
final uuid counter.  `loadNodesLoop` is proved equal to this under the
round-trip hypotheses. -/
structure SimOut where
  entries : List Entry
  newIns : List InAttr
  newOuts : List OutAttr
  mp : List (Nat × MapTarget)
  next : Nat

def loadSim (reg : Registry) : List NodeRec → Nat → SimOut
  | [], c => ⟨[], [], [], [], c⟩
  | rec :: rs, c =>
    match (if rec.nodeIdR = "" then none else reg.find rec.nodeIdR) with
    | none => ⟨[], [], [], [], c⟩
    | some fd =>
      let node := builtNode fd rec c
      let mpBlock := (rec.uuidR, MapTarget.nodeM) ::
        (rec.inputAttributesR.enum.filterMap (fun p =>
          (node.inAttrs.get? p.1).map (fun u => (p.2.uuidR, MapTarget.inM u))) ++
         rec.outputAttributesR.enum.filterMap (fun p =>
          (node.outAttrs.get? p.1).map (fun u => (p.2.uuidR, MapTarget.outM u))))
      let rest := loadSim reg rs (c + blockSize fd)
      ⟨⟨rec.nodeIdR, rec.nodeUuidR, node⟩ :: rest.entries,
        (node.inAttrs.zip fd.inLabelsF).map (fun p => mkInAttr p.2 p.1) ++ rest.newIns,
        (node.outAttrs.zip fd.outLabelsF).map (fun p => mkOutAttr p.2 p.1) ++ rest.newOuts,
        mpBlock ++ rest.mp,
        rest.next⟩

/-- The inputs the connection replay appends to the children of new
output `u`, in replay order. -/
def transOf (mp : List (Nat × MapTarget)) (conns : List (Nat × Nat)) (u : Nat) : List Nat :=
  conns.filterMap (fun cn =>
    match mapLookup mp cn.1, mapLookup mp cn.2 with
    | some (MapTarget.outM o), some (MapTarget.inM i) => if o = u then some i else none
    | _, _ => none)

/-- Store evolution that renames nothing: same attribute uuids in the same
order and the same uuid counter (what `clear_graph` does). -/
def SameUuids (st st2 : Store) : Prop :=
  st2.ins.map (fun a => a.uuid) = st.ins.map (fun a => a.uuid) ∧
  st2.outs.map (fun a => a.uuid) = st.outs.map (fun a => a.uuid) ∧
  st2.nextUuid = st.nextUuid

/-- The node a registered factory returns has this structure (type,
priority, flags and attribute labels are fixed by the concrete subclass). -/
def FactoryMatches (fd : FactoryDef) (n : NodeObj) (st : Store) : Prop :=
  n.nodeType = fd.nodeTypeF ∧
  n.inAttrs.map (fun u => (st.getIn u).labelF) = fd.inLabelsF ∧
  n.outAttrs.map (fun u => (st.getOut u).labelF) = fd.outLabelsF

/-- Every uuid `load` will use as a `uuid_mapping` key for this editor. -/
def allMapKeys (e : Editor) : List Nat :=
  e.nodes.flatMap (fun ent => ent.node.uuid :: (ent.node.inAttrs ++ ent.node.outAttrs))

/-- Round-trip well-formedness of an editor/store pair: headless editor,
every node built by a registered factory it still matches, attribute
references resolving, dpg uuids globally distinct and below the
generator's counter, and children lists pointing at owned inputs without
duplicates. -/
structure EdWF (reg : Registry) (e : Editor) (st : Store) : Prop where
  notSubmitted : e.submitted = false
  registered : ∀ ent ∈ e.nodes, ent.nid ≠ "" ∧
    ∃ fd, reg.find ent.nid = some fd ∧ FactoryMatches fd ent.node st
  inResolve : ∀ ent ∈ e.nodes, ∀ u ∈ ent.node.inAttrs, (st.findIn u).isSome
  outResolve : ∀ ent ∈ e.nodes, ∀ u ∈ ent.node.outAttrs, (st.findOut u).isSome
  keysNodup : (allMapKeys e).Nodup
  childOwned : ∀ ent ∈ e.nodes, ∀ ou ∈ ent.node.outAttrs,
    ∀ c ∈ (st.getOut ou).children, ∃ b q, attrInAt e b q = some c
  allChildNodup : (e.nodes.flatMap (fun ent => ent.node.outAttrs.flatMap
    (fun ou => (st.getOut ou).children))).Nodup
  insBound : ∀ a ∈ st.ins, a.uuid < st.nextUuid
  outsBound : ∀ a ∈ st.outs, a.uuid < st.nextUuid

/-- A record the node-creation loop of `load` accepts: non-empty type id,
registered factory, and attribute records matching the factory's labels
(which is what `save` emits for a factory-built node). -/
def RecOK (reg : Registry) (rec : NodeRec) : Prop :=
  rec.nodeIdR ≠ "" ∧ ∃ fd, reg.find rec.nodeIdR = some fd ∧
    rec.inputAttributesR.map (fun a => a.labelR) = fd.inLabelsF ∧
    rec.outputAttributesR.map (fun a => a.labelR) = fd.outLabelsF

/-- The persistent content of one editor entry: type id, node type, static
uuid, internal data, and the attribute labels (looked up in the store).
This is the data the round-trip contract promises to reproduce. -/
def entStable (st : Store) (ent : Entry) :
    String × Nat × Nat × List (String × Val) × List String × List String :=
  (ent.nid, ent.node.nodeType, ent.node.staticUuid, ent.node.internalData,
   ent.node.inAttrs.map (fun u => (st.getIn u).labelF),
   ent.node.outAttrs.map (fun u => (st.getOut u).labelF))

/-- The connection list as pairs of attribute *stable ids*, the format the
spec claims the exported record uses (spec-side definition, for comparison
with `save`). -/
def stableConnections (e : Editor) (st : Store) : List (String × String) :=
  e.nodes.flatMap (fun ent =>
    ent.node.outAttrs.flatMap (fun ou =>
      ((st.getOut ou).children).map (fun iu => ((st.getOut ou).idS, (st.getIn iu).idS))))

/-- The input-side targets the connection replay resolves, in order. -/
def tgtIns (mp : List (Nat × MapTarget)) (conns : List (Nat × Nat)) : List Nat :=
  conns.filterMap (fun c =>
    match mapLookup mp c.2 with
    | some (MapTarget.inM i) => some i
    | _ => none)

/-- The rebuilt state `load` reaches after its node-creation loop when fed
this editor's own export (`clear_graph` keeps the uuid counter, so the
rebuild starts at `st.nextUuid`). -/
def simOf (reg : Registry) (e : Editor) (st : Store) : SimOut :=
  loadSim reg (e.nodes.map (nodeToDict st)) st.nextUuid

/-- The store `load` reaches after its node-creation loop when fed this
editor's own export: the cleared original attributes, then the fresh ones. -/
def stBOf (reg : Registry) (e : Editor) (st : Store) : Store :=
  ⟨(clearGraph e st).2.ins ++ (simOf reg e st).newIns,
   (clearGraph e st).2.outs ++ (simOf reg e st).newOuts,
   (simOf reg e st).next⟩

/-! ## Connection operations exposed by the widget (for the mirror
invariant) -/

/-- The connection-mutating operations the editor performs on attributes:
`connect` is the `_link_callback` sequence (widget.py 14-27:
`input_attr.clear_connection()` then `output_attr.add_child`);
`rawConnect` is the headless replay branch of `load` (widget.py 243-251:
`clear_connection`, then a raw `_children.append` and `set_parent`);
`disconnect` is the `_delink_callback` / deletion path
(`output_attr.remove_child`, widget.py 29-45); `clearConn` is a direct
`clear_connection`. -/
inductive ConnOp where
  | connect : Nat → Nat → ConnOp
  | rawConnect : Nat → Nat → ConnOp
  | disconnect : Nat → Nat → ConnOp
  | clearConn : Nat → ConnOp
  deriving Repr, DecidableEq

def applyOp (st : Store) : ConnOp → Store
  | .connect o i => addChild (clearConnection st i) o i
  | .rawConnect o i =>
    let st1 := clearConnection st i
    let st2 := st1.updateOut o (fun a => { a with children := a.children ++ [i] })
    st2.updateIn i (fun a => { a with parent := some o })
  | .disconnect o i => removeChild st o i
  | .clearConn i => clearConnection st i

def applyOps (st : Store) (ops : List ConnOp) : Store := ops.foldl applyOp st

/-- An operation only ever refers to attribute objects that exist (Python
holds object references, never dangling uuids). -/
def OpOK (st : Store) : ConnOp → Prop
  | .connect o i => (st.findOut o).isSome ∧ (st.findIn i).isSome
  | .rawConnect o i => (st.findOut o).isSome ∧ (st.findIn i).isSome
  | .disconnect o i => (st.findOut o).isSome ∧ (st.findIn i).isSome
  | .clearConn i => (st.findIn i).isSome

/-- Store well-formedness: attribute uuids identify objects uniquely,
children lists are duplicate-free and point at existing inputs, parents
point at existing outputs, and the connection relation is mirrored. -/
structure StoreWF (st : Store) : Prop where
  insNodup : (st.ins.map (fun a => a.uuid)).Nodup
  outsNodup : (st.outs.map (fun a => a.uuid)).Nodup
  childNodup : ∀ a ∈ st.outs, a.children.Nodup
  childMem : ∀ a ∈ st.outs, ∀ c ∈ a.children, (st.findIn c).isSome
  parentMem : ∀ b ∈ st.ins, ∀ p, b.parent = some p → (st.findOut p).isSome
  mirror : ∀ b ∈ st.ins, ∀ a ∈ st.outs, (b.parent = some a.uuid ↔ b.uuid ∈ a.children)

/-! ## Concrete fixtures used by witnesses and counterexamples -/

/-- A fresh two-attribute cyclic graph: node `A` (index 0, output 10,
input 11) and node `B` (index 1, output 12, input 13), connected
`A.out → B.in` and `B.out → A.in`. -/
def cycStore : Store :=
  ⟨[⟨11, "in", "iA", some 12, [], 10, none⟩, ⟨13, "in", "iB", some 10, [], 10, none⟩],
   [⟨10, "out", "oA", [13], none⟩, ⟨12, "out", "oB", [11], none⟩], 20⟩

def cycNodeA : NodeObj := ⟨"A", 1, 2, [11], [10], 0, false, NT_IPO, false, 0, false, []⟩

def cycNodeB : NodeObj := ⟨"B", 3, 4, [13], [12], 0, false, NT_IPO, false, 0, false, []⟩

def cycEditor : Editor := ⟨[⟨"a", "ua", cycNodeA⟩, ⟨"b", "ub", cycNodeB⟩], false⟩

/-- The same two nodes with only the `A.out → B.in` connection: acyclic. -/
def acyStore : Store :=
  ⟨[⟨11, "in", "iA", none, [], 10, none⟩, ⟨13, "in", "iB", some 10, [], 10, none⟩],
   [⟨10, "out", "oA", [13], none⟩, ⟨12, "out", "oB", [], none⟩], 20⟩

/-- A blank processing node of the given priority, used by the priority
witness (no attributes, hence no edges). -/
def blankNode (p : Int) : NodeObj := ⟨"n", 1, 2, [], [], 0, false, NT_PROCESS, false, p, false, []⟩

def prioEditor : Editor :=
  ⟨[⟨"x", "1", blankNode 1⟩, ⟨"y", "2", blankNode 5⟩, ⟨"z", "3", blankNode 5⟩], false⟩

def emptyStore : Store := ⟨[], [], 0⟩

/-! Fixture for the C2 counterexample: editor order `A, B, C`
(indices 0, 1, 2), all priorities equal, with `A`'s single output feeding
`C`'s input (uuid 21) first and `B`'s input (uuid 11) second, so the
dependents loop relaxes `C` before `B` although `B` was added to the
editor earlier. -/

def c2xNodeA : NodeObj := ⟨"A", 1, 2, [], [10], 0, false, NT_PROCESS, false, 0, false, []⟩

def c2xNodeB : NodeObj := ⟨"B", 3, 4, [11], [], 0, false, NT_PROCESS, false, 0, false, []⟩

def c2xNodeC : NodeObj := ⟨"C", 5, 6, [21], [], 0, false, NT_PROCESS, false, 0, false, []⟩

def c2xStore : Store :=
  ⟨[⟨11, "i", "iB", some 10, [], 10, none⟩, ⟨21, "i", "iC", some 10, [], 10, none⟩],
   [⟨10, "o", "oA", [21, 11], none⟩], 30⟩

def c2xEditor : Editor :=
  ⟨[⟨"a", "ua", c2xNodeA⟩, ⟨"b", "ub", c2xNodeB⟩, ⟨"c", "uc", c2xNodeC⟩], false⟩

/-- A never-executed node with constant processing function, for the
`Node.execute` claims. -/
def freshNode : NodeObj := ⟨"N", 1, 2, [], [], 0, false, NT_PROCESS, false, 0, false, []⟩

def constProc : Option Val → Option Val := fun _ => some 42

/-- Fixture for the re-execution-helper claim: node `X` (index 0, output
30) feeds node `A` (index 1, input 31), and `A` has `self_execute`
set. -/
def seStore : Store :=
  ⟨[⟨31, "in", "iA", some 30, [], 10, none⟩], [⟨30, "out", "oX", [31], none⟩], 40⟩

def seNodeX : NodeObj := ⟨"X", 5, 6, [], [30], 0, false, NT_PROCESS, false, 0, false, []⟩

def seNodeA : NodeObj := ⟨"A", 7, 8, [31], [], 0, false, NT_PROCESS, false, 0, true, []⟩

def seEditor : Editor := ⟨[⟨"x", "ux", seNodeX⟩, ⟨"a", "ua", seNodeA⟩], false⟩

def seProcs : Nat → Option Val → Option Val := fun _ _ => some 100

/-- The tick state right after `process(some 5)` on the self-execute
fixture (both nodes executed once). -/
def sePost : PState :=
  match processEditor seProcs seEditor seStore (some 5) with
  | .ok p => p.1
  | .error _ => initialPState seEditor seStore

/-- The state after node `X` then invokes `run_connected_dependents`
(`_execute_connected_next_nodes`) once, as its processing function
could mid-tick. -/
def seAfterHelper : PState × List (Option Val) :=
  executeConnectedNextNodes seProcs 4 sePost 0 (some 5)

/-- Registry and records for the unknown-node-type import claim. -/
def regK : Registry := [("known", ⟨NT_PROCESS, 0, false, ["kin"], ["kout"]⟩)]

def unknownRec : NodeRec :=
  ⟨"Mystery", 100, 101, NT_PROCESS, 0, (0, 0), [], [⟨"min", "mid", 102⟩], [], "mystery", "um"⟩

def knownRec : NodeRec :=
  ⟨"Known", 110, 111, NT_PROCESS, 0, (0, 0), [], [⟨"kin", "kid", 112⟩],
   [⟨"kout", "koid", 113⟩], "known", "uk"⟩

def c9Rec : SaveRec := ⟨"1.0", [unknownRec, knownRec], []⟩

/-! Fixtures for C8.  `cx1`/`cx2` are the same one-node self-loop graph up
to every attribute stable id and label, but with different dpg uuids
(10/11 versus 20/21); `save` emits different connection lists for them.
`c8editor`/`c8store` is a registered two-node graph with one connection,
used to witness the amended round-trip theorem. -/

def cx1Node : NodeObj := ⟨"N", 1, 2, [11], [10], 0, false, NT_PROCESS, false, 0, false, []⟩

def cx1Store : Store :=
  ⟨[⟨11, "i", "iid", some 10, [], 10, none⟩], [⟨10, "o", "oid", [11], none⟩], 12⟩

def cx1Editor : Editor := ⟨[⟨"t", "ut", cx1Node⟩], false⟩

def cx2Node : NodeObj := ⟨"N", 1, 2, [21], [20], 0, false, NT_PROCESS, false, 0, false, []⟩

def cx2Store : Store :=
  ⟨[⟨21, "i", "iid", some 20, [], 10, none⟩], [⟨20, "o", "oid", [21], none⟩], 22⟩

def cx2Editor : Editor := ⟨[⟨"t", "ut", cx2Node⟩], false⟩

def c8reg : Registry :=
  [("src", ⟨NT_PROCESS, 0, false, [], ["out"]⟩),
   ("dst", ⟨NT_PROCESS, 0, false, ["in"], []⟩)]

def c8nodeA : NodeObj := ⟨"A", 1, 2, [], [3], 0, false, NT_PROCESS, false, 0, false, []⟩

def c8nodeB : NodeObj := ⟨"B", 4, 5, [6], [], 0, false, NT_PROCESS, false, 0, false, []⟩

def c8store : Store :=
  ⟨[⟨6, "in", "in6", some 3, [], 10, none⟩], [⟨3, "out", "out3", [6], none⟩], 7⟩

def c8editor : Editor := ⟨[⟨"src", "uA", c8nodeA⟩, ⟨"dst", "uB", c8nodeB⟩], false⟩

/-! ## Helper lemmas about store lookup and update -/

theorem find?_upd_in (f : InAttr → InAttr) (hf : ∀ a, (f a).uuid = a.uuid) (u w : Nat) :
    ∀ l : List InAttr,
      (l.map (fun a => if a.uuid = u then f a else a)).find? (fun a => a.uuid = w) =
        if w = u then (l.find? (fun a => a.uuid = w)).map f else l.find? (fun a => a.uuid = w)
  | [] => by simp
  | a :: t => by
    simp only [List.map_cons, List.find?_cons]
    by_cases hau : a.uuid = u
    · by_cases haw : a.uuid = w
      · have hwu : w = u := haw ▸ hau
        simp [hau, haw, hf, hwu]
      · have h1 : ((f a).uuid = w) = False := by simp [hf a, haw]
        have hwu : ¬ (w = u) := fun h => haw (h ▸ hau)
        have huw : ¬ (u = w) := fun h => hwu h.symm
        simp [hau, haw, h1, hwu, huw, find?_upd_in f hf u w t]
    · by_cases haw : a.uuid = w
      · have hwu : ¬ (w = u) := fun h => hau (haw.trans h)
        simp [hau, haw, hwu]
      · simp [hau, haw, find?_upd_in f hf u w t]

theorem find?_upd_out (f : OutAttr → OutAttr) (hf : ∀ a, (f a).uuid = a.uuid) (u w : Nat) :
    ∀ l : List OutAttr,
      (l.map (fun a => if a.uuid = u then f a else a)).find? (fun a => a.uuid = w) =
        if w = u then (l.find? (fun a => a.uuid = w)).map f else l.find? (fun a => a.uuid = w)
  | [] => by simp
  | a :: t => by
    simp only [List.map_cons, List.find?_cons]
    by_cases hau : a.uuid = u
    · by_cases haw : a.uuid = w
      · have hwu : w = u := haw ▸ hau
        simp [hau, haw, hf, hwu]
      · have h1 : ((f a).uuid = w) = False := by simp [hf a, haw]
        have hwu : ¬ (w = u) := fun h => haw (h ▸ hau)
        have huw : ¬ (u = w) := fun h => hwu h.symm
        simp [hau, haw, h1, hwu, huw, find?_upd_out f hf u w t]
    · by_cases haw : a.uuid = w
      · have hwu : ¬ (w = u) := fun h => hau (haw.trans h)
        simp [hau, haw, hwu]
      · simp [hau, haw, find?_upd_out f hf u w t]

theorem findIn_updateIn (st : Store) (u w : Nat) (f : InAttr → InAttr)
    (hf : ∀ a, (f a).uuid = a.uuid) :
    (st.updateIn u f).findIn w =
      if w = u then (st.findIn w).map f else st.findIn w :=
  find?_upd_in f hf u w st.ins

theorem findOut_updateOut (st : Store) (u w : Nat) (f : OutAttr → OutAttr)
    (hf : ∀ a, (f a).uuid = a.uuid) :
    (st.updateOut u f).findOut w =
      if w = u then (st.findOut w).map f else st.findOut w :=
  find?_upd_out f hf u w st.outs

theorem findIn_updateOut (st : Store) (u w : Nat) (f : OutAttr → OutAttr) :
    (st.updateOut u f).findIn w = st.findIn w := rfl

theorem findOut_updateIn (st : Store) (u w : Nat) (f : InAttr → InAttr) :
    (st.updateIn u f).findOut w = st.findOut w := rfl

theorem getIn_updateIn_self (st : Store) (u : Nat) (f : InAttr → InAttr)
    (hf : ∀ a, (f a).uuid = a.uuid) (hs : (st.findIn u).isSome) :
    (st.updateIn u f).getIn u = f (st.getIn u) := by
  unfold Store.getIn
  rw [findIn_updateIn st u u f hf, if_pos rfl]
  obtain ⟨b, hb⟩ := Option.isSome_iff_exists.mp hs
  simp [hb]

theorem getIn_updateIn_ne (st : Store) (u w : Nat) (f : InAttr → InAttr)
    (hf : ∀ a, (f a).uuid = a.uuid) (hne : w ≠ u) :
    (st.updateIn u f).getIn w = st.getIn w := by
  unfold Store.getIn
  rw [findIn_updateIn st u w f hf, if_neg hne]

theorem getOut_updateOut_self (st : Store) (u : Nat) (f : OutAttr → OutAttr)
    (hf : ∀ a, (f a).uuid = a.uuid) (hs : (st.findOut u).isSome) :
    (st.updateOut u f).getOut u = f (st.getOut u) := by
  unfold Store.getOut
  rw [findOut_updateOut st u u f hf, if_pos rfl]
  obtain ⟨b, hb⟩ := Option.isSome_iff_exists.mp hs
  simp [hb]

theorem getOut_updateOut_ne (st : Store) (u w : Nat) (f : OutAttr → OutAttr)
    (hf : ∀ a, (f a).uuid = a.uuid) (hne : w ≠ u) :
    (st.updateOut u f).getOut w = st.getOut w := by
  unfold Store.getOut
  rw [findOut_updateOut st u w f hf, if_neg hne]

theorem getIn_updateOut (st : Store) (u w : Nat) (f : OutAttr → OutAttr) :
    (st.updateOut u f).getIn w = st.getIn w := rfl

theorem getOut_updateIn (st : Store) (u w : Nat) (f : InAttr → InAttr) :
    (st.updateIn u f).getOut w = st.getOut w := rfl

theorem isSome_findIn_updateIn (st : Store) (u w : Nat) (f : InAttr → InAttr)
    (hf : ∀ a, (f a).uuid = a.uuid) :
    ((st.updateIn u f).findIn w).isSome = (st.findIn w).isSome := by
  rw [findIn_updateIn st u w f hf]
  split_ifs <;> simp

theorem isSome_findOut_updateOut (st : Store) (u w : Nat) (f : OutAttr → OutAttr)
    (hf : ∀ a, (f a).uuid = a.uuid) :
    ((st.updateOut u f).findOut w).isSome = (st.findOut w).isSome := by
  rw [findOut_updateOut st u w f hf]
  split_ifs <;> simp

theorem getIn_removeChild (st : Store) (o i : Nat) (hi : (st.findIn i).isSome) :
    (removeChild st o i).getIn i =
      if i ∈ (st.getOut o).children then { st.getIn i with parent := none }
      else st.getIn i := by
  unfold removeChild
  split_ifs with h
  · exact getIn_updateIn_self (st.updateOut o _) i (fun a => { a with parent := none })
      (fun a => rfl) hi
  · rfl

theorem findIn_removeChild (st : Store) (o i w : Nat) :
    ((removeChild st o i).findIn w).isSome = (st.findIn w).isSome := by
  unfold removeChild
  split_ifs with h
  · exact isSome_findIn_updateIn _ i w (fun a => { a with parent := none }) (fun a => rfl)
  · rfl

theorem getIn_clearConnection (st : Store) (i : Nat) (hi : (st.findIn i).isSome) :
    (clearConnection st i).getIn i =
      { st.getIn i with parent := none, buffer := [], lastData := none } := by
  unfold clearConnection
  cases hp : (st.getIn i).parent with
  | none =>
    dsimp only
    rw [getIn_updateIn_self (st.updateIn i (fun a => { a with parent := none })) i
        (fun a => { a with buffer := [], lastData := none }) (fun a => rfl)
        (by rw [isSome_findIn_updateIn st i i (fun a => { a with parent := none }) (fun a => rfl)]
            exact hi)]
    rw [getIn_updateIn_self st i (fun a => { a with parent := none }) (fun a => rfl) hi]
  | some p =>
    dsimp only
    have h1 : ((removeChild st p i).findIn i).isSome := by
      rw [findIn_removeChild]; exact hi
    rw [getIn_updateIn_self ((removeChild st p i).updateIn i (fun a => { a with parent := none })) i
        (fun a => { a with buffer := [], lastData := none }) (fun a => rfl)
        (by rw [isSome_findIn_updateIn (removeChild st p i) i i (fun a => { a with parent := none }) (fun a => rfl)]
            exact h1)]
    rw [getIn_updateIn_self (removeChild st p i) i (fun a => { a with parent := none })
        (fun a => rfl) h1]
    rw [getIn_removeChild st p i hi]
    split_ifs <;> rfl

theorem getData_clearConnection (st : Store) (i : Nat) (hi : (st.findIn i).isSome) :
    (getData (clearConnection st i) i).1 = none := by
  unfold getData
  rw [getIn_clearConnection st i hi]

/-! ## Claim C5 -/

/-- Helper for C10/C5: once a node is marked executed, no later `execute`
call in a sequence ever runs `process`. -/
theorem processRuns_executed (f : Option Val → Option Val) (n : NodeObj)
    (h : n.executed = true) : ∀ ds : List (Option Val), processRuns f n ds = 0 := by
  intro ds
  induction ds with
  | nil => rfl
  | cons d t ih => simp [processRuns, execute, h, ih]

/-- C5 counterexample: the claim says a second `execute` on an
already-executed node returns the prior result.  With a processing
function returning 42, the first call returns 42 but the second call
returns its own argument 7, not 42: `Node.execute` returns `data`, the
argument, when `_executed` is set. -/
theorem c5_counterexample :
    (execute constProc freshNode (some 5)).2.1 = some 42 ∧
    (execute constProc (execute constProc freshNode (some 5)).1 (some 7)).2.1 = some 7 ∧
    some (7 : Val) ≠ some (42 : Val) := by
  refine ⟨rfl, rfl, by decide⟩

/-- C5 (amended): `Node.execute(external_input)` is a no-op that returns
its `data` argument unchanged (not the prior result) when the `executed`
flag is already true; otherwise it invokes the node's processing function,
sets `executed` to true, and returns the value the processing function
produced. -/
theorem c5_execute_contract (f : Option Val → Option Val) (n : NodeObj)
    (d d' : Option Val) (h : n.executed = false) :
    execute f n d = ({ n with executed := true }, f d, true) ∧
    execute f (execute f n d).1 d' = ((execute f n d).1, d', false) := by
  constructor
  · simp [execute, h]
  · simp [execute, h]

/-- C5 witness: the amended contract at a concrete never-executed node. -/
theorem c5_witness :
    execute constProc freshNode (some 5) =
      ({ freshNode with executed := true }, some 42, true) ∧
    execute constProc (execute constProc freshNode (some 5)).1 (some 7) =
      ((execute constProc freshNode (some 5)).1, some 7, false) :=
  c5_execute_contract constProc freshNode (some 5) (some 7) rfl

/-! ## Claim C10 -/

/-- On a processing function that leaves the node state alone, the
two-phase `executeSt` agrees with the atomic `execute` model used by the
scheduler claims. -/
theorem executeSt_pure (f : Option Val → Option Val) (n : NodeObj) (d : Option Val) :
    executeSt (fun n0 d0 => (n0, f d0)) n d = execute f n d := by
  unfold executeSt execute
  split_ifs <;> rfl

/-- Once the `executed` flag is set, no later top-level `execute` call in
a sequence reaches `process`, whatever the processing function does to
the node. -/
theorem processRunsSt_executed (f : NodeObj → Option Val → NodeObj × Option Val)
    (n : NodeObj) (h : n.executed = true) :
    ∀ ds : List (Option Val), processRunsSt f n ds = 0 := by
  intro ds
  induction ds with
  | nil => rfl
  | cons d t ih => simp [processRunsSt, executeSt, h, ih]

/-- C10 counterexample: the claim says `process` is invoked at most once
between two `reset_execution` calls because `execute`'s guard
early-returns.  But node.py sets `_executed` only after `process`
returns, so a processing function that re-enters `execute` (as the
injected `run_connected_dependents` helper does through
`_ensure_dependencies_executed`) passes the still-false guard and runs
the body again: starting from a freshly reset node whose body counts its
entries in `_data`, one tick's `execute` leaves the count at 2 — two
processing runs with no reset in between. -/
theorem c10_counterexample :
    (resetExecution freshNode).dataD = 0 ∧
    (executeSt (reentrantProc 1) (resetExecution freshNode) none).1.dataD = 2 ∧
    (executeSt (reentrantProc 1) (resetExecution freshNode) none).1.executed = true := by
  refine ⟨rfl, by decide, by decide⟩

/-- C10 (amended): between two `reset_execution` calls, at most one
*top-level* `execute` call runs the node's processing function — the
first real run sets `executed` on return and every later call
early-returns, whatever the `self_execute` flag and whatever the
processing function does to the node state.  A re-entrant `execute` call
issued from inside the node's own `process`, before the flag is set, is
the one exception and can run the body a second time within the tick
(see the counterexample). -/
theorem c10_process_at_most_once (f : NodeObj → Option Val → NodeObj × Option Val)
    (n : NodeObj) (ds : List (Option Val)) :
    processRunsSt f (resetExecution n) ds ≤ 1 := by
  cases ds with
  | nil => simp [processRunsSt]
  | cons d t =>
    have h1 : executeSt f (resetExecution n) d =
        ({ (f (resetExecution n) d).1 with executed := true },
         (f (resetExecution n) d).2, true) := by
      simp [executeSt, resetExecution]
    simp only [processRunsSt, h1]
    rw [processRunsSt_executed f _ rfl t]
    simp

/-! ## Claim C3 -/

/-- C3: on the cyclic two-node graph `A → B → A` the topological sort
falls back to returning the raw `(NID, UUID, node)` triples, and
`process()` then raises `AttributeError` (first when
`_setup_node_helpers` assigns an attribute on a tuple, then again when
the `except` block calls `tuple.setTitleError`), instead of returning
normally after executing every node once in insertion order. -/
theorem c3_cyclic_process_raises :
    topologicalSort cycEditor cycStore = [Sum.inr 0, Sum.inr 1] ∧
    processEditor (fun _ d => d) cycEditor cycStore (some 5) =
      Except.error "AttributeError" := by
  exact ⟨rfl, rfl⟩

/-! ## Claim C6 -/

/-- C6: connecting an unconnected (output, input) pair and then
disconnecting it — `add_child` followed by the disconnect routine
`clear_connection`, which performs `remove_child` on the parent —
restores the pre-connect state: the input's parent is absent, the
output's children no longer contain the input, and reading the input
afterwards yields no buffered value. -/
theorem c6_connect_then_disconnect (st : Store) (o i : Nat)
    (hi : (st.findIn i).isSome) (hpre : i ∉ (st.getOut o).children) :
    ((clearConnection (addChild st o i) i).getIn i).parent = none ∧
    i ∉ ((clearConnection (addChild st o i) i).getOut o).children ∧
    (getData (clearConnection (addChild st o i) i) i).1 = none := by
  have hadd : addChild st o i =
      (st.updateIn i (fun a => { a with parent := some o })).updateOut o
        (fun a => { a with children := a.children ++ [i] }) := by
    unfold addChild
    rw [if_neg hpre]
  have hi2 : ((addChild st o i).findIn i).isSome := by
    rw [hadd]
    show (((st.updateIn i (fun a => { a with parent := some o }))).findIn i).isSome = true
    rw [isSome_findIn_updateIn st i i (fun a => { a with parent := some o }) (fun a => rfl)]
    exact hi
  have hIn2 : (addChild st o i).getIn i = { st.getIn i with parent := some o } := by
    rw [hadd]
    show (st.updateIn i (fun a => { a with parent := some o })).getIn i = _
    exact getIn_updateIn_self st i (fun a => { a with parent := some o }) (fun a => rfl) hi
  refine ⟨?_, ?_, ?_⟩
  · rw [getIn_clearConnection _ i hi2]
  · unfold clearConnection
    rw [hIn2]
    dsimp only
    show i ∉ ((removeChild (addChild st o i) o i).getOut o).children
    by_cases ho : (st.findOut o).isSome
    · have hOut2 : (addChild st o i).getOut o =
          { st.getOut o with children := (st.getOut o).children ++ [i] } := by
        rw [hadd]
        exact getOut_updateOut_self _ o (fun a => { a with children := a.children ++ [i] })
          (fun a => rfl) ho
      unfold removeChild
      rw [hOut2]
      have hmem : i ∈ (st.getOut o).children ++ [i] := by simp
      rw [if_pos (by simp)]
      show i ∉ ((((addChild st o i).updateOut o
          (fun a => { a with children := a.children.erase i }))).getOut o).children
      rw [getOut_updateOut_self _ o (fun a => { a with children := a.children.erase i })
          (fun a => rfl)
          (by rw [hadd]
              show (((st.updateIn i _).updateOut o _).findOut o).isSome = true
              rw [isSome_findOut_updateOut _ o o (fun a => { a with children := a.children ++ [i] }) (fun a => rfl)]
              exact ho)]
      rw [hOut2]
      show i ∉ ((st.getOut o).children ++ [i]).erase i
      rw [List.erase_append_right _ hpre]
      simp [hpre]
    · have hOutNone : ((addChild st o i).findOut o).isSome = false := by
        rw [hadd]
        show (((st.updateIn i _).updateOut o _).findOut o).isSome = false
        rw [isSome_findOut_updateOut _ o o (fun a => { a with children := a.children ++ [i] }) (fun a => rfl)]
        simpa using ho
      have hOut2 : (addChild st o i).getOut o = dummyOut := by
        unfold Store.getOut
        have h2 : (addChild st o i).findOut o = none := by
          cases h : (addChild st o i).findOut o with
          | none => rfl
          | some a => rw [h] at hOutNone; simp at hOutNone
        rw [h2]
        rfl
      unfold removeChild
      rw [hOut2]
      rw [if_neg (by simp [dummyOut])]
      rw [hOut2]
      simp [dummyOut]
  · exact getData_clearConnection _ i hi2

/-! ## Claim C7: supporting invariant machinery -/
theorem nodup_uuid_map_in (g : InAttr → InAttr) (hg : ∀ a, (g a).uuid = a.uuid)
    (l : List InAttr) :
    (l.map g).map (fun a => a.uuid) = l.map (fun a => a.uuid) := by
  rw [List.map_map]
  apply List.map_congr_left
  intro a _
  simp [hg]

theorem nodup_uuid_map_out (g : OutAttr → OutAttr) (hg : ∀ a, (g a).uuid = a.uuid)
    (l : List OutAttr) :
    (l.map g).map (fun a => a.uuid) = l.map (fun a => a.uuid) := by
  rw [List.map_map]
  apply List.map_congr_left
  intro a _
  simp [hg]

theorem find?_some_uuid_in {st : Store} {i : Nat} {b : InAttr}
    (h : st.findIn i = some b) : b.uuid = i ∧ b ∈ st.ins := by
  refine ⟨by simpa using List.find?_some h, List.mem_of_find?_eq_some h⟩

theorem find?_some_uuid_out {st : Store} {o : Nat} {a : OutAttr}
    (h : st.findOut o = some a) : a.uuid = o ∧ a ∈ st.outs := by
  refine ⟨by simpa using List.find?_some h, List.mem_of_find?_eq_some h⟩

theorem mem_children_of_parent {st : Store} {i p : Nat} (hwf : StoreWF st)
    (hp : (st.getIn i).parent = some p) :
    (st.findIn i).isSome ∧ i ∈ (st.getOut p).children := by
  cases hfi : st.findIn i with
  | none =>
    exfalso
    unfold Store.getIn at hp
    rw [hfi] at hp
    simp [dummyIn] at hp
  | some b =>
    obtain ⟨hbu, hbm⟩ := find?_some_uuid_in hfi
    have hgb : st.getIn i = b := by unfold Store.getIn; rw [hfi]; rfl
    rw [hgb] at hp
    have hpo : (st.findOut p).isSome := hwf.parentMem b hbm p hp
    cases hfo : st.findOut p with
    | none => rw [hfo] at hpo; simp at hpo
    | some a =>
      obtain ⟨hau, ham⟩ := find?_some_uuid_out hfo
      have hmir := (hwf.mirror b hbm a ham).mp (by rw [hp, hau])
      have hga : st.getOut p = a := by unfold Store.getOut; rw [hfo]; rfl
      exact ⟨rfl, by rw [hga, ← hbu]; exact hmir⟩

theorem not_mem_children_of_no_parent {st : Store} {i : Nat} (hwf : StoreWF st)
    (hp : (st.getIn i).parent = none) :
    ∀ a ∈ st.outs, i ∉ a.children := by
  intro a ham hmem
  have hfi : (st.findIn i).isSome := hwf.childMem a ham i hmem
  cases hfound : st.findIn i with
  | none => rw [hfound] at hfi; simp at hfi
  | some b =>
    obtain ⟨hbu, hbm⟩ := find?_some_uuid_in hfound
    have hgb : st.getIn i = b := by unfold Store.getIn; rw [hfound]; rfl
    have hbp := (hwf.mirror b hbm a ham).mpr (by rw [hbu]; exact hmem)
    rw [hgb] at hp
    rw [hp] at hbp
    exact Option.noConfusion hbp

theorem wf_removeChild {st : Store} (o i : Nat) (hwf : StoreWF st) :
    StoreWF (removeChild st o i) := by
  unfold removeChild
  split_ifs with hbr
  case neg => exact hwf
  cases hfo : st.findOut o with
  | none =>
    exfalso
    unfold Store.getOut at hbr
    rw [hfo] at hbr
    simp [dummyOut] at hbr
  | some a0 =>
    obtain ⟨ha0u, ha0m⟩ := find?_some_uuid_out hfo
    have hga : st.getOut o = a0 := by unfold Store.getOut; rw [hfo]; rfl
    rw [hga] at hbr
    have hbp : ∀ b ∈ st.ins, b.uuid = i → b.parent = some o := by
      intro b hbm hbu
      have := (hwf.mirror b hbm a0 ha0m).mpr (by rw [hbu]; exact hbr)
      rw [this, ha0u]
    constructor
    · show ((st.ins.map _).map _).Nodup
      rw [nodup_uuid_map_in _ (fun a => by by_cases h : a.uuid = i <;> simp [h])]
      exact hwf.insNodup
    · show ((st.outs.map _).map _).Nodup
      rw [nodup_uuid_map_out _ (fun a => by by_cases h : a.uuid = o <;> simp [h])]
      exact hwf.outsNodup
    · intro a' ha'
      obtain ⟨a, ham, rfl⟩ := List.mem_map.mp ha'
      by_cases hau : a.uuid = o
      · simp only [hau, if_pos]
        exact (hwf.childNodup a ham).erase i
      · simp only [hau, if_neg, ite_false]
        exact hwf.childNodup a ham
    · intro a' ha' c hc
      obtain ⟨a, ham, rfl⟩ := List.mem_map.mp ha'
      have hcm : c ∈ a.children := by
        by_cases hau : a.uuid = o
        · simp only [hau, if_pos] at hc
          exact List.erase_subset _ _ hc
        · simpa [hau] using hc
      have h1 := hwf.childMem a ham c hcm
      show ((((st.updateOut o _).updateIn i
        (fun a => { a with parent := none })).findIn c)).isSome = true
      rw [isSome_findIn_updateIn _ i c (fun a => { a with parent := none }) (fun a => rfl)]
      exact h1
    · intro b' hb' p hbp'
      obtain ⟨b, hbm, rfl⟩ := List.mem_map.mp hb'
      by_cases hbu : b.uuid = i
      · simp [hbu] at hbp'
      · simp only [hbu, if_neg, ite_false] at hbp'
        have h1 := hwf.parentMem b hbm p hbp'
        show ((((st.updateOut o _).updateIn i _).findOut p)).isSome = true
        rw [findOut_updateIn]
        rw [isSome_findOut_updateOut st o p
          (fun a => { a with children := a.children.erase i }) (fun a => rfl)]
        exact h1
    · intro b' hb' a' ha'
      obtain ⟨b, hbm, rfl⟩ := List.mem_map.mp hb'
      obtain ⟨a, ham, rfl⟩ := List.mem_map.mp ha'
      by_cases hbu : b.uuid = i <;> by_cases hau : a.uuid = o
      · simp only [hbu, hau, if_pos]
        simp only [(hwf.childNodup a ham).mem_erase_iff]
        simp
      · simp only [hbu, hau, if_pos, if_neg, ite_false]
        have hbpar := hbp b hbm hbu
        constructor
        · intro h; exact absurd h (by simp)
        · intro h
          have := (hwf.mirror b hbm a ham).mpr (by rw [hbu]; exact h)
          rw [hbpar] at this
          exact absurd (Option.some.inj this).symm hau
      · simp only [hbu, hau, if_pos, if_neg, ite_false]
        rw [List.mem_erase_of_ne hbu, ← hau]
        exact hwf.mirror b hbm a ham
      · simp only [hbu, hau, if_neg, ite_false]
        exact hwf.mirror b hbm a ham



theorem findIn_eq_of_mem_nodup {st : Store} (hnd : (st.ins.map (fun a => a.uuid)).Nodup)
    {b : InAttr} (hbm : b ∈ st.ins) {i : Nat} (hbu : b.uuid = i) :
    st.findIn i = some b := by
  cases hf : st.findIn i with
  | none =>
    have := List.find?_eq_none.mp hf b hbm
    simp [hbu] at this
  | some b0 =>
    obtain ⟨hb0u, hb0m⟩ := find?_some_uuid_in hf
    have heq : b0 = b :=
      List.inj_on_of_nodup_map hnd hb0m hbm (by rw [hbu, hb0u])
    rw [heq]

theorem findOut_eq_of_mem_nodup {st : Store} (hnd : (st.outs.map (fun a => a.uuid)).Nodup)
    {a : OutAttr} (ham : a ∈ st.outs) {o : Nat} (hau : a.uuid = o) :
    st.findOut o = some a := by
  cases hf : st.findOut o with
  | none =>
    have := List.find?_eq_none.mp hf a ham
    simp [hau] at this
  | some a0 =>
    obtain ⟨ha0u, ha0m⟩ := find?_some_uuid_out hf
    have heq : a0 = a :=
      List.inj_on_of_nodup_map hnd ha0m ham (by rw [hau, ha0u])
    rw [heq]

theorem updateIn_parent_none_eq {st : Store} {i : Nat}
    (h : ∀ b ∈ st.ins, b.uuid = i → b.parent = none) :
    st.updateIn i (fun a => { a with parent := none }) = st := by
  unfold Store.updateIn
  have hmap : st.ins.map (fun a => if a.uuid = i then { a with parent := none } else a)
      = st.ins := by
    conv_rhs => rw [← List.map_id st.ins]
    apply List.map_congr_left
    intro a ha
    by_cases hu : a.uuid = i
    · have := h a ha hu
      cases a
      simp_all
    · simp [hu]
  rw [hmap]

theorem wf_updateIn_keep {st : Store} (u : Nat) (g : InAttr → InAttr)
    (hgu : ∀ a, (g a).uuid = a.uuid) (hgp : ∀ a, (g a).parent = a.parent)
    (hwf : StoreWF st) : StoreWF (st.updateIn u g) := by
  constructor
  · show ((st.ins.map _).map _).Nodup
    rw [nodup_uuid_map_in _ (fun a => by by_cases h : a.uuid = u <;> simp [h, hgu])]
    exact hwf.insNodup
  · exact hwf.outsNodup
  · exact hwf.childNodup
  · intro a ham c hc
    have h1 := hwf.childMem a ham c hc
    show ((st.updateIn u g).findIn c).isSome = true
    rw [isSome_findIn_updateIn st u c g hgu]
    exact h1
  · intro b' hb' p hp
    obtain ⟨b, hbm, rfl⟩ := List.mem_map.mp hb'
    have hbp : b.parent = some p := by
      by_cases hbu : b.uuid = u
      · rw [if_pos hbu] at hp; rw [← hgp b]; exact hp
      · rw [if_neg hbu] at hp; exact hp
    exact hwf.parentMem b hbm p hbp
  · intro b' hb' a ham
    obtain ⟨b, hbm, rfl⟩ := List.mem_map.mp hb'
    by_cases hbu : b.uuid = u
    · rw [if_pos hbu]
      rw [hgp b, hgu b]
      exact hwf.mirror b hbm a ham
    · rw [if_neg hbu]
      exact hwf.mirror b hbm a ham

theorem removeChild_parent_none {st : Store} {o i : Nat}
    (hbr : i ∈ (st.getOut o).children) :
    ∀ b ∈ (removeChild st o i).ins, b.uuid = i → b.parent = none := by
  unfold removeChild
  rw [if_pos hbr]
  intro b hbm hbu
  obtain ⟨c, hcm, rfl⟩ := List.mem_map.mp hbm
  by_cases hcu : c.uuid = i
  · simp [hcu]
  · rw [if_neg hcu] at hbu ⊢
    exact absurd hbu hcu

theorem wf_clearConnection {st : Store} (i : Nat) (hwf : StoreWF st) :
    StoreWF (clearConnection st i) := by
  unfold clearConnection
  cases hp : (st.getIn i).parent with
  | none =>
    dsimp only
    rw [updateIn_parent_none_eq (by
      intro b hbm hbu
      have := findIn_eq_of_mem_nodup hwf.insNodup hbm hbu
      have hgb : st.getIn i = b := by unfold Store.getIn; rw [this]; rfl
      rw [← hgb]; exact hp)]
    exact wf_updateIn_keep i _ (fun a => rfl) (fun a => rfl) hwf
  | some p =>
    dsimp only
    have h1 := wf_removeChild p i hwf
    obtain ⟨hfi, hmem⟩ := mem_children_of_parent hwf hp
    rw [updateIn_parent_none_eq (removeChild_parent_none hmem)]
    exact wf_updateIn_keep i _ (fun a => rfl) (fun a => rfl) h1



theorem not_mem_children_getOut {st : Store} {i : Nat} (hwf : StoreWF st)
    (hp : (st.getIn i).parent = none) (o : Nat) :
    i ∉ (st.getOut o).children := by
  cases hfo : st.findOut o with
  | none =>
    unfold Store.getOut
    rw [hfo]
    simp [dummyOut]
  | some a =>
    have hga : st.getOut o = a := by unfold Store.getOut; rw [hfo]; rfl
    rw [hga]
    exact not_mem_children_of_no_parent hwf hp a (find?_some_uuid_out hfo).2

theorem wf_addChild {st : Store} {o i : Nat} (hwf : StoreWF st)
    (ho : (st.findOut o).isSome) (hi : (st.findIn i).isSome)
    (hp : (st.getIn i).parent = none) : StoreWF (addChild st o i) := by
  have hnotmem : ∀ a ∈ st.outs, i ∉ a.children := not_mem_children_of_no_parent hwf hp
  have hbpn : ∀ b ∈ st.ins, b.uuid = i → b.parent = none := by
    intro b hbm hbu
    have := findIn_eq_of_mem_nodup hwf.insNodup hbm hbu
    have hgb : st.getIn i = b := by unfold Store.getIn; rw [this]; rfl
    rw [← hgb]; exact hp
  unfold addChild
  split_ifs with hbr
  · exact hwf
  constructor
  · show ((st.ins.map _).map _).Nodup
    rw [nodup_uuid_map_in _ (fun a => by by_cases h : a.uuid = i <;> simp [h])]
    exact hwf.insNodup
  · show ((st.outs.map _).map _).Nodup
    rw [nodup_uuid_map_out _ (fun a => by by_cases h : a.uuid = o <;> simp [h])]
    exact hwf.outsNodup
  · intro a' ha'
    obtain ⟨a, ham, rfl⟩ := List.mem_map.mp ha'
    by_cases hau : a.uuid = o
    · rw [if_pos hau]
      show (a.children ++ [i]).Nodup
      have := hnotmem a ham
      simp [List.nodup_append, hwf.childNodup a ham, this]
    · rw [if_neg hau]
      exact hwf.childNodup a ham
  · intro a' ha' c hc
    obtain ⟨a, ham, rfl⟩ := List.mem_map.mp ha'
    have hcm : c ∈ a.children ∨ c = i := by
      by_cases hau : a.uuid = o
      · rw [if_pos hau] at hc
        simpa using hc
      · rw [if_neg hau] at hc
        exact Or.inl hc
    show ((((st.updateIn i _).updateOut o _)).findIn c).isSome = true
    rw [findIn_updateOut]
    rw [isSome_findIn_updateIn st i c (fun a => { a with parent := some o }) (fun a => rfl)]
    cases hcm with
    | inl h => exact hwf.childMem a ham c h
    | inr h => rw [h]; exact hi
  · intro b' hb' p hbp'
    obtain ⟨b, hbm, rfl⟩ := List.mem_map.mp hb'
    have hpm : p = o ∨ b.parent = some p := by
      by_cases hbu : b.uuid = i
      · rw [if_pos hbu] at hbp'
        simp at hbp'
        exact Or.inl hbp'.symm
      · rw [if_neg hbu] at hbp'
        exact Or.inr hbp'
    show ((((st.updateIn i _).updateOut o _)).findOut p).isSome = true
    rw [isSome_findOut_updateOut _ o p (fun a => { a with children := a.children ++ [i] }) (fun a => rfl)]
    show ((st.updateIn i _).findOut p).isSome = true
    rw [findOut_updateIn]
    cases hpm with
    | inl h => rw [h]; exact ho
    | inr h => exact hwf.parentMem b hbm p h
  · intro b' hb' a' ha'
    obtain ⟨b, hbm, rfl⟩ := List.mem_map.mp hb'
    obtain ⟨a, ham, rfl⟩ := List.mem_map.mp ha'
    by_cases hbu : b.uuid = i <;> by_cases hau : a.uuid = o
    · rw [if_pos hbu, if_pos hau]
      show some o = some a.uuid ↔ b.uuid ∈ a.children ++ [i]
      simp [hau, hbu]
    · rw [if_pos hbu, if_neg hau]
      show some o = some a.uuid ↔ b.uuid ∈ a.children
      constructor
      · intro h
        exact absurd (Option.some.inj h).symm hau
      · intro h
        rw [hbu] at h
        exact absurd h (hnotmem a ham)
    · rw [if_neg hbu, if_pos hau]
      show b.parent = some a.uuid ↔ b.uuid ∈ a.children ++ [i]
      rw [List.mem_append]
      constructor
      · intro h
        exact Or.inl ((hwf.mirror b hbm a ham).mp h)
      · intro h
        cases h with
        | inl h => exact (hwf.mirror b hbm a ham).mpr h
        | inr h => simp at h; exact absurd h hbu
    · rw [if_neg hbu, if_neg hau]
      exact hwf.mirror b hbm a ham



theorem findOut_removeChild (st : Store) (o i w : Nat) :
    ((removeChild st o i).findOut w).isSome = (st.findOut w).isSome := by
  unfold removeChild
  split_ifs with h
  · show (((st.updateOut o _).updateIn i _).findOut w).isSome = _
    rw [findOut_updateIn]
    exact isSome_findOut_updateOut st o w
      (fun a => { a with children := a.children.erase i }) (fun a => rfl)
  · rfl

theorem findIn_isSome_clearConnection (st : Store) (i w : Nat) :
    ((clearConnection st i).findIn w).isSome = (st.findIn w).isSome := by
  unfold clearConnection
  cases hp : (st.getIn i).parent with
  | none =>
    dsimp only
    rw [isSome_findIn_updateIn _ i w (fun a => { a with buffer := [], lastData := none }) (fun a => rfl)]
    rw [isSome_findIn_updateIn _ i w (fun a => { a with parent := none }) (fun a => rfl)]
  | some p =>
    dsimp only
    rw [isSome_findIn_updateIn _ i w (fun a => { a with buffer := [], lastData := none }) (fun a => rfl)]
    rw [isSome_findIn_updateIn _ i w (fun a => { a with parent := none }) (fun a => rfl)]
    exact findIn_removeChild st p i w

theorem findOut_isSome_clearConnection (st : Store) (i w : Nat) :
    ((clearConnection st i).findOut w).isSome = (st.findOut w).isSome := by
  unfold clearConnection
  cases hp : (st.getIn i).parent with
  | none => rfl
  | some p =>
    dsimp only
    show ((removeChild st p i).findOut w).isSome = _
    exact findOut_removeChild st p i w

theorem raw_eq_addChild {st : Store} {o i : Nat} (h : i ∉ (st.getOut o).children) :
    (st.updateOut o (fun a => { a with children := a.children ++ [i] })).updateIn i
        (fun a => { a with parent := some o }) = addChild st o i := by
  unfold addChild
  rw [if_neg h]
  rfl

theorem wf_applyOp {st : Store} {op : ConnOp} (hwf : StoreWF st) (hok : OpOK st op) :
    StoreWF (applyOp st op) := by
  cases op with
  | connect o i =>
    obtain ⟨ho, hi⟩ := hok
    have h1 : StoreWF (clearConnection st i) := wf_clearConnection i hwf
    have hi1 : ((clearConnection st i).findIn i).isSome := by
      rw [findIn_isSome_clearConnection]; exact hi
    have hp1 : ((clearConnection st i).getIn i).parent = none := by
      rw [getIn_clearConnection st i hi]
    have ho1 : ((clearConnection st i).findOut o).isSome := by
      rw [findOut_isSome_clearConnection]; exact ho
    exact wf_addChild h1 ho1 hi1 hp1
  | rawConnect o i =>
    obtain ⟨ho, hi⟩ := hok
    have h1 : StoreWF (clearConnection st i) := wf_clearConnection i hwf
    have hi1 : ((clearConnection st i).findIn i).isSome := by
      rw [findIn_isSome_clearConnection]; exact hi
    have hp1 : ((clearConnection st i).getIn i).parent = none := by
      rw [getIn_clearConnection st i hi]
    have ho1 : ((clearConnection st i).findOut o).isSome := by
      rw [findOut_isSome_clearConnection]; exact ho
    show StoreWF (((clearConnection st i).updateOut o _).updateIn i _)
    rw [raw_eq_addChild (not_mem_children_getOut h1 hp1 o)]
    exact wf_addChild h1 ho1 hi1 hp1
  | disconnect o i => exact wf_removeChild o i hwf
  | clearConn i => exact wf_clearConnection i hwf

theorem findIn_isSome_applyOp (st : Store) (op : ConnOp) (w : Nat) :
    ((applyOp st op).findIn w).isSome = (st.findIn w).isSome := by
  cases op with
  | connect o i =>
    show ((addChild (clearConnection st i) o i).findIn w).isSome = _
    unfold addChild
    split_ifs with h
    · exact findIn_isSome_clearConnection st i w
    · show ((((clearConnection st i).updateIn i _).updateOut o _).findIn w).isSome = _
      rw [findIn_updateOut]
      rw [isSome_findIn_updateIn _ i w (fun a => { a with parent := some o }) (fun a => rfl)]
      exact findIn_isSome_clearConnection st i w
  | rawConnect o i =>
    show ((((clearConnection st i).updateOut o _).updateIn i _).findIn w).isSome = _
    rw [isSome_findIn_updateIn _ i w (fun a => { a with parent := some o }) (fun a => rfl)]
    show (((clearConnection st i)).findIn w).isSome = _
    exact findIn_isSome_clearConnection st i w
  | disconnect o i => exact findIn_removeChild st o i w
  | clearConn i => exact findIn_isSome_clearConnection st i w

theorem findOut_isSome_applyOp (st : Store) (op : ConnOp) (w : Nat) :
    ((applyOp st op).findOut w).isSome = (st.findOut w).isSome := by
  cases op with
  | connect o i =>
    show ((addChild (clearConnection st i) o i).findOut w).isSome = _
    unfold addChild
    split_ifs with h
    · exact findOut_isSome_clearConnection st i w
    · show ((((clearConnection st i).updateIn i _).updateOut o _).findOut w).isSome = _
      rw [isSome_findOut_updateOut _ o w (fun a => { a with children := a.children ++ [i] }) (fun a => rfl)]
      show (((clearConnection st i)).findOut w).isSome = _
      exact findOut_isSome_clearConnection st i w
  | rawConnect o i =>
    show ((((clearConnection st i).updateOut o _).updateIn i _).findOut w).isSome = _
    rw [findOut_updateIn]
    rw [isSome_findOut_updateOut _ o w (fun a => { a with children := a.children ++ [i] }) (fun a => rfl)]
    exact findOut_isSome_clearConnection st i w
  | disconnect o i => exact findOut_removeChild st o i w
  | clearConn i => exact findOut_isSome_clearConnection st i w

theorem opok_applyOp {st : Store} (op' : ConnOp) {op : ConnOp} (hok : OpOK st op) :
    OpOK (applyOp st op') op := by
  cases op with
  | connect o i =>
    exact ⟨by rw [findOut_isSome_applyOp]; exact hok.1, by rw [findIn_isSome_applyOp]; exact hok.2⟩
  | rawConnect o i =>
    exact ⟨by rw [findOut_isSome_applyOp]; exact hok.1, by rw [findIn_isSome_applyOp]; exact hok.2⟩
  | disconnect o i =>
    exact ⟨by rw [findOut_isSome_applyOp]; exact hok.1, by rw [findIn_isSome_applyOp]; exact hok.2⟩
  | clearConn i =>
    show ((applyOp st op').findIn i).isSome
    rw [findIn_isSome_applyOp]; exact hok

theorem wf_applyOps {st : Store} {ops : List ConnOp} (hwf : StoreWF st)
    (hok : ∀ op ∈ ops, OpOK st op) : StoreWF (applyOps st ops) := by
  induction ops generalizing st with
  | nil => exact hwf
  | cons op t ih =>
    show StoreWF (applyOps (applyOp st op) t)
    exact ih (wf_applyOp hwf (hok op (List.mem_cons_self op t)))
      (fun op' h' => opok_applyOp op (hok op' (List.mem_cons_of_mem op h')))

/-- C6 witness: the round trip at a concrete store (output 12, input 11
of the acyclic fixture, initially unconnected). -/
theorem c6_witness :
    ((clearConnection (addChild acyStore 12 11) 11).getIn 11).parent = none ∧
    11 ∉ ((clearConnection (addChild acyStore 12 11) 11).getOut 12).children ∧
    (getData (clearConnection (addChild acyStore 12 11) 11) 11).1 = none :=
  c6_connect_then_disconnect acyStore 12 11 (by decide) (by decide)

/-! ## Claim C7 -/

/-- C7: after any sequence of the editor's connect and disconnect
operations on a well-formed store, the attribute connection relation is
mirrored: an input's parent is a given output exactly when that output's
children list contains the input. -/
theorem c7_connections_mirrored (st : Store) (ops : List ConnOp)
    (hwf : StoreWF st) (hok : ∀ op ∈ ops, OpOK st op) :
    ∀ b ∈ (applyOps st ops).ins, ∀ a ∈ (applyOps st ops).outs,
      (b.parent = some a.uuid ↔ b.uuid ∈ a.children) :=
  (wf_applyOps hwf hok).mirror

/-- C7 witness: after a concrete connect / disconnect sequence on the
acyclic fixture store, the mirror property holds at input 11 and
output 12 (which the sequence has just connected). -/
theorem c7_witness :
    (((applyOps acyStore [ConnOp.connect 12 11, ConnOp.disconnect 10 13]).getIn 11).parent =
        some ((applyOps acyStore [ConnOp.connect 12 11, ConnOp.disconnect 10 13]).getOut 12).uuid ↔
      ((applyOps acyStore [ConnOp.connect 12 11, ConnOp.disconnect 10 13]).getIn 11).uuid ∈
        ((applyOps acyStore [ConnOp.connect 12 11, ConnOp.disconnect 10 13]).getOut 12).children) :=
  c7_connections_mirrored acyStore [ConnOp.connect 12 11, ConnOp.disconnect 10 13]
    ⟨by decide, by decide, by decide, by decide, by decide, by decide⟩
    (by
      intro op h
      simp only [List.mem_cons, List.not_mem_nil, or_false] at h
      rcases h with rfl | rfl
      · exact ⟨by decide, by decide⟩
      · exact ⟨by decide, by decide⟩)
    ((applyOps acyStore [ConnOp.connect 12 11, ConnOp.disconnect 10 13]).getIn 11)
    (by decide)
    ((applyOps acyStore [ConnOp.connect 12 11, ConnOp.disconnect 10 13]).getOut 12)
    (by decide)

/-! ## Scheduler machinery: the heap, the dependents loop, the loop
invariant -/

theorem hle_refl (x : HeapItem) : hle x x := Or.inr ⟨rfl, le_refl _⟩

theorem hle_trans {x y z : HeapItem} (h1 : hle x y) (h2 : hle y z) : hle x z := by
  unfold hle at *
  rcases h1 with h1 | ⟨h1e, h1c⟩ <;> rcases h2 with h2 | ⟨h2e, h2c⟩
  · exact Or.inl (lt_trans h1 h2)
  · exact Or.inl (h2e ▸ h1)
  · exact Or.inl (h1e ▸ h2)
  · exact Or.inr ⟨h1e.trans h2e, le_trans h1c h2c⟩

theorem hle_of_not_hle {x y : HeapItem} (h : ¬ hle x y) : hle y x := by
  unfold hle at *
  push_neg at h
  obtain ⟨h1, h2⟩ := h
  rcases lt_or_eq_of_le h1 with h3 | h3
  · exact Or.inl h3
  · exact Or.inr ⟨h3, le_of_lt (h2 h3.symm)⟩

theorem not_hle_of_hlt {x y : HeapItem} (h : hlt x y) : ¬ hle y x := by
  unfold hlt at h
  unfold hle
  push_neg
  rcases h with h | ⟨he, hc⟩
  · exact ⟨le_of_lt h, fun he2 => absurd (he2 ▸ h) (lt_irrefl _)⟩
  · exact ⟨le_of_eq he, fun _ => hc⟩

theorem popMin_eq_none {h : List HeapItem} (hp : popMin h = none) : h = [] := by
  cases h with
  | nil => rfl
  | cons x xs =>
    unfold popMin at hp
    cases hx : popMin xs with
    | none => rw [hx] at hp; simp at hp
    | some q =>
      obtain ⟨m', rest'⟩ := q
      rw [hx] at hp
      dsimp only at hp
      split_ifs at hp

theorem popMin_perm {h : List HeapItem} {m : HeapItem} {r : List HeapItem}
    (hp : popMin h = some (m, r)) : h.Perm (m :: r) := by
  induction h generalizing m r with
  | nil => simp [popMin] at hp
  | cons x xs ih =>
    unfold popMin at hp
    cases hx : popMin xs with
    | none =>
      rw [hx] at hp
      have hnil := popMin_eq_none hx
      simp at hp
      obtain ⟨rfl, rfl⟩ := hp
      rw [hnil]
    | some q =>
      obtain ⟨m', rest'⟩ := q
      rw [hx] at hp
      dsimp only at hp
      split_ifs at hp with hc
      · simp at hp
        obtain ⟨rfl, rfl⟩ := hp
        exact List.Perm.refl _
      · simp at hp
        obtain ⟨rfl, rfl⟩ := hp
        exact ((ih hx).cons x).trans (List.Perm.swap m' x rest')

theorem popMin_min {h : List HeapItem} {m : HeapItem} {r : List HeapItem}
    (hp : popMin h = some (m, r)) : ∀ y ∈ h, hle m y := by
  induction h generalizing m r with
  | nil => simp [popMin] at hp
  | cons x xs ih =>
    unfold popMin at hp
    cases hx : popMin xs with
    | none =>
      rw [hx] at hp
      have hnil := popMin_eq_none hx
      simp at hp
      obtain ⟨rfl, rfl⟩ := hp
      intro y hy
      rw [hnil] at hy
      simp at hy
      rw [hy]
      exact hle_refl x
    | some q =>
      obtain ⟨m', rest'⟩ := q
      rw [hx] at hp
      dsimp only at hp
      split_ifs at hp with hc
      · simp at hp
        obtain ⟨rfl, rfl⟩ := hp
        intro y hy
        rcases List.mem_cons.mp hy with rfl | hy
        · exact hle_refl y
        · exact hle_trans hc (ih hx y hy)
      · simp at hp
        obtain ⟨rfl, rfl⟩ := hp
        intro y hy
        rcases List.mem_cons.mp hy with rfl | hy
        · exact hle_of_not_hle hc
        · exact ih hx y hy

theorem relaxStep_deg (e : Editor) (ks : KS) (w v : Nat) :
    (relaxStep e ks w).deg v = if v = w then ks.deg w - 1 else ks.deg v := by
  unfold relaxStep
  by_cases h : ks.deg w - 1 = 0
  · rw [if_pos h]
  · rw [if_neg h]

theorem relaxStep_counter_mono (e : Editor) (ks : KS) (w : Nat) :
    ks.counter ≤ (relaxStep e ks w).counter := by
  unfold relaxStep
  split_ifs <;> simp

theorem relax_post (e : Editor) :
    ∀ (ws : List Nat) (ks : KS), RelaxPre ks ws → RelaxPost e ks (relax e ks ws) ws := by
  intro ws
  induction ws with
  | nil =>
    intro ks pre
    refine ⟨?_, ⟨[], by simp [relax], by simp⟩, pre.heapNd, pre.heapZero, le_refl _,
      pre.counterLt, ?_⟩
    · intro v; simp [relax]
    · intro v hv
      exact Or.inl ⟨by simpa [relax] using hv, List.not_mem_nil v⟩
  | cons w ws ih =>
    intro ks pre
    have hcw : (1 : Int) ≤ ks.deg w := by
      have := pre.degGe w
      simp [List.count_cons] at this
      omega
    have hwheap : ∀ x ∈ ks.heap, x.2.2 ≠ w := by
      intro x hx hxw
      have := pre.heapZero x hx
      rw [hxw] at this
      omega
    have hstep : RelaxPre (relaxStep e ks w) ws := by
      constructor
      · intro v
        rw [relaxStep_deg]
        have hge := pre.degGe v
        by_cases hvw : v = w
        · subst hvw
          rw [if_pos rfl]
          simp [List.count_cons] at hge
          omega
        · rw [if_neg hvw]
          have hcnt : List.count v (w :: ws) = List.count v ws := by
            simp [List.count_cons, hvw]
          rw [hcnt] at hge
          exact hge
      · intro x hx
        rw [relaxStep_deg]
        unfold relaxStep at hx
        split_ifs at hx with hdw
        · simp only at hx
          rcases List.mem_append.mp hx with hx | hx
          · rw [if_neg (hwheap x hx)]
            exact pre.heapZero x hx
          · simp at hx
            rw [hx]
            simp [hdw]
        · rw [if_neg (hwheap x hx)]
          exact pre.heapZero x hx
      · unfold relaxStep
        split_ifs with hdw
        · show (heapNodes (ks.heap ++ [(-(prioAt e w), ks.counter, w)])).Nodup
          unfold heapNodes
          rw [List.map_append]
          refine List.Nodup.append pre.heapNd (by simp) ?_
          intro a ha hb
          simp at hb
          subst hb
          obtain ⟨x, hx, hxa⟩ := List.mem_map.mp ha
          exact hwheap x hx hxa
        · exact pre.heapNd
      · intro x hx
        unfold relaxStep at hx ⊢
        split_ifs at hx ⊢ with hdw
        · simp only at hx ⊢
          rcases List.mem_append.mp hx with hx | hx
          · exact Nat.lt_succ_of_lt (pre.counterLt x hx)
          · simp at hx
            rw [hx]
            simp
        · exact pre.counterLt x hx
    have post := ih (relaxStep e ks w) hstep
    have hrw : relax e ks (w :: ws) = relax e (relaxStep e ks w) ws := rfl
    rw [hrw]
    constructor
    · intro v
      rw [post.deg v, relaxStep_deg]
      by_cases hvw : v = w
      · subst hvw
        rw [if_pos rfl]
        simp [List.count_cons]
        omega
      · rw [if_neg hvw]
        have : List.count v (w :: ws) = List.count v ws := by
          simp [List.count_cons, hvw]
        rw [this]
    · obtain ⟨p1, hp1, hp1prop⟩ := post.heapPrefix
      by_cases hdw : ks.deg w - 1 = 0
      · refine ⟨(-(prioAt e w), ks.counter, w) :: p1, ?_, ?_⟩
        · rw [hp1]
          have : (relaxStep e ks w).heap = ks.heap ++ [(-(prioAt e w), ks.counter, w)] := by
            unfold relaxStep
            rw [if_pos hdw]
          rw [this]
          simp
        · intro x hx
          rcases List.mem_cons.mp hx with rfl | hx
          · exact ⟨List.mem_cons_self w ws, rfl, le_refl _⟩
          · obtain ⟨h1, h2, h3⟩ := hp1prop x hx
            refine ⟨List.mem_cons_of_mem w h1, h2, ?_⟩
            calc ks.counter ≤ (relaxStep e ks w).counter := relaxStep_counter_mono e ks w
              _ ≤ x.2.1 := h3
      · refine ⟨p1, ?_, ?_⟩
        · rw [hp1]
          have : (relaxStep e ks w).heap = ks.heap := by
            unfold relaxStep
            rw [if_neg hdw]
          rw [this]
        · intro x hx
          obtain ⟨h1, h2, h3⟩ := hp1prop x hx
          refine ⟨List.mem_cons_of_mem w h1, h2, ?_⟩
          calc ks.counter ≤ (relaxStep e ks w).counter := relaxStep_counter_mono e ks w
            _ ≤ x.2.1 := h3
    · exact post.heapNd
    · exact post.heapZero
    · exact le_trans (relaxStep_counter_mono e ks w) post.counterMono
    · exact post.counterLt
    · intro v hv
      rcases post.readyNew v hv with ⟨h0, hnw⟩ | hmem
      · by_cases hvw : v = w
        · subst hvw
          have hdw : ks.deg v - 1 = 0 := by
            rw [relaxStep_deg, if_pos rfl] at h0
            exact h0
          have hpush : v ∈ heapNodes (relaxStep e ks v).heap := by
            unfold relaxStep
            rw [if_pos hdw]
            unfold heapNodes
            simp
          refine Or.inr ?_
          obtain ⟨p1, hp1, _⟩ := post.heapPrefix
          rw [hp1]
          unfold heapNodes at hpush ⊢
          rw [List.map_append]
          exact List.mem_append_left _ hpush
        · rw [relaxStep_deg, if_neg hvw] at h0
          exact Or.inl ⟨h0, by simp [hvw, hnw]⟩
      · exact Or.inr hmem



theorem countP_split {α : Type} (l : List α) (f g h : α → Bool)
    (hsplit : ∀ a ∈ l, f a = (g a || h a) ∧ (g a && h a) = false) :
    l.countP f = l.countP g + l.countP h := by
  induction l with
  | nil => rfl
  | cons a t ih =>
    rw [List.countP_cons, List.countP_cons, List.countP_cons]
    obtain ⟨h1, h2⟩ := hsplit a (List.mem_cons_self a t)
    have ih' := ih (fun x hx => hsplit x (List.mem_cons_of_mem a hx))
    cases hg : g a <;> cases hh : h a <;>
      simp [hg, hh] at h1 h2 <;> simp [h1, hg, hh, ih'] <;> omega

theorem adjOf_count (edges : List (Nat × Nat)) (u v : Nat) :
    (adjOf edges u).count v = edges.countP (fun p => p.1 = u ∧ p.2 = v) := by
  induction edges with
  | nil => rfl
  | cons p t ih =>
    unfold adjOf at ih ⊢
    rw [List.filterMap_cons, List.countP_cons]
    by_cases hp : p.1 = u
    · rw [if_pos hp]
      by_cases hv : p.2 = v <;> simp [List.count_cons, hp, hv, ih]
    · rw [if_neg hp]
      simp [hp, ih]

theorem adjOf_mem {edges : List (Nat × Nat)} {u w : Nat} (h : w ∈ adjOf edges u) :
    (u, w) ∈ edges := by
  unfold adjOf at h
  obtain ⟨p, hp, hpw⟩ := List.mem_filterMap.mp h
  by_cases h1 : p.1 = u
  · rw [if_pos h1] at hpw
    have h2 : p.2 = w := Option.some.inj hpw
    have : p = (u, w) := by
      obtain ⟨p1, p2⟩ := p
      simp at h1 h2
      rw [h1, h2]
    rw [← this]
    exact hp
  · rw [if_neg h1] at hpw
    exact Option.noConfusion hpw

/-! ## Claim C4 -/

/-- C4: on the fixture where already-executed node `A` has
`self_execute = true`, invoking `run_connected_dependents` from `X` does
re-invoke `A.execute` — `execution_count[A]` rises from 1 to 2 — but
`Node.execute` early-returns on the still-set `_executed` flag, so `A`'s
processing is NOT performed anew (its process-run count stays 1),
contradicting the claim that a `self_execute` node runs again on each
helper invocation. -/
theorem c4_self_execute_not_rerun_by_helper :
    (nodeAt sePost.ed 1).selfExecute = true ∧
    (nodeAt sePost.ed 1).executed = true ∧
    sePost.runs 1 = 1 ∧ sePost.execCount 1 = 1 ∧
    seAfterHelper.1.execCount 1 = 2 ∧
    seAfterHelper.1.runs 1 = 1 := by
  exact ⟨rfl, rfl, rfl, rfl, rfl, rfl⟩

/-! ## Claim C9 -/

/-- C9: importing a record whose first node has an unregistered type does
not skip that node and continue: `load` sets `node = None`, dereferences
it, and the blanket handler makes the whole import return `False` with
the registered node after it never loaded — while the same record without
the unknown node imports fine.  This contradicts the claim (and spec)
that the import as a whole succeeds with only the unknown node absent. -/
theorem c9_unknown_type_aborts_load :
    (load regK c9Rec ⟨[], false⟩ emptyStore).1 = false ∧
    (load regK c9Rec ⟨[], false⟩ emptyStore).2.1.nodes = [] ∧
    (load regK ⟨"1.0", [knownRec], []⟩ ⟨[], false⟩ emptyStore).1 = true ∧
    (load regK ⟨"1.0", [knownRec], []⟩ ⟨[], false⟩ emptyStore).2.1.nodes.length = 1 := by
  exact ⟨rfl, rfl, rfl, rfl⟩

/-! ## Claims C1 and C2: Kahn loop correctness -/
theorem kinv_step (e : Editor) (edges : List (Nat × Nat))
    (hEB : ∀ p ∈ edges, p.1 < e.nodes.length ∧ p.2 < e.nodes.length)
    {ks : KS} {L : List Nat} {m : HeapItem} {rest : List HeapItem}
    (hinv : KInv e edges ks L) (hpop : popMin ks.heap = some (m, rest)) :
    KInv e edges (relax e { ks with heap := rest } (adjOf edges m.2.2)) (L ++ [m.2.2]) := by
  have hperm := popMin_perm hpop
  have hmem_m : m ∈ ks.heap := hperm.mem_iff.mpr (List.mem_cons_self m rest)
  have hu0 : ks.deg m.2.2 = 0 := hinv.heapZero m hmem_m
  have huL : m.2.2 ∉ L := hinv.heapNotL m hmem_m
  have hun : m.2.2 < e.nodes.length := hinv.heapBound m hmem_m
  have hndperm : (heapNodes ks.heap).Perm (m.2.2 :: heapNodes rest) := hperm.map _
  have hnd2 : (m.2.2 :: heapNodes rest).Nodup := hndperm.nodup_iff.mp hinv.heapNd
  have hunr : m.2.2 ∉ heapNodes rest := (List.nodup_cons.mp hnd2).1
  have hndr : (heapNodes rest).Nodup := (List.nodup_cons.mp hnd2).2
  have hrest_sub : ∀ x ∈ rest, x ∈ ks.heap := fun x hx =>
    hperm.mem_iff.mpr (List.mem_cons_of_mem m hx)
  have hpredL : ∀ p ∈ edges, p.2 = m.2.2 → p.1 ∈ L := by
    intro p hp hpu
    by_contra hnL
    have hpos : 0 < edges.countP (fun p => p.2 = m.2.2 ∧ p.1 ∉ L) := by
      rw [List.countP_pos_iff]
      exact ⟨p, hp, by simp [hpu, hnL]⟩
    have hdeq := hinv.degEq m.2.2
    rw [hu0] at hdeq
    omega
  have pre : RelaxPre { ks with heap := rest } (adjOf edges m.2.2) := by
    constructor
    · intro v
      show ((adjOf edges m.2.2).count v : Int) ≤ ks.deg v
      rw [adjOf_count, hinv.degEq v]
      have hle2 : edges.countP (fun p => p.1 = m.2.2 ∧ p.2 = v) ≤
          edges.countP (fun p => p.2 = v ∧ p.1 ∉ L) := by
        apply List.countP_mono_left
        intro p hp hsat
        simp at hsat ⊢
        exact ⟨hsat.2, hsat.1 ▸ huL⟩
      exact_mod_cast hle2
    · intro x hx
      exact hinv.heapZero x (hrest_sub x hx)
    · exact hndr
    · intro x hx
      exact hinv.heapCounter x (hrest_sub x hx)
  have post := relax_post e (adjOf edges m.2.2) { ks with heap := rest } pre
  obtain ⟨pitems, hpeq, hpprop⟩ := post.heapPrefix
  have hwsL : ∀ w ∈ adjOf edges m.2.2, w ∉ L ∧ w ≠ m.2.2 := by
    intro w hw
    have hedge := adjOf_mem hw
    constructor
    · intro hwL
      exact absurd ((hinv.topo (m.2.2, w) hedge hwL).1) huL
    · intro hwu
      have hpos : 0 < edges.countP (fun p => p.2 = m.2.2 ∧ p.1 ∉ L) := by
        rw [List.countP_pos_iff]
        refine ⟨(m.2.2, w), hedge, by simp [hwu, huL]⟩
      have hdeq := hinv.degEq m.2.2
      rw [hu0] at hdeq
      omega
  constructor
  · intro v
    rw [post.deg v]
    show ks.deg v - ((adjOf edges m.2.2).count v : Int) = _
    rw [adjOf_count, hinv.degEq v]
    have hsplit := countP_split edges (fun p => p.2 = v ∧ p.1 ∉ L)
      (fun p => p.2 = v ∧ p.1 ∉ L ++ [m.2.2]) (fun p => p.1 = m.2.2 ∧ p.2 = v) ?_
    · rw [hsplit]
      push_cast
      ring
    · intro p hp
      constructor
      · by_cases h2 : p.2 = v <;> by_cases h1 : p.1 = m.2.2 <;>
          simp [h2, h1, huL, List.mem_append]
      · by_cases h2 : p.2 = v <;> by_cases h1 : p.1 = m.2.2 <;>
          simp [h2, h1, List.mem_append]
  · exact post.heapZero
  · intro x hx
    rw [hpeq] at hx
    rcases List.mem_append.mp hx with hx | hx
    · have h1 : x.2.2 ∉ L := hinv.heapNotL x (hrest_sub x hx)
      have h2 : x.2.2 ≠ m.2.2 := by
        intro he
        exact hunr (he ▸ (List.mem_map.mpr ⟨x, hx, rfl⟩))
      simp [List.mem_append, h1, h2]
    · have hw := (hpprop x hx).1
      have := hwsL x.2.2 hw
      simp [List.mem_append, this.1, this.2]
  · exact post.heapNd
  · intro x hx
    rw [hpeq] at hx
    rcases List.mem_append.mp hx with hx | hx
    · exact hinv.heapBound x (hrest_sub x hx)
    · exact (hEB _ (adjOf_mem (hpprop x hx).1)).2
  · exact post.counterLt
  · intro x hx
    rw [hpeq] at hx
    rcases List.mem_append.mp hx with hx | hx
    · exact hinv.heapPrio x (hrest_sub x hx)
    · exact (hpprop x hx).2.1
  · exact List.Nodup.append hinv.ordNd (by simp) (by
      intro a ha hb
      simp at hb
      subst hb
      exact huL ha)
  · intro v hv
    rcases List.mem_append.mp hv with hv | hv
    · exact hinv.ordBound v hv
    · simp at hv
      rw [hv]
      exact hun
  · intro p hp hpL
    rcases List.mem_append.mp hpL with hpL | hpL
    · obtain ⟨h1, h2⟩ := hinv.topo p hp hpL
      refine ⟨List.mem_append_left _ h1, ?_⟩
      rw [List.indexOf_append_of_mem h1, List.indexOf_append_of_mem hpL]
      exact h2
    · simp at hpL
      have h1 : p.1 ∈ L := hpredL p hp hpL
      refine ⟨List.mem_append_left _ h1, ?_⟩
      rw [List.indexOf_append_of_mem h1, hpL, List.indexOf_append_of_not_mem huL]
      simp
      exact List.indexOf_lt_length.mpr h1
  · intro v hvn hv0 hvL
    rcases post.readyNew v hv0 with ⟨hz, hnw⟩ | hmem
    · have hvnotL : v ∉ L := fun h => hvL (List.mem_append_left _ h)
      have := hinv.ready v hvn hz hvnotL
      have hv2 : v ∈ m.2.2 :: heapNodes rest := hndperm.mem_iff.mp this
      rcases List.mem_cons.mp hv2 with rfl | hv2
      · exact absurd (List.mem_append_right _ (by simp)) hvL
      · rw [hpeq]
        unfold heapNodes at hv2 ⊢
        rw [List.map_append]
        exact List.mem_append_left _ hv2
    · exact hmem



theorem nodup_bound_length_le {L : List Nat} {n : Nat} (hnd : L.Nodup)
    (hb : ∀ v ∈ L, v < n) : L.length ≤ n := by
  have hsub : L ⊆ List.range n := fun v hv => List.mem_range.mpr (hb v hv)
  have := (hnd.subperm hsub).length_le
  simpa using this

theorem seed_fold (e : Editor) (d : Nat → Int) :
    ∀ (l : List Nat) (ks0 : KS),
    (l.foldl (fun ks v =>
      if d v = 0 then
        { ks with heap := ks.heap ++ [(-(prioAt e v), ks.counter, v)],
                  counter := ks.counter + 1 }
      else ks) ks0).deg = ks0.deg ∧
    ks0.counter ≤ (l.foldl (fun ks v =>
      if d v = 0 then
        { ks with heap := ks.heap ++ [(-(prioAt e v), ks.counter, v)],
                  counter := ks.counter + 1 }
      else ks) ks0).counter ∧
    ∃ post, (l.foldl (fun ks v =>
      if d v = 0 then
        { ks with heap := ks.heap ++ [(-(prioAt e v), ks.counter, v)],
                  counter := ks.counter + 1 }
      else ks) ks0).heap = ks0.heap ++ post ∧
      heapNodes post = l.filter (fun v => d v = 0) ∧
      (∀ x ∈ post, x.1 = -(prioAt e x.2.2) ∧ ks0.counter ≤ x.2.1 ∧
        x.2.1 < (l.foldl (fun ks v =>
          if d v = 0 then
            { ks with heap := ks.heap ++ [(-(prioAt e v), ks.counter, v)],
                      counter := ks.counter + 1 }
          else ks) ks0).counter) ∧
      List.Pairwise (fun x y : HeapItem => x.2.1 < y.2.1) post := by
  intro l
  induction l with
  | nil =>
    intro ks0
    refine ⟨rfl, le_refl _, [], by simp, by simp [heapNodes], by simp, by simp⟩
  | cons v l ih =>
    intro ks0
    by_cases hv : d v = 0
    · obtain ⟨hdeg, hcnt, post, hheap, hnodes, hprop, hpw⟩ :=
        ih { ks0 with heap := ks0.heap ++ [(-(prioAt e v), ks0.counter, v)],
                      counter := ks0.counter + 1 }
      dsimp only at hcnt hprop
      rw [List.foldl_cons, if_pos hv]
      refine ⟨hdeg, by omega, (-(prioAt e v), ks0.counter, v) :: post, ?_, ?_, ?_, ?_⟩
      · rw [hheap]
        simp
      · unfold heapNodes at hnodes ⊢
        simp only [List.map_cons, hnodes]
        simp [hv]
      · intro x hx
        rcases List.mem_cons.mp hx with rfl | hx
        · refine ⟨rfl, le_refl _, ?_⟩
          show ks0.counter < _
          omega
        · obtain ⟨h1, h2, h3⟩ := hprop x hx
          exact ⟨h1, by omega, h3⟩
      · refine List.Pairwise.cons ?_ hpw
        intro y hy
        show ks0.counter < y.2.1
        have := (hprop y hy).2.1
        omega
    · rw [List.foldl_cons, if_neg hv]
      obtain ⟨hdeg, hcnt, post, hheap, hnodes, hprop, hpw⟩ := ih ks0
      exact ⟨hdeg, hcnt, post, hheap, by rw [hnodes]; simp [hv], hprop, hpw⟩



theorem buildEdges_bound (e : Editor) (st : Store) :
    ∀ p ∈ buildEdges e st, p.1 < e.nodes.length ∧ p.2 < e.nodes.length := by
  intro p hp
  unfold buildEdges at hp
  obtain ⟨q, hq, hp2⟩ := List.mem_flatMap.mp hp
  obtain ⟨ou, hou, hp3⟩ := List.mem_flatMap.mp hp2
  obtain ⟨iu, hiu, hp4⟩ := List.mem_filterMap.mp hp3
  cases hb : ownerOfInput e iu with
  | none => rw [hb] at hp4; simp at hp4
  | some b =>
    rw [hb] at hp4
    simp at hp4
    have h1 : q.1 < e.nodes.length := by
      have := List.mem_enum_iff_getElem?.mp hq
      exact (List.getElem?_eq_some.mp this).1
    have h2 : b < e.nodes.length := by
      unfold ownerOfInput at hb
      exact (List.findIdx?_eq_some_iff_findIdx_eq.mp hb).1
    rw [← hp4]
    exact ⟨h1, h2⟩

theorem kinv_init (e : Editor) (st : Store) :
    KInv e (buildEdges e st)
      (seedHeap e (inDegInit (buildEdges e st))) [] := by
  obtain ⟨hdeg, hcnt, post, hheap, hnodes, hprop, hpw⟩ :=
    seed_fold e (inDegInit (buildEdges e st)) (List.range e.nodes.length)
      ⟨[], inDegInit (buildEdges e st), 0⟩
  have hheap2 : (seedHeap e (inDegInit (buildEdges e st))).heap = post := by
    unfold seedHeap
    rw [hheap]
    simp
  have hdeg2 : (seedHeap e (inDegInit (buildEdges e st))).deg =
      inDegInit (buildEdges e st) := hdeg
  have hzero : ∀ x ∈ post, inDegInit (buildEdges e st) x.2.2 = 0 := by
    intro x hx
    have : x.2.2 ∈ heapNodes post := List.mem_map.mpr ⟨x, hx, rfl⟩
    rw [hnodes] at this
    have := List.of_mem_filter this
    simpa using this
  constructor
  · intro v
    rw [hdeg2]
    unfold inDegInit
    congr 1
    apply List.countP_congr
    intro p hp
    simp
  · intro x hx
    rw [hheap2] at hx
    rw [hdeg2]
    exact hzero x hx
  · intro x hx
    simp
  · rw [hheap2]
    unfold heapNodes
    rw [show post.map (fun x => x.2.2) = heapNodes post from rfl, hnodes]
    exact (List.nodup_range _).filter _
  · intro x hx
    rw [hheap2] at hx
    have : x.2.2 ∈ heapNodes post := List.mem_map.mpr ⟨x, hx, rfl⟩
    rw [hnodes] at this
    exact List.mem_range.mp (List.mem_of_mem_filter this)
  · intro x hx
    rw [hheap2] at hx
    exact (hprop x hx).2.2
  · intro x hx
    rw [hheap2] at hx
    exact (hprop x hx).1
  · exact List.nodup_nil
  · intro v hv
    simp at hv
  · intro p hp hpL
    simp at hpL
  · intro v hvn hv0 hvL
    rw [hheap2]
    show v ∈ heapNodes post
    rw [hnodes]
    apply List.mem_filter.mpr
    refine ⟨List.mem_range.mpr hvn, ?_⟩
    rw [hdeg2] at hv0
    simpa using hv0

theorem kahnLoop_inv (e : Editor) (edges : List (Nat × Nat))
    (hEB : ∀ p ∈ edges, p.1 < e.nodes.length ∧ p.2 < e.nodes.length) :
    ∀ (fuel : Nat) (ks : KS) (L : List Nat), KInv e edges ks L →
    ∃ ksf, KInv e edges ksf (kahnLoop e edges fuel ks L) ∧
      L <+: kahnLoop e edges fuel ks L ∧
      (e.nodes.length < fuel + L.length → ksf.heap = []) := by
  intro fuel
  induction fuel with
  | zero =>
    intro ks L hinv
    refine ⟨ks, hinv, List.prefix_refl _, ?_⟩
    intro hlen
    exfalso
    have := nodup_bound_length_le hinv.ordNd hinv.ordBound
    omega
  | succ fuel ih =>
    intro ks L hinv
    cases hpop : popMin ks.heap with
    | none =>
      have hres : kahnLoop e edges (fuel + 1) ks L = L := by
        unfold kahnLoop
        rw [hpop]
      rw [hres]
      exact ⟨ks, hinv, List.prefix_refl _, fun _ => popMin_eq_none hpop⟩
    | some q =>
      obtain ⟨m, rest⟩ := q
      have hres : kahnLoop e edges (fuel + 1) ks L =
          kahnLoop e edges fuel (relax e { ks with heap := rest } (adjOf edges m.2.2))
            (L ++ [m.2.2]) := by
        rw [kahnLoop, hpop]
      rw [hres]
      have hstep := kinv_step e edges hEB hinv hpop
      obtain ⟨ksf, h1, h2, h3⟩ := ih _ _ hstep
      refine ⟨ksf, h1, ?_, ?_⟩
      · exact (List.prefix_append L [m.2.2]).trans h2
      · intro hlen
        apply h3
        rw [List.length_append]
        simp
        omega



/-- C1: for every acyclic graph the execution order computed by
`_topological_sort` is the completed while-loop order, it covers every
node, and it is a valid topological order of the node-level dependency
graph built by `_build_execution_graph`: the source of every edge appears
strictly before its target. -/
theorem c1_topological_order (e : Editor) (st : Store) (h : Acyclic e st) :
    (kahnOrder e st).length = e.nodes.length ∧
    topologicalSort e st = (kahnOrder e st).map Sum.inl ∧
    ∀ p ∈ buildEdges e st, p.1 ∈ kahnOrder e st ∧ p.2 ∈ kahnOrder e st ∧
      (kahnOrder e st).indexOf p.1 < (kahnOrder e st).indexOf p.2 := by
  obtain ⟨rank, hrank⟩ := h
  have hEB := buildEdges_bound e st
  have hinit := kinv_init e st
  obtain ⟨ksf, hinvf, hpre, hemp⟩ :=
    kahnLoop_inv e (buildEdges e st) hEB (e.nodes.length + 1)
      (seedHeap e (inDegInit (buildEdges e st))) [] hinit
  have hko : kahnOrder e st = kahnLoop e (buildEdges e st) (e.nodes.length + 1)
      (seedHeap e (inDegInit (buildEdges e st))) [] := rfl
  rw [← hko] at hinvf hpre
  have hheap0 : ksf.heap = [] := hemp (by simp)
  have hall : ∀ v, v < e.nodes.length → v ∈ kahnOrder e st := by
    by_contra hc
    push_neg at hc
    obtain ⟨v0, hv0n, hv0L⟩ := hc
    have hv0S : v0 ∈ (List.range e.nodes.length).filter
        (fun v => v ∉ kahnOrder e st) :=
      List.mem_filter.mpr ⟨List.mem_range.mpr hv0n, by simpa using hv0L⟩
    cases harg : ((List.range e.nodes.length).filter
        (fun v => v ∉ kahnOrder e st)).argmin rank with
    | none =>
      rw [List.argmin_eq_none] at harg
      rw [harg] at hv0S
      simp at hv0S
    | some w =>
      have hwS := List.argmin_mem harg
      have hwn : w < e.nodes.length := List.mem_range.mp (List.mem_of_mem_filter hwS)
      have hwL : w ∉ kahnOrder e st := by
        have := List.of_mem_filter hwS
        simpa using this
      have hdegw : ksf.deg w ≠ 0 := by
        intro h0
        have := hinvf.ready w hwn h0 hwL
        rw [hheap0] at this
        simp [heapNodes] at this
      have hdeq := hinvf.degEq w
      have hpos : 0 < (buildEdges e st).countP
          (fun p => p.2 = w ∧ p.1 ∉ kahnOrder e st) := by
        by_contra hz
        push_neg at hz
        have hz0 : (buildEdges e st).countP
            (fun p => p.2 = w ∧ p.1 ∉ kahnOrder e st) = 0 := by omega
        rw [hz0] at hdeq
        exact hdegw (by rw [hdeq]; rfl)
      obtain ⟨p, hp, hsat⟩ := List.countP_pos_iff.mp hpos
      simp at hsat
      have hp1S : p.1 ∈ (List.range e.nodes.length).filter
          (fun v => v ∉ kahnOrder e st) :=
        List.mem_filter.mpr ⟨List.mem_range.mpr (hEB p hp).1, by simpa using hsat.2⟩
      have hnlt := List.not_lt_of_mem_argmin hp1S harg
      exact hnlt (hsat.1 ▸ hrank p hp)
  have hlen : (kahnOrder e st).length = e.nodes.length := by
    refine le_antisymm (nodup_bound_length_le hinvf.ordNd hinvf.ordBound) ?_
    have hsub : List.range e.nodes.length ⊆ kahnOrder e st :=
      fun v hv => hall v (List.mem_range.mp hv)
    have := ((List.nodup_range e.nodes.length).subperm hsub).length_le
    simpa using this
  refine ⟨hlen, ?_, ?_⟩
  · unfold topologicalSort
    rw [if_pos hlen]
  · intro p hp
    have h2 : p.2 ∈ kahnOrder e st := hall p.2 (hEB p hp).2
    obtain ⟨h1, hidx⟩ := hinvf.topo p hp h2
    exact ⟨h1, h2, hidx⟩



theorem relax_heap_extends (e : Editor) :
    ∀ (ws : List Nat) (ks : KS), ∃ post, (relax e ks ws).heap = ks.heap ++ post := by
  intro ws
  induction ws with
  | nil => intro ks; exact ⟨[], by simp [relax]⟩
  | cons w ws ih =>
    intro ks
    obtain ⟨post, hpost⟩ := ih (relaxStep e ks w)
    show ∃ q, (relax e (relaxStep e ks w) ws).heap = _
    rw [hpost]
    unfold relaxStep
    split_ifs with hdw
    · exact ⟨(-(prioAt e w), ks.counter, w) :: post, by simp⟩
    · exact ⟨post, rfl⟩

theorem pairwise_mem_rel {α : Type} {R : α → α → Prop} {l : List α}
    (h : l.Pairwise R) {x y : α} (hx : x ∈ l) (hy : y ∈ l) (hne : x ≠ y) :
    R x y ∨ R y x := by
  induction l with
  | nil => simp at hx
  | cons a t ih =>
    obtain ⟨ha, ht⟩ := List.pairwise_cons.mp h
    rcases List.mem_cons.mp hx with rfl | hx2
    · rcases List.mem_cons.mp hy with rfl | hy2
      · exact absurd rfl hne
      · exact Or.inl (ha y hy2)
    · rcases List.mem_cons.mp hy with rfl | hy2
      · exact Or.inr (ha x hx2)
      · exact ih ht hx2 hy2

theorem kahnLoop_order (e : Editor) (edges : List (Nat × Nat))
    (hEB : ∀ p ∈ edges, p.1 < e.nodes.length ∧ p.2 < e.nodes.length) :
    ∀ (fuel : Nat) (ks : KS) (L : List Nat) (x y : HeapItem),
    KInv e edges ks L → x ∈ ks.heap → y ∈ ks.heap → hlt x y →
    y.2.2 ∈ kahnLoop e edges fuel ks L →
    x.2.2 ∈ kahnLoop e edges fuel ks L ∧
      (kahnLoop e edges fuel ks L).indexOf x.2.2 <
        (kahnLoop e edges fuel ks L).indexOf y.2.2 := by
  intro fuel
  induction fuel with
  | zero =>
    intro ks L x y hinv hx hy hxy hyL
    exact absurd hyL (hinv.heapNotL y hy)
  | succ fuel ih =>
    intro ks L x y hinv hx hy hxy hyL
    cases hpop : popMin ks.heap with
    | none =>
      rw [popMin_eq_none hpop] at hx
      simp at hx
    | some q =>
      obtain ⟨m, rest⟩ := q
      have hres : kahnLoop e edges (fuel + 1) ks L =
          kahnLoop e edges fuel (relax e { ks with heap := rest } (adjOf edges m.2.2))
            (L ++ [m.2.2]) := by
        rw [kahnLoop, hpop]
      rw [hres] at hyL ⊢
      have hstep := kinv_step e edges hEB hinv hpop
      have hperm := popMin_perm hpop
      obtain ⟨rpost, hrpost⟩ :=
        relax_heap_extends e (adjOf edges m.2.2) { ks with heap := rest }
      by_cases hym : y = m
      · subst hym
        exact absurd (popMin_min hpop x hx) (not_hle_of_hlt hxy)
      · have hy2 : y ∈ rest := by
          rcases List.mem_cons.mp (hperm.mem_iff.mp hy) with h | h
          · exact absurd h hym
          · exact h
        have hyks : y ∈ (relax e { ks with heap := rest } (adjOf edges m.2.2)).heap := by
          rw [hrpost]
          exact List.mem_append_left _ hy2
        by_cases hxm : x = m
        · subst hxm
          obtain ⟨ksf, hinvf, hpref, _⟩ := kahnLoop_inv e edges hEB fuel _ _ hstep
          obtain ⟨suf, hsuf⟩ := hpref
          have hxL : x.2.2 ∉ L := hinv.heapNotL x hx
          have hynotL2 : y.2.2 ∉ L ++ [x.2.2] := hstep.heapNotL y hyks
          constructor
          · rw [← hsuf]
            exact List.mem_append_left _ (List.mem_append_right _ (by simp))
          · rw [← hsuf]
            have hyInSuf : y.2.2 ∈ suf := by
              rw [← hsuf] at hyL
              rcases List.mem_append.mp hyL with h | h
              · exact absurd h hynotL2
              · exact h
            rw [List.indexOf_append_of_mem (List.mem_append_right _ (by simp))]
            rw [List.indexOf_append_of_not_mem hynotL2]
            rw [List.indexOf_append_of_not_mem hxL]
            simp
            omega
        · have hx2 : x ∈ rest := by
            rcases List.mem_cons.mp (hperm.mem_iff.mp hx) with h | h
            · exact absurd h hxm
            · exact h
          have hxks : x ∈ (relax e { ks with heap := rest } (adjOf edges m.2.2)).heap := by
            rw [hrpost]
            exact List.mem_append_left _ hx2
          exact ih _ _ x y hstep hxks hyks hxy hyL



/-- Helper for C2, the seed-time case: when nodes `i` and `j` are both
ready (in-degree zero) at the start of scheduling, the one with strictly
higher priority is scheduled first, and on equal priorities the one
added to the editor earlier (smaller index, hence smaller seed-time heap
counter) is scheduled first. -/
theorem seed_priority_order (e : Editor) (st : Store) (i j : Nat)
    (hi : i < e.nodes.length) (hj : j < e.nodes.length)
    (h0i : inDegInit (buildEdges e st) i = 0)
    (h0j : inDegInit (buildEdges e st) j = 0)
    (hpr : prioAt e j < prioAt e i ∨ (prioAt e i = prioAt e j ∧ i < j))
    (hjmem : j ∈ kahnOrder e st) :
    i ∈ kahnOrder e st ∧
      (kahnOrder e st).indexOf i < (kahnOrder e st).indexOf j := by
  have hEB := buildEdges_bound e st
  have hinit := kinv_init e st
  obtain ⟨hdeg, hcnt, post, hheap, hnodes, hprop, hpw⟩ :=
    seed_fold e (inDegInit (buildEdges e st)) (List.range e.nodes.length)
      ⟨[], inDegInit (buildEdges e st), 0⟩
  have hheap2 : (seedHeap e (inDegInit (buildEdges e st))).heap = post := by
    unfold seedHeap
    rw [hheap]
    simp
  have hiF : i ∈ heapNodes post := by
    rw [hnodes]
    exact List.mem_filter.mpr ⟨List.mem_range.mpr hi, by simpa using h0i⟩
  have hjF : j ∈ heapNodes post := by
    rw [hnodes]
    exact List.mem_filter.mpr ⟨List.mem_range.mpr hj, by simpa using h0j⟩
  obtain ⟨xi, hxi, hxieq⟩ := List.mem_map.mp hiF
  obtain ⟨xj, hxj, hxjeq⟩ := List.mem_map.mp hjF
  have hpwNode : post.Pairwise (fun a b : HeapItem => a.2.2 < b.2.2) := by
    have h1 : (post.map (fun x : HeapItem => x.2.2)).Pairwise (· < ·) := by
      show (heapNodes post).Pairwise (· < ·)
      rw [hnodes]
      exact (List.pairwise_lt_range _).filter _
    exact List.pairwise_map.mp h1
  have hpwBoth := hpw.and hpwNode
  have hlt_ij : hlt xi xj := by
    rcases hpr with hlt1 | ⟨heq, hij⟩
    · left
      rw [(hprop xi hxi).1, (hprop xj hxj).1, hxieq, hxjeq]
      omega
    · right
      constructor
      · rw [(hprop xi hxi).1, (hprop xj hxj).1, hxieq, hxjeq, heq]
      · have hne : xi ≠ xj := by
          intro h
          rw [h, hxjeq] at hxieq
          omega
        rcases pairwise_mem_rel hpwBoth hxi hxj hne with h | h
        · exact h.1
        · exfalso
          have := h.2
          rw [hxieq, hxjeq] at this
          omega
  have hxiheap : xi ∈ (seedHeap e (inDegInit (buildEdges e st))).heap := by
    rw [hheap2]
    exact hxi
  have hxjheap : xj ∈ (seedHeap e (inDegInit (buildEdges e st))).heap := by
    rw [hheap2]
    exact hxj
  have hko : kahnOrder e st = kahnLoop e (buildEdges e st) (e.nodes.length + 1)
      (seedHeap e (inDegInit (buildEdges e st))) [] := rfl
  have hres := kahnLoop_order e (buildEdges e st) hEB (e.nodes.length + 1)
    (seedHeap e (inDegInit (buildEdges e st))) [] xi xj hinit hxiheap hxjheap hlt_ij
    (by rw [← hko, hxjeq]; exact hjmem)
  rw [← hko, hxieq, hxjeq] at hres
  exact hres

/-- C2 counterexample: on `c2xEditor`/`c2xStore` the nodes `B` (index 1)
and `C` (index 2) have equal priority, `B` was added to the editor
before `C`, and both become ready simultaneously mid-loop (each has
initial in-degree 1, satisfied exactly when `A` is popped) — yet the
scheduler runs `C` before `B`.  Mid-loop, equal-priority ties follow
heap-push (dependents-relaxation) order, not editor insertion order as
the claim stated; insertion order governs only the seed pushes. -/
theorem c2_counterexample :
    prioAt c2xEditor 1 = prioAt c2xEditor 2 ∧
    inDegInit (buildEdges c2xEditor c2xStore) 1 = 1 ∧
    inDegInit (buildEdges c2xEditor c2xStore) 2 = 1 ∧
    kahnOrder c2xEditor c2xStore = [0, 2, 1] := by
  refine ⟨rfl, by decide, by decide, by decide⟩

/-- C2 (amended): whenever several nodes sit in the ready heap together,
the pop takes the entry with strictly higher priority first, and among
entries of equal priority the one pushed earlier (smaller heap counter)
— second conjunct.  Counters are assigned in push order: at seeding this
coincides with editor insertion order, so among the initially ready
nodes, higher priority wins and equal-priority ties follow insertion
order — first conjunct.  For nodes that become ready during the loop,
push order is the dependents-relaxation order, which can differ from
insertion order. -/
theorem c2_priority_order :
    (∀ (e : Editor) (st : Store) (i j : Nat),
      i < e.nodes.length → j < e.nodes.length →
      inDegInit (buildEdges e st) i = 0 →
      inDegInit (buildEdges e st) j = 0 →
      (prioAt e j < prioAt e i ∨ (prioAt e i = prioAt e j ∧ i < j)) →
      j ∈ kahnOrder e st →
      i ∈ kahnOrder e st ∧
        (kahnOrder e st).indexOf i < (kahnOrder e st).indexOf j) ∧
    (∀ (h : List HeapItem) (m : HeapItem) (r : List HeapItem),
      popMin h = some (m, r) → ∀ x ∈ h, hle m x) :=
  ⟨fun e st i j hi hj h0i h0j hpr hjm =>
    seed_priority_order e st i j hi hj h0i h0j hpr hjm,
   fun _ _ _ hpop x hx => popMin_min hpop x hx⟩

/-- C1 witness: the two-node acyclic fixture with the identity ranking. -/
theorem c1_witness :
    (kahnOrder cycEditor acyStore).length = cycEditor.nodes.length ∧
    topologicalSort cycEditor acyStore = (kahnOrder cycEditor acyStore).map Sum.inl ∧
    ∀ p ∈ buildEdges cycEditor acyStore, p.1 ∈ kahnOrder cycEditor acyStore ∧
      p.2 ∈ kahnOrder cycEditor acyStore ∧
      (kahnOrder cycEditor acyStore).indexOf p.1 <
        (kahnOrder cycEditor acyStore).indexOf p.2 :=
  c1_topological_order cycEditor acyStore ⟨fun v => v, by decide⟩

/-- C2 witness: both conjuncts at concrete inputs — on the three isolated
nodes with priorities 1, 5, 5 the two priority-5 nodes tie at seeding and
run in insertion order, and on a concrete two-item heap the pop takes the
equal-priority entry with the smaller counter. -/
theorem c2_witness :
    (1 ∈ kahnOrder prioEditor emptyStore ∧
      (kahnOrder prioEditor emptyStore).indexOf 1 <
        (kahnOrder prioEditor emptyStore).indexOf 2) ∧
    hle ((-5 : Int), 1, 1) ((-5 : Int), 2, 2) :=
  ⟨c2_priority_order.1 prioEditor emptyStore 1 2 (by decide) (by decide) (by decide)
    (by decide) (Or.inr ⟨by decide, by decide⟩) (by decide),
   c2_priority_order.2 [((-5 : Int), 1, 1), ((-5 : Int), 2, 2)] ((-5 : Int), 1, 1)
    [((-5 : Int), 2, 2)] (by decide) ((-5 : Int), 2, 2) (by decide)⟩


/-! ## C8 batch 1: uuid preservation through clear_graph, lookup helpers -/

theorem ins_map_updateIn (st : Store) (u : Nat) (f : InAttr → InAttr)
    (hf : ∀ a, (f a).uuid = a.uuid) :
    (st.updateIn u f).ins.map (fun a => a.uuid) = st.ins.map (fun a => a.uuid) := by
  simp only [Store.updateIn, List.map_map]
  exact List.map_congr_left (fun a _ => by
    by_cases h : a.uuid = u <;> simp [Function.comp, h, hf])

theorem outs_map_updateOut (st : Store) (u : Nat) (f : OutAttr → OutAttr)
    (hf : ∀ a, (f a).uuid = a.uuid) :
    (st.updateOut u f).outs.map (fun a => a.uuid) = st.outs.map (fun a => a.uuid) := by
  simp only [Store.updateOut, List.map_map]
  exact List.map_congr_left (fun a _ => by
    by_cases h : a.uuid = u <;> simp [Function.comp, h, hf])

theorem sameUuids_refl (st : Store) : SameUuids st st := ⟨rfl, rfl, rfl⟩

theorem sameUuids_trans {a b c : Store} (h1 : SameUuids a b) (h2 : SameUuids b c) :
    SameUuids a c :=
  ⟨h2.1.trans h1.1, h2.2.1.trans h1.2.1, h2.2.2.trans h1.2.2⟩

theorem sameUuids_updateIn (st : Store) (u : Nat) (f : InAttr → InAttr)
    (hf : ∀ a, (f a).uuid = a.uuid) : SameUuids st (st.updateIn u f) :=
  ⟨ins_map_updateIn st u f hf, rfl, rfl⟩

theorem sameUuids_updateOut (st : Store) (u : Nat) (f : OutAttr → OutAttr)
    (hf : ∀ a, (f a).uuid = a.uuid) : SameUuids st (st.updateOut u f) :=
  ⟨rfl, outs_map_updateOut st u f hf, rfl⟩

theorem sameUuids_removeChild (st : Store) (o i : Nat) :
    SameUuids st (removeChild st o i) := by
  unfold removeChild
  split_ifs
  · exact sameUuids_trans
      (sameUuids_updateOut st o (fun a => { a with children := a.children.erase i })
        (fun a => rfl))
      (sameUuids_updateIn _ i (fun a => { a with parent := none }) (fun a => rfl))
  · exact sameUuids_refl st

theorem sameUuids_clearConnection (st : Store) (i : Nat) :
    SameUuids st (clearConnection st i) := by
  unfold clearConnection
  cases hp : (st.getIn i).parent with
  | none =>
    dsimp only
    exact sameUuids_trans
      (sameUuids_updateIn st i (fun a => { a with parent := none }) (fun a => rfl))
      (sameUuids_updateIn _ i (fun a => { a with buffer := [], lastData := none })
        (fun a => rfl))
  | some p =>
    dsimp only
    exact sameUuids_trans (sameUuids_removeChild st p i)
      (sameUuids_trans
        (sameUuids_updateIn _ i (fun a => { a with parent := none }) (fun a => rfl))
        (sameUuids_updateIn _ i (fun a => { a with buffer := [], lastData := none })
          (fun a => rfl)))

theorem sameUuids_foldl {α : Type} (step : Store → α → Store)
    (hstep : ∀ acc x, SameUuids acc (step acc x)) :
    ∀ (l : List α) (st : Store), SameUuids st (l.foldl step st)
  | [], st => sameUuids_refl st
  | x :: l, st =>
    sameUuids_trans (hstep st x) (sameUuids_foldl step hstep l (step st x))

theorem sameUuids_clearConnectionsOut (st : Store) (o : Nat) :
    SameUuids st (clearConnectionsOut st o) := by
  unfold clearConnectionsOut
  dsimp only
  exact sameUuids_trans
    (sameUuids_foldl _ (fun acc c => sameUuids_removeChild acc o c) _ st)
    (sameUuids_updateOut _ o (fun a => { a with children := [], dataF := none })
      (fun a => rfl))

theorem sameUuids_clearAllConnectionsNode (st : Store) (n : NodeObj) :
    SameUuids st (clearAllConnectionsNode st n) := by
  unfold clearAllConnectionsNode
  dsimp only
  exact sameUuids_trans
    (sameUuids_foldl _ (fun acc c => sameUuids_clearConnection acc c) _ st)
    (sameUuids_foldl _ (fun acc c => sameUuids_clearConnectionsOut acc c) _ _)

theorem sameUuids_clearGraph (e : Editor) (st : Store) :
    SameUuids st (clearGraph e st).2 := by
  unfold clearGraph
  dsimp only
  exact sameUuids_foldl _ (fun acc ent => sameUuids_clearAllConnectionsNode acc ent.node)
    e.nodes st

theorem find?_append_none {α : Type} (p : α → Bool) (pre l : List α)
    (h : ∀ a ∈ pre, ¬ p a) : (pre ++ l).find? p = l.find? p := by
  rw [List.find?_append, List.find?_eq_none.mpr h]
  rfl

theorem find?_of_get? {α : Type} (key : α → Nat) :
    ∀ (l : List α) (j : Nat) (a : α), l.get? j = some a →
      (∀ j' a', j' < j → l.get? j' = some a' → key a' ≠ key a) →
      l.find? (fun b => key b = key a) = some a
  | [], j, a, h, _ => nomatch h
  | b :: t, 0, a, h, _ => by
    simp only [List.get?] at h
    injection h with h
    subst h
    simp [List.find?_cons]
  | b :: t, j+1, a, h, hb => by
    have hkb : key b ≠ key a := hb 0 b (Nat.succ_pos j) rfl
    rw [List.find?_cons_of_neg _ (by simp [hkb])]
    exact find?_of_get? key t j a h
      (fun j' a' hj' hg => hb (j'+1) a' (Nat.succ_lt_succ hj') hg)

theorem mapLookup_mem {mp : List (Nat × MapTarget)} {x : Nat} {t : MapTarget}
    (h : mapLookup mp x = some t) : (x, t) ∈ mp := by
  unfold mapLookup at h
  cases hf : mp.find? (fun p => p.1 = x) with
  | none => rw [hf] at h; simp at h
  | some pr =>
    rw [hf] at h
    simp at h
    have hm := List.mem_of_find?_eq_some hf
    have hp := List.find?_some hf
    simp only [decide_eq_true_eq] at hp
    obtain ⟨x0, t0⟩ := pr
    dsimp only at hp h
    subst hp h
    exact hm

theorem mapLookup_of_mem_nodup :
    ∀ {mp : List (Nat × MapTarget)}, (mp.map Prod.fst).Nodup →
      ∀ {x : Nat} {t : MapTarget}, (x, t) ∈ mp → mapLookup mp x = some t
  | [], _, _, _, hm => by simp at hm
  | pr :: rest, hnd, x, t, hm => by
    rcases List.mem_cons.mp hm with heq | hmem
    · subst heq
      unfold mapLookup
      rw [List.find?_cons_of_pos _ (by simp)]
      rfl
    · have hx : x ∈ rest.map Prod.fst :=
        List.mem_map.mpr ⟨(x, t), hmem, rfl⟩
      have hne : pr.1 ≠ x := by
        intro h
        exact (List.nodup_cons.mp hnd).1 (h ▸ hx)
      unfold mapLookup
      rw [List.find?_cons_of_neg _ (by simp [hne])]
      exact mapLookup_of_mem_nodup (List.nodup_cons.mp hnd).2 hmem

theorem getIn_labelF_updateIn (st : Store) (u : Nat) (f : InAttr → InAttr)
    (hf : ∀ a, (f a).uuid = a.uuid) (hl : ∀ a, (f a).labelF = a.labelF) (w : Nat) :
    ((st.updateIn u f).getIn w).labelF = (st.getIn w).labelF := by
  unfold Store.getIn
  rw [findIn_updateIn st u w f hf]
  split_ifs
  · cases h : st.findIn w <;> simp [h, hl, dummyIn]
  · rfl

theorem getOut_labelF_updateOut (st : Store) (u : Nat) (f : OutAttr → OutAttr)
    (hf : ∀ a, (f a).uuid = a.uuid) (hl : ∀ a, (f a).labelF = a.labelF) (w : Nat) :
    ((st.updateOut u f).getOut w).labelF = (st.getOut w).labelF := by
  unfold Store.getOut
  rw [findOut_updateOut st u w f hf]
  split_ifs
  · cases h : st.findOut w <;> simp [h, hl, dummyOut]
  · rfl

theorem getIn_removeChild_ne (st : Store) (o i w : Nat) (hne : w ≠ i) :
    (removeChild st o i).getIn w = st.getIn w := by
  unfold removeChild
  split_ifs
  · dsimp only
    rw [getIn_updateIn_ne (st.updateOut o (fun a => { a with children := a.children.erase i }))
        i w (fun a => { a with parent := none }) (fun a => rfl) hne]
    rfl
  · rfl

theorem getIn_clearConnection_ne (st : Store) (i w : Nat) (hne : w ≠ i) :
    (clearConnection st i).getIn w = st.getIn w := by
  unfold clearConnection
  cases hp : (st.getIn i).parent with
  | none =>
    dsimp only
    rw [getIn_updateIn_ne (st.updateIn i (fun a => { a with parent := none })) i w
        (fun a => { a with buffer := [], lastData := none }) (fun a => rfl) hne,
        getIn_updateIn_ne st i w (fun a => { a with parent := none }) (fun a => rfl) hne]
  | some p =>
    dsimp only
    rw [getIn_updateIn_ne ((removeChild st p i).updateIn i (fun a => { a with parent := none }))
        i w (fun a => { a with buffer := [], lastData := none }) (fun a => rfl) hne,
        getIn_updateIn_ne (removeChild st p i) i w (fun a => { a with parent := none })
        (fun a => rfl) hne,
        getIn_removeChild_ne st p i w hne]

theorem clearConnection_parent_none (st : Store) (i : Nat)
    (h : (st.getIn i).parent = none) :
    clearConnection st i =
      (st.updateIn i (fun a => { a with parent := none })).updateIn i
        (fun a => { a with buffer := [], lastData := none }) := by
  unfold clearConnection
  rw [h]


/-! ## C8 batch 2a: loadSim structural unfolding -/

theorem builtNode_inAttrs_length (fd : FactoryDef) (rec : NodeRec) (c : Nat) :
    (builtNode fd rec c).inAttrs.length = fd.inLabelsF.length := by
  simp [builtNode]

theorem builtNode_outAttrs_length (fd : FactoryDef) (rec : NodeRec) (c : Nat) :
    (builtNode fd rec c).outAttrs.length = fd.outLabelsF.length := by
  simp [builtNode]

theorem builtNode_inAttrs_get? (fd : FactoryDef) (rec : NodeRec) (c j : Nat)
    (hj : j < fd.inLabelsF.length) :
    (builtNode fd rec c).inAttrs.get? j = some (c + 2 + j) := by
  show ((List.range fd.inLabelsF.length).map (fun j => c + 2 + j)).get? j = _
  rw [List.get?_map, List.get?_range hj]
  rfl

theorem builtNode_outAttrs_get? (fd : FactoryDef) (rec : NodeRec) (c j : Nat)
    (hj : j < fd.outLabelsF.length) :
    (builtNode fd rec c).outAttrs.get? j =
      some (c + 2 + fd.inLabelsF.length + j) := by
  show ((List.range fd.outLabelsF.length).map
      (fun j => c + 2 + fd.inLabelsF.length + j)).get? j = _
  rw [List.get?_map, List.get?_range hj]
  rfl

theorem get?_zip {α β : Type} :
    ∀ (l1 : List α) (l2 : List β) (n : Nat),
      (l1.zip l2).get? n = (l1.get? n).bind (fun a => (l2.get? n).map (fun b => (a, b)))
  | [], _, _ => by simp
  | _ :: _, [], n => by simp
  | a :: l1, b :: l2, 0 => rfl
  | a :: l1, b :: l2, n+1 => get?_zip l1 l2 n

theorem filterMap_enumFrom_zip {α β γ : Type} (g : α → γ → β) :
    ∀ (ra : List α) (la0 la : List γ), ra.length ≤ la.length →
      (List.enumFrom la0.length ra).filterMap
          (fun p => ((la0 ++ la).get? p.1).map (fun u => g p.2 u)) =
      (ra.zip la).map (fun q => g q.1 q.2)
  | [], _, la, _ => by simp
  | r :: ra, _, [], h => by simp at h
  | r :: ra, la0, u :: la, h => by
    rw [List.enumFrom_cons, List.filterMap_cons]
    have hu : (la0 ++ u :: la).get? la0.length = some u := by
      rw [List.get?_append_right (Nat.le_refl _)]
      simp
    rw [hu]
    simp only [Option.map_some']
    have hassoc : la0 ++ u :: la = (la0 ++ [u]) ++ la := by
      simp
    have hlen : la0.length + 1 = (la0 ++ [u]).length := by
      simp
    rw [hassoc, hlen, filterMap_enumFrom_zip g ra (la0 ++ [u]) la (Nat.le_of_succ_le_succ h)]
    rfl

theorem filterMap_enum_zip {α β γ : Type} (g : α → γ → β)
    (ra : List α) (la : List γ) (h : ra.length ≤ la.length) :
    ra.enum.filterMap (fun p => (la.get? p.1).map (fun u => g p.2 u)) =
      (ra.zip la).map (fun q => g q.1 q.2) := by
  have := filterMap_enumFrom_zip g ra [] la h
  simpa [List.enum] using this

theorem loadSim_cons (reg : Registry) (rec : NodeRec) (rs : List NodeRec) (c : Nat)
    (fd : FactoryDef) (hne : rec.nodeIdR ≠ "") (hfd : reg.find rec.nodeIdR = some fd) :
    loadSim reg (rec :: rs) c =
      ⟨⟨rec.nodeIdR, rec.nodeUuidR, builtNode fd rec c⟩ ::
         (loadSim reg rs (c + blockSize fd)).entries,
       ((builtNode fd rec c).inAttrs.zip fd.inLabelsF).map (fun p => mkInAttr p.2 p.1) ++
         (loadSim reg rs (c + blockSize fd)).newIns,
       ((builtNode fd rec c).outAttrs.zip fd.outLabelsF).map (fun p => mkOutAttr p.2 p.1) ++
         (loadSim reg rs (c + blockSize fd)).newOuts,
       ((rec.uuidR, MapTarget.nodeM) ::
         (rec.inputAttributesR.enum.filterMap (fun p =>
           ((builtNode fd rec c).inAttrs.get? p.1).map
             (fun u => (p.2.uuidR, MapTarget.inM u))) ++
          rec.outputAttributesR.enum.filterMap (fun p =>
           ((builtNode fd rec c).outAttrs.get? p.1).map
             (fun u => (p.2.uuidR, MapTarget.outM u))))) ++
         (loadSim reg rs (c + blockSize fd)).mp,
       (loadSim reg rs (c + blockSize fd)).next⟩ := by
  rw [loadSim]
  rw [if_neg hne, hfd]

theorem mp_block_in (fd : FactoryDef) (rec : NodeRec) (c : Nat)
    (hin : rec.inputAttributesR.length = fd.inLabelsF.length) :
    rec.inputAttributesR.enum.filterMap (fun p =>
        ((builtNode fd rec c).inAttrs.get? p.1).map
          (fun u => (p.2.uuidR, MapTarget.inM u))) =
      (rec.inputAttributesR.zip (builtNode fd rec c).inAttrs).map
        (fun q => (q.1.uuidR, MapTarget.inM q.2)) :=
  filterMap_enum_zip (fun ar u => (ar.uuidR, MapTarget.inM u)) rec.inputAttributesR
    (builtNode fd rec c).inAttrs
    (by rw [builtNode_inAttrs_length, hin])

theorem mp_block_out (fd : FactoryDef) (rec : NodeRec) (c : Nat)
    (hout : rec.outputAttributesR.length = fd.outLabelsF.length) :
    rec.outputAttributesR.enum.filterMap (fun p =>
        ((builtNode fd rec c).outAttrs.get? p.1).map
          (fun u => (p.2.uuidR, MapTarget.outM u))) =
      (rec.outputAttributesR.zip (builtNode fd rec c).outAttrs).map
        (fun q => (q.1.uuidR, MapTarget.outM q.2)) :=
  filterMap_enum_zip (fun ar u => (ar.uuidR, MapTarget.outM u)) rec.outputAttributesR
    (builtNode fd rec c).outAttrs
    (by rw [builtNode_outAttrs_length, hout])

/-! ## C8 batch 2b: loadSim entry characterisation -/

theorem loadSim_next_ge (reg : Registry) :
    ∀ (rs : List NodeRec) (c : Nat), (∀ r ∈ rs, RecOK reg r) →
      c ≤ (loadSim reg rs c).next
  | [], c, _ => by rw [loadSim]
  | rec :: rs, c, hok => by
    obtain ⟨hne, fd, hfd, _, _⟩ := hok rec (List.mem_cons_self rec rs)
    rw [loadSim_cons reg rec rs c fd hne hfd]
    dsimp only
    exact Nat.le_trans (Nat.le_add_right c (blockSize fd))
      (loadSim_next_ge reg rs (c + blockSize fd)
        (fun r hr => hok r (List.mem_cons_of_mem rec hr)))

theorem loadSim_entries_length (reg : Registry) :
    ∀ (rs : List NodeRec) (c : Nat), (∀ r ∈ rs, RecOK reg r) →
      (loadSim reg rs c).entries.length = rs.length
  | [], c, _ => by rw [loadSim]; rfl
  | rec :: rs, c, hok => by
    obtain ⟨hne, fd, hfd, _, _⟩ := hok rec (List.mem_cons_self rec rs)
    rw [loadSim_cons reg rec rs c fd hne hfd]
    dsimp only
    rw [List.length_cons,
      loadSim_entries_length reg rs (c + blockSize fd)
        (fun r hr => hok r (List.mem_cons_of_mem rec hr))]
    rfl

theorem loadSim_entry_char (reg : Registry) :
    ∀ (rs : List NodeRec) (c : Nat), (∀ r ∈ rs, RecOK reg r) →
      ∀ (k : Nat) (rec : NodeRec), rs.get? k = some rec →
      ∃ fd ck,
        reg.find rec.nodeIdR = some fd ∧
        rec.inputAttributesR.map (fun a => a.labelR) = fd.inLabelsF ∧
        rec.outputAttributesR.map (fun a => a.labelR) = fd.outLabelsF ∧
        c ≤ ck ∧ ck + blockSize fd ≤ (loadSim reg rs c).next ∧
        (loadSim reg rs c).entries.get? k =
          some ⟨rec.nodeIdR, rec.nodeUuidR, builtNode fd rec ck⟩
  | [], _, _, k, rec, h => nomatch h
  | rec0 :: rs, c, hok, 0, rec, h => by
    injection h with h
    subst h
    obtain ⟨hne, fd, hfd, hlin, hlout⟩ := hok rec0 (List.mem_cons_self rec0 rs)
    refine ⟨fd, c, hfd, hlin, hlout, Nat.le_refl c, ?hnext, ?hget⟩
    case hnext =>
      rw [loadSim_cons reg rec0 rs c fd hne hfd]
      exact loadSim_next_ge reg rs (c + blockSize fd)
        (fun r hr => hok r (List.mem_cons_of_mem rec0 hr))
    case hget =>
      rw [loadSim_cons reg rec0 rs c fd hne hfd]
      rfl
  | rec0 :: rs, c, hok, k+1, rec, h => by
    obtain ⟨hne, fd, hfd, _, _⟩ := hok rec0 (List.mem_cons_self rec0 rs)
    have hok' : ∀ r ∈ rs, RecOK reg r := fun r hr => hok r (List.mem_cons_of_mem rec0 hr)
    obtain ⟨fd', ck, hfd', hlin', hlout', hck, hnext, hget⟩ :=
      loadSim_entry_char reg rs (c + blockSize fd) hok' k rec h
    refine ⟨fd', ck, hfd', hlin', hlout',
      Nat.le_trans (Nat.le_add_right c (blockSize fd)) hck, ?hnext2, ?hget2⟩
    case hnext2 =>
      rw [loadSim_cons reg rec0 rs c fd hne hfd]
      exact hnext
    case hget2 =>
      rw [loadSim_cons reg rec0 rs c fd hne hfd]
      exact hget

theorem loadSim_rec_of_entry (reg : Registry) (rs : List NodeRec) (c : Nat)
    (hok : ∀ r ∈ rs, RecOK reg r) (k : Nat) (ent : Entry)
    (hent : (loadSim reg rs c).entries.get? k = some ent) :
    ∃ rec, rs.get? k = some rec := by
  cases hr : rs.get? k with
  | some rec => exact ⟨rec, rfl⟩
  | none =>
    have hlen : rs.length ≤ k := List.get?_eq_none.mp hr
    have : (loadSim reg rs c).entries.get? k = none := by
      rw [List.get?_eq_none.mpr]
      rw [loadSim_entries_length reg rs c hok]
      exact hlen
    rw [this] at hent
    exact nomatch hent

theorem loadSim_entry_uuid_ge (reg : Registry) (rs : List NodeRec) (c : Nat)
    (hok : ∀ r ∈ rs, RecOK reg r) (k : Nat) (ent : Entry)
    (hent : (loadSim reg rs c).entries.get? k = some ent) :
    c ≤ ent.node.uuid ∧
      (∀ u ∈ ent.node.inAttrs, c + 2 ≤ u) ∧
      (∀ u ∈ ent.node.outAttrs, c + 2 ≤ u) := by
  obtain ⟨rec, hrec⟩ := loadSim_rec_of_entry reg rs c hok k ent hent
  obtain ⟨fd, ck, _, _, _, hck, _, hget⟩ := loadSim_entry_char reg rs c hok k rec hrec
  rw [hent] at hget
  injection hget with hget
  subst hget
  refine ⟨hck, ?hin, ?hout⟩
  case hin =>
    intro u hu
    have : ∃ j ∈ List.range fd.inLabelsF.length, ck + 2 + j = u := by
      simpa [builtNode] using hu
    obtain ⟨j, _, hj⟩ := this
    omega
  case hout =>
    intro u hu
    have : ∃ j ∈ List.range fd.outLabelsF.length, ck + 2 + fd.inLabelsF.length + j = u := by
      simpa [builtNode] using hu
    obtain ⟨j, _, hj⟩ := this
    omega

theorem loadSim_entry_disj (reg : Registry) :
    ∀ (rs : List NodeRec) (c : Nat), (∀ r ∈ rs, RecOK reg r) →
      ∀ (k k' : Nat), k < k' → ∀ (ent ent' : Entry),
        (loadSim reg rs c).entries.get? k = some ent →
        (loadSim reg rs c).entries.get? k' = some ent' →
        ent.node.uuid + 2 + ent.node.inAttrs.length + ent.node.outAttrs.length ≤
          ent'.node.uuid
  | [], c, hok, k, k', hkk, ent, ent', hent, hent' => by
    rw [loadSim] at hent
    exact nomatch hent
  | rec0 :: rs, c, hok, k, k', hkk, ent, ent', hent, hent' => by
    obtain ⟨hne, fd, hfd, hlin, hlout⟩ := hok rec0 (List.mem_cons_self rec0 rs)
    have hok' : ∀ r ∈ rs, RecOK reg r := fun r hr => hok r (List.mem_cons_of_mem rec0 hr)
    rw [loadSim_cons reg rec0 rs c fd hne hfd] at hent hent'
    dsimp only at hent hent'
    match k, k', hkk with
    | 0, k'+1, _ =>
      rw [List.get?_cons_zero] at hent
      injection hent with hent
      subst hent
      rw [List.get?_cons_succ] at hent'
      have hge := (loadSim_entry_uuid_ge reg rs (c + blockSize fd) hok' k' ent' hent').1
      dsimp only
      rw [builtNode_inAttrs_length, builtNode_outAttrs_length]
      show c + 2 + fd.inLabelsF.length + fd.outLabelsF.length ≤ ent'.node.uuid
      unfold blockSize at hge
      omega
    | k+1, k'+1, hkk =>
      rw [List.get?_cons_succ] at hent hent'
      exact loadSim_entry_disj reg rs (c + blockSize fd) hok' k k'
        (Nat.lt_of_succ_lt_succ hkk) ent ent' hent hent'

/-! ## C8 batch 2c: locating the fresh attributes in the rebuilt store -/

theorem builtNode_inAttrs_mem (fd : FactoryDef) (rec : NodeRec) (c : Nat) (u : Nat)
    (hu : u ∈ (builtNode fd rec c).inAttrs) :
    ∃ j, j < fd.inLabelsF.length ∧ u = c + 2 + j := by
  have : ∃ j ∈ List.range fd.inLabelsF.length, c + 2 + j = u := by
    simpa [builtNode] using hu
  obtain ⟨j, hj, hju⟩ := this
  exact ⟨j, List.mem_range.mp hj, hju.symm⟩

theorem builtNode_outAttrs_mem (fd : FactoryDef) (rec : NodeRec) (c : Nat) (u : Nat)
    (hu : u ∈ (builtNode fd rec c).outAttrs) :
    ∃ j, j < fd.outLabelsF.length ∧ u = c + 2 + fd.inLabelsF.length + j := by
  have : ∃ j ∈ List.range fd.outLabelsF.length, c + 2 + fd.inLabelsF.length + j = u := by
    simpa [builtNode] using hu
  obtain ⟨j, hj, hju⟩ := this
  exact ⟨j, List.mem_range.mp hj, hju.symm⟩

theorem headIns_uuid_lt (fd : FactoryDef) (rec : NodeRec) (c : Nat) (a : InAttr)
    (ha : a ∈ ((builtNode fd rec c).inAttrs.zip fd.inLabelsF).map
      (fun p => mkInAttr p.2 p.1)) :
    a.uuid < c + blockSize fd := by
  obtain ⟨q, hq, rfl⟩ := List.mem_map.mp ha
  obtain ⟨j, hj, hju⟩ := builtNode_inAttrs_mem fd rec c q.1 (List.mem_zip hq).1
  show q.1 < c + blockSize fd
  unfold blockSize
  omega

theorem headOuts_uuid_lt (fd : FactoryDef) (rec : NodeRec) (c : Nat) (a : OutAttr)
    (ha : a ∈ ((builtNode fd rec c).outAttrs.zip fd.outLabelsF).map
      (fun p => mkOutAttr p.2 p.1)) :
    a.uuid < c + blockSize fd := by
  obtain ⟨q, hq, rfl⟩ := List.mem_map.mp ha
  obtain ⟨j, hj, hju⟩ := builtNode_outAttrs_mem fd rec c q.1 (List.mem_zip hq).1
  show q.1 < c + blockSize fd
  unfold blockSize
  omega

theorem loadSim_newIns_find (reg : Registry) :
    ∀ (rs : List NodeRec) (c : Nat), (∀ r ∈ rs, RecOK reg r) →
      ∀ (k : Nat) (rec : NodeRec) (ent : Entry),
        rs.get? k = some rec →
        (loadSim reg rs c).entries.get? k = some ent →
        ∀ (j u : Nat) (ar : AttrRec),
          ent.node.inAttrs.get? j = some u →
          rec.inputAttributesR.get? j = some ar →
          (loadSim reg rs c).newIns.find? (fun a => a.uuid = u) =
            some (mkInAttr ar.labelR u)
  | [], _, _, k, rec, ent, hrec, _, _, _, _, _, _ => nomatch hrec
  | rec0 :: rs, c, hok, 0, rec, ent, hrec, hent, j, u, ar, hju, hjar => by
    injection hrec with hrec
    subst hrec
    obtain ⟨hne, fd, hfd, hlin, hlout⟩ := hok rec0 (List.mem_cons_self rec0 rs)
    rw [loadSim_cons reg rec0 rs c fd hne hfd] at hent ⊢
    dsimp only at hent ⊢
    rw [List.get?_cons_zero] at hent
    injection hent with hent
    subst hent
    dsimp only at hju
    have hjlt : j < fd.inLabelsF.length := by
      by_contra hge
      rw [List.get?_eq_none.mpr (by rw [builtNode_inAttrs_length]; omega)] at hju
      exact nomatch hju
    have hju2 := builtNode_inAttrs_get? fd rec0 c j hjlt
    rw [hju] at hju2
    injection hju2 with hju2
    have hlbl : fd.inLabelsF.get? j = some ar.labelR := by
      rw [← hlin, List.get?_map, hjar]
      rfl
    have hget : (((builtNode fd rec0 c).inAttrs.zip fd.inLabelsF).map
        (fun p => mkInAttr p.2 p.1)).get? j = some (mkInAttr ar.labelR u) := by
      rw [List.get?_map, get?_zip, hju, hlbl]
      rfl
    have hbefore : ∀ j' a', j' < j →
        (((builtNode fd rec0 c).inAttrs.zip fd.inLabelsF).map
          (fun p => mkInAttr p.2 p.1)).get? j' = some a' →
        a'.uuid ≠ (mkInAttr ar.labelR u).uuid := by
      intro j' a' hj' hga'
      have hj'lt : j' < fd.inLabelsF.length := Nat.lt_trans hj' hjlt
      rw [List.get?_map, get?_zip, builtNode_inAttrs_get? fd rec0 c j' hj'lt] at hga'
      cases hl' : fd.inLabelsF.get? j' with
      | none =>
        rw [hl'] at hga'
        exact nomatch hga'
      | some lbl' =>
        rw [hl'] at hga'
        injection hga' with hga'
        subst hga'
        show c + 2 + j' ≠ u
        omega
    have hhead : (((builtNode fd rec0 c).inAttrs.zip fd.inLabelsF).map
        (fun p => mkInAttr p.2 p.1)).find? (fun a => a.uuid = u) =
        some (mkInAttr ar.labelR u) :=
      find?_of_get? (fun a => a.uuid) _ j (mkInAttr ar.labelR u) hget hbefore
    rw [List.find?_append, hhead]
    rfl
  | rec0 :: rs, c, hok, k+1, rec, ent, hrec, hent, j, u, ar, hju, hjar => by
    obtain ⟨hne, fd, hfd, hlin, hlout⟩ := hok rec0 (List.mem_cons_self rec0 rs)
    have hok' : ∀ r ∈ rs, RecOK reg r := fun r hr => hok r (List.mem_cons_of_mem rec0 hr)
    rw [List.get?_cons_succ] at hrec
    rw [loadSim_cons reg rec0 rs c fd hne hfd] at hent ⊢
    dsimp only at hent ⊢
    rw [List.get?_cons_succ] at hent
    have hu_ge : c + blockSize fd + 2 ≤ u :=
      (loadSim_entry_uuid_ge reg rs (c + blockSize fd) hok' k ent hent).2.1 u
        (List.get?_mem hju)
    rw [find?_append_none _ _ _ (by
      intro a ha
      have := headIns_uuid_lt fd rec0 c a ha
      simp only [decide_eq_true_eq]
      omega)]
    exact loadSim_newIns_find reg rs (c + blockSize fd) hok' k rec ent hrec hent
      j u ar hju hjar

theorem loadSim_newOuts_find (reg : Registry) :
    ∀ (rs : List NodeRec) (c : Nat), (∀ r ∈ rs, RecOK reg r) →
      ∀ (k : Nat) (rec : NodeRec) (ent : Entry),
        rs.get? k = some rec →
        (loadSim reg rs c).entries.get? k = some ent →
        ∀ (j u : Nat) (ar : AttrRec),
          ent.node.outAttrs.get? j = some u →
          rec.outputAttributesR.get? j = some ar →
          (loadSim reg rs c).newOuts.find? (fun a => a.uuid = u) =
            some (mkOutAttr ar.labelR u)
  | [], _, _, k, rec, ent, hrec, _, _, _, _, _, _ => nomatch hrec
  | rec0 :: rs, c, hok, 0, rec, ent, hrec, hent, j, u, ar, hju, hjar => by
    injection hrec with hrec
    subst hrec
    obtain ⟨hne, fd, hfd, hlin, hlout⟩ := hok rec0 (List.mem_cons_self rec0 rs)
    rw [loadSim_cons reg rec0 rs c fd hne hfd] at hent ⊢
    dsimp only at hent ⊢
    rw [List.get?_cons_zero] at hent
    injection hent with hent
    subst hent
    dsimp only at hju
    have hjlt : j < fd.outLabelsF.length := by
      by_contra hge
      rw [List.get?_eq_none.mpr (by rw [builtNode_outAttrs_length]; omega)] at hju
      exact nomatch hju
    have hju2 := builtNode_outAttrs_get? fd rec0 c j hjlt
    rw [hju] at hju2
    injection hju2 with hju2
    have hlbl : fd.outLabelsF.get? j = some ar.labelR := by
      rw [← hlout, List.get?_map, hjar]
      rfl
    have hget : (((builtNode fd rec0 c).outAttrs.zip fd.outLabelsF).map
        (fun p => mkOutAttr p.2 p.1)).get? j = some (mkOutAttr ar.labelR u) := by
      rw [List.get?_map, get?_zip, hju, hlbl]
      rfl
    have hbefore : ∀ j' a', j' < j →
        (((builtNode fd rec0 c).outAttrs.zip fd.outLabelsF).map
          (fun p => mkOutAttr p.2 p.1)).get? j' = some a' →
        a'.uuid ≠ (mkOutAttr ar.labelR u).uuid := by
      intro j' a' hj' hga'
      have hj'lt : j' < fd.outLabelsF.length := Nat.lt_trans hj' hjlt
      rw [List.get?_map, get?_zip, builtNode_outAttrs_get? fd rec0 c j' hj'lt] at hga'
      cases hl' : fd.outLabelsF.get? j' with
      | none =>
        rw [hl'] at hga'
        exact nomatch hga'
      | some lbl' =>
        rw [hl'] at hga'
        injection hga' with hga'
        subst hga'
        show c + 2 + fd.inLabelsF.length + j' ≠ u
        omega
    have hhead : (((builtNode fd rec0 c).outAttrs.zip fd.outLabelsF).map
        (fun p => mkOutAttr p.2 p.1)).find? (fun a => a.uuid = u) =
        some (mkOutAttr ar.labelR u) :=
      find?_of_get? (fun a => a.uuid) _ j (mkOutAttr ar.labelR u) hget hbefore
    rw [List.find?_append, hhead]
    rfl
  | rec0 :: rs, c, hok, k+1, rec, ent, hrec, hent, j, u, ar, hju, hjar => by
    obtain ⟨hne, fd, hfd, hlin, hlout⟩ := hok rec0 (List.mem_cons_self rec0 rs)
    have hok' : ∀ r ∈ rs, RecOK reg r := fun r hr => hok r (List.mem_cons_of_mem rec0 hr)
    rw [List.get?_cons_succ] at hrec
    rw [loadSim_cons reg rec0 rs c fd hne hfd] at hent ⊢
    dsimp only at hent ⊢
    rw [List.get?_cons_succ] at hent
    have hu_ge : c + blockSize fd + 2 ≤ u :=
      (loadSim_entry_uuid_ge reg rs (c + blockSize fd) hok' k ent hent).2.2 u
        (List.get?_mem hju)
    rw [find?_append_none _ _ _ (by
      intro a ha
      have := headOuts_uuid_lt fd rec0 c a ha
      simp only [decide_eq_true_eq]
      omega)]
    exact loadSim_newOuts_find reg rs (c + blockSize fd) hok' k rec ent hrec hent
      j u ar hju hjar

/-! ## C8 batch 2d: the uuid mapping built by the load loop -/

theorem loadSim_mp_elim (reg : Registry) :
    ∀ (rs : List NodeRec) (c : Nat), (∀ r ∈ rs, RecOK reg r) →
      ∀ (x : Nat) (t : MapTarget), (x, t) ∈ (loadSim reg rs c).mp →
        (∃ k rec, rs.get? k = some rec ∧ x = rec.uuidR ∧ t = MapTarget.nodeM) ∨
        (∃ k rec ent j ar u, rs.get? k = some rec ∧
          (loadSim reg rs c).entries.get? k = some ent ∧
          rec.inputAttributesR.get? j = some ar ∧
          ent.node.inAttrs.get? j = some u ∧
          x = ar.uuidR ∧ t = MapTarget.inM u) ∨
        (∃ k rec ent j ar u, rs.get? k = some rec ∧
          (loadSim reg rs c).entries.get? k = some ent ∧
          rec.outputAttributesR.get? j = some ar ∧
          ent.node.outAttrs.get? j = some u ∧
          x = ar.uuidR ∧ t = MapTarget.outM u)
  | [], _, _, x, t, hm => by rw [loadSim] at hm; exact nomatch hm
  | rec0 :: rs, c, hok, x, t, hm => by
    obtain ⟨hne, fd, hfd, hlin, hlout⟩ := hok rec0 (List.mem_cons_self rec0 rs)
    have hok' : ∀ r ∈ rs, RecOK reg r := fun r hr => hok r (List.mem_cons_of_mem rec0 hr)
    rw [loadSim_cons reg rec0 rs c fd hne hfd] at hm ⊢
    dsimp only at hm ⊢
    rcases List.mem_append.mp hm with hblk | htail
    · rcases List.mem_cons.mp hblk with hhd | hattr
      · left
        refine ⟨0, rec0, rfl, ?x, ?t⟩
        case x => exact congrArg Prod.fst hhd
        case t => exact congrArg Prod.snd hhd
      · rcases List.mem_append.mp hattr with hin | hout
        · right; left
          obtain ⟨p, hp, hpt⟩ := List.mem_filterMap.mp hin
          cases hg : (builtNode fd rec0 c).inAttrs.get? p.1 with
          | none => rw [hg] at hpt; exact nomatch hpt
          | some u =>
            rw [hg] at hpt
            injection hpt with hpt
            have hrec : rec0.inputAttributesR.get? p.1 = some p.2 := by
              rw [← List.mem_enum_iff_getElem?.mp hp, List.get?_eq_getElem?]
            refine ⟨0, rec0, ⟨rec0.nodeIdR, rec0.nodeUuidR, builtNode fd rec0 c⟩,
              p.1, p.2, u, rfl, rfl, hrec, hg,
              (congrArg Prod.fst hpt).symm, (congrArg Prod.snd hpt).symm⟩
        · right; right
          obtain ⟨p, hp, hpt⟩ := List.mem_filterMap.mp hout
          cases hg : (builtNode fd rec0 c).outAttrs.get? p.1 with
          | none => rw [hg] at hpt; exact nomatch hpt
          | some u =>
            rw [hg] at hpt
            injection hpt with hpt
            have hrec : rec0.outputAttributesR.get? p.1 = some p.2 := by
              rw [← List.mem_enum_iff_getElem?.mp hp, List.get?_eq_getElem?]
            refine ⟨0, rec0, ⟨rec0.nodeIdR, rec0.nodeUuidR, builtNode fd rec0 c⟩,
              p.1, p.2, u, rfl, rfl, hrec, hg,
              (congrArg Prod.fst hpt).symm, (congrArg Prod.snd hpt).symm⟩
    · rcases loadSim_mp_elim reg rs (c + blockSize fd) hok' x t htail with
        ⟨k, rec, hk, hx, ht⟩ | ⟨k, rec, ent, j, ar, u, hk, hent, har, hu, hx, ht⟩ |
        ⟨k, rec, ent, j, ar, u, hk, hent, har, hu, hx, ht⟩
      · exact Or.inl ⟨k+1, rec, hk, hx, ht⟩
      · exact Or.inr (Or.inl ⟨k+1, rec, ent, j, ar, u, hk, hent, har, hu, hx, ht⟩)
      · exact Or.inr (Or.inr ⟨k+1, rec, ent, j, ar, u, hk, hent, har, hu, hx, ht⟩)

theorem loadSim_mp_intro_in (reg : Registry) :
    ∀ (rs : List NodeRec) (c : Nat), (∀ r ∈ rs, RecOK reg r) →
      ∀ (k : Nat) (rec : NodeRec) (ent : Entry) (j : Nat) (ar : AttrRec) (u : Nat),
        rs.get? k = some rec →
        (loadSim reg rs c).entries.get? k = some ent →
        rec.inputAttributesR.get? j = some ar →
        ent.node.inAttrs.get? j = some u →
        (ar.uuidR, MapTarget.inM u) ∈ (loadSim reg rs c).mp
  | [], _, _, k, rec, ent, j, ar, u, hrec, _, _, _ => nomatch hrec
  | rec0 :: rs, c, hok, 0, rec, ent, j, ar, u, hrec, hent, har, hu => by
    injection hrec with hrec
    subst hrec
    obtain ⟨hne, fd, hfd, hlin, hlout⟩ := hok rec0 (List.mem_cons_self rec0 rs)
    rw [loadSim_cons reg rec0 rs c fd hne hfd] at hent ⊢
    dsimp only at hent ⊢
    rw [List.get?_cons_zero] at hent
    injection hent with hent
    subst hent
    dsimp only at hu
    refine List.mem_append.mpr (Or.inl (List.mem_cons.mpr (Or.inr
      (List.mem_append.mpr (Or.inl ?m)))))
    case m =>
      refine List.mem_filterMap.mpr ⟨(j, ar), ?hm, ?hf⟩
      case hm =>
        rw [List.mem_enum_iff_getElem?, ← List.get?_eq_getElem?]
        exact har
      case hf =>
        rw [hu]
        rfl
  | rec0 :: rs, c, hok, k+1, rec, ent, j, ar, u, hrec, hent, har, hu => by
    obtain ⟨hne, fd, hfd, hlin, hlout⟩ := hok rec0 (List.mem_cons_self rec0 rs)
    have hok' : ∀ r ∈ rs, RecOK reg r := fun r hr => hok r (List.mem_cons_of_mem rec0 hr)
    rw [List.get?_cons_succ] at hrec
    rw [loadSim_cons reg rec0 rs c fd hne hfd] at hent ⊢
    dsimp only at hent ⊢
    rw [List.get?_cons_succ] at hent
    exact List.mem_append.mpr (Or.inr
      (loadSim_mp_intro_in reg rs (c + blockSize fd) hok' k rec ent j ar u
        hrec hent har hu))

theorem loadSim_mp_intro_out (reg : Registry) :
    ∀ (rs : List NodeRec) (c : Nat), (∀ r ∈ rs, RecOK reg r) →
      ∀ (k : Nat) (rec : NodeRec) (ent : Entry) (j : Nat) (ar : AttrRec) (u : Nat),
        rs.get? k = some rec →
        (loadSim reg rs c).entries.get? k = some ent →
        rec.outputAttributesR.get? j = some ar →
        ent.node.outAttrs.get? j = some u →
        (ar.uuidR, MapTarget.outM u) ∈ (loadSim reg rs c).mp
  | [], _, _, k, rec, ent, j, ar, u, hrec, _, _, _ => nomatch hrec
  | rec0 :: rs, c, hok, 0, rec, ent, j, ar, u, hrec, hent, har, hu => by
    injection hrec with hrec
    subst hrec
    obtain ⟨hne, fd, hfd, hlin, hlout⟩ := hok rec0 (List.mem_cons_self rec0 rs)
    rw [loadSim_cons reg rec0 rs c fd hne hfd] at hent ⊢
    dsimp only at hent ⊢
    rw [List.get?_cons_zero] at hent
    injection hent with hent
    subst hent
    dsimp only at hu
    refine List.mem_append.mpr (Or.inl (List.mem_cons.mpr (Or.inr
      (List.mem_append.mpr (Or.inr ?m)))))
    case m =>
      refine List.mem_filterMap.mpr ⟨(j, ar), ?hm, ?hf⟩
      case hm =>
        rw [List.mem_enum_iff_getElem?, ← List.get?_eq_getElem?]
        exact har
      case hf =>
        rw [hu]
        rfl
  | rec0 :: rs, c, hok, k+1, rec, ent, j, ar, u, hrec, hent, har, hu => by
    obtain ⟨hne, fd, hfd, hlin, hlout⟩ := hok rec0 (List.mem_cons_self rec0 rs)
    have hok' : ∀ r ∈ rs, RecOK reg r := fun r hr => hok r (List.mem_cons_of_mem rec0 hr)
    rw [List.get?_cons_succ] at hrec
    rw [loadSim_cons reg rec0 rs c fd hne hfd] at hent ⊢
    dsimp only at hent ⊢
    rw [List.get?_cons_succ] at hent
    exact List.mem_append.mpr (Or.inr
      (loadSim_mp_intro_out reg rs (c + blockSize fd) hok' k rec ent j ar u
        hrec hent har hu))

theorem loadSim_mp_keys (reg : Registry) :
    ∀ (rs : List NodeRec) (c : Nat), (∀ r ∈ rs, RecOK reg r) →
      (loadSim reg rs c).mp.map Prod.fst =
        rs.flatMap (fun rec => rec.uuidR ::
          (rec.inputAttributesR.map (fun a => a.uuidR) ++
           rec.outputAttributesR.map (fun a => a.uuidR)))
  | [], c, _ => by rw [loadSim]; rfl
  | rec0 :: rs, c, hok => by
    obtain ⟨hne, fd, hfd, hlin, hlout⟩ := hok rec0 (List.mem_cons_self rec0 rs)
    have hok' : ∀ r ∈ rs, RecOK reg r := fun r hr => hok r (List.mem_cons_of_mem rec0 hr)
    have hinlen : rec0.inputAttributesR.length = fd.inLabelsF.length := by
      rw [← hlin, List.length_map]
    have houtlen : rec0.outputAttributesR.length = fd.outLabelsF.length := by
      rw [← hlout, List.length_map]
    rw [loadSim_cons reg rec0 rs c fd hne hfd]
    dsimp only
    rw [List.flatMap_cons]
    rw [List.map_append, List.map_cons, List.map_append]
    rw [mp_block_in fd rec0 c hinlen, mp_block_out fd rec0 c houtlen]
    rw [List.map_map, List.map_map]
    rw [loadSim_mp_keys reg rs (c + blockSize fd) hok']
    have h1 : (rec0.inputAttributesR.zip (builtNode fd rec0 c).inAttrs).map
        (Prod.fst ∘ fun q => (q.1.uuidR, MapTarget.inM q.2)) =
        rec0.inputAttributesR.map (fun a => a.uuidR) := by
      have : (Prod.fst ∘ fun q : AttrRec × Nat => (q.1.uuidR, MapTarget.inM q.2)) =
          (fun a : AttrRec => a.uuidR) ∘ Prod.fst := by
        funext q
        rfl
      rw [this, ← List.map_map, List.map_fst_zip]
      rw [builtNode_inAttrs_length, hinlen]
    have h2 : (rec0.outputAttributesR.zip (builtNode fd rec0 c).outAttrs).map
        (Prod.fst ∘ fun q => (q.1.uuidR, MapTarget.outM q.2)) =
        rec0.outputAttributesR.map (fun a => a.uuidR) := by
      have : (Prod.fst ∘ fun q : AttrRec × Nat => (q.1.uuidR, MapTarget.outM q.2)) =
          (fun a : AttrRec => a.uuidR) ∘ Prod.fst := by
        funext q
        rfl
      rw [this, ← List.map_map, List.map_fst_zip]
      rw [builtNode_outAttrs_length, houtlen]
    rw [h1, h2]

/-! ## C8 batch 2e: the node-creation loop in closed form -/

theorem loadFromDict_runFactory (fd : FactoryDef) (rec : NodeRec) (st : Store) :
    loadFromDict (runFactory fd rec.labelR rec.dataR st).1 rec =
      builtNode fd rec st.nextUuid := by
  rfl

theorem runFactory_store (fd : FactoryDef) (rec : NodeRec) (st : Store) :
    (runFactory fd rec.labelR rec.dataR st).2 =
      ⟨st.ins ++ ((builtNode fd rec st.nextUuid).inAttrs.zip fd.inLabelsF).map
          (fun p => mkInAttr p.2 p.1),
       st.outs ++ ((builtNode fd rec st.nextUuid).outAttrs.zip fd.outLabelsF).map
          (fun p => mkOutAttr p.2 p.1),
       st.nextUuid + blockSize fd⟩ := by
  unfold runFactory blockSize builtNode
  dsimp only
  congr 1
  omega

theorem loadNodesLoop_eq_sim (reg : Registry) :
    ∀ (rs : List NodeRec) (e0 : Editor) (st0 : Store) (mp0 : List (Nat × MapTarget)),
      (∀ r ∈ rs, RecOK reg r) →
      loadNodesLoop reg rs e0 st0 mp0 =
        (true,
         { e0 with nodes := e0.nodes ++ (loadSim reg rs st0.nextUuid).entries },
         ⟨st0.ins ++ (loadSim reg rs st0.nextUuid).newIns,
          st0.outs ++ (loadSim reg rs st0.nextUuid).newOuts,
          (loadSim reg rs st0.nextUuid).next⟩,
         mp0 ++ (loadSim reg rs st0.nextUuid).mp)
  | [], e0, st0, mp0, _ => by
    rw [loadNodesLoop, loadSim]
    simp
  | rec0 :: rs, e0, st0, mp0, hok => by
    obtain ⟨hne, fd, hfd, hlin, hlout⟩ := hok rec0 (List.mem_cons_self rec0 rs)
    have hok' : ∀ r ∈ rs, RecOK reg r := fun r hr => hok r (List.mem_cons_of_mem rec0 hr)
    rw [loadNodesLoop]
    rw [if_neg hne, hfd]
    dsimp only
    rw [loadNodesLoop_eq_sim reg rs _ _ _ hok']
    rw [loadSim_cons reg rec0 rs st0.nextUuid fd hne hfd]
    dsimp only
    rw [loadFromDict_runFactory fd rec0 st0, runFactory_store fd rec0 st0]
    dsimp only
    simp [List.append_assoc]

/-! ## C8 batch 3: the connection replay -/

theorem getIn_labelF_removeChild (st : Store) (o i w : Nat) :
    ((removeChild st o i).getIn w).labelF = (st.getIn w).labelF := by
  unfold removeChild
  split_ifs
  · dsimp only
    rw [getIn_labelF_updateIn (st.updateOut o (fun a => { a with children := a.children.erase i }))
        i (fun a => { a with parent := none }) (fun a => rfl) (fun a => rfl) w]
    rfl
  · rfl

theorem getOut_labelF_removeChild (st : Store) (o i w : Nat) :
    ((removeChild st o i).getOut w).labelF = (st.getOut w).labelF := by
  unfold removeChild
  split_ifs
  · dsimp only
    show (((st.updateOut o (fun a => { a with children := a.children.erase i }))).getOut w).labelF =
      (st.getOut w).labelF
    rw [getOut_labelF_updateOut st o (fun a => { a with children := a.children.erase i })
        (fun a => rfl) (fun a => rfl) w]
  · rfl

theorem getIn_labelF_clearConnection (st : Store) (i w : Nat) :
    ((clearConnection st i).getIn w).labelF = (st.getIn w).labelF := by
  unfold clearConnection
  cases hp : (st.getIn i).parent with
  | none =>
    dsimp only
    rw [getIn_labelF_updateIn _ i (fun a => { a with buffer := [], lastData := none })
        (fun a => rfl) (fun a => rfl) w,
      getIn_labelF_updateIn st i (fun a => { a with parent := none })
        (fun a => rfl) (fun a => rfl) w]
  | some p =>
    dsimp only
    rw [getIn_labelF_updateIn _ i (fun a => { a with buffer := [], lastData := none })
        (fun a => rfl) (fun a => rfl) w,
      getIn_labelF_updateIn (removeChild st p i) i (fun a => { a with parent := none })
        (fun a => rfl) (fun a => rfl) w,
      getIn_labelF_removeChild st p i w]

theorem getOut_labelF_clearConnection (st : Store) (i w : Nat) :
    ((clearConnection st i).getOut w).labelF = (st.getOut w).labelF := by
  unfold clearConnection
  cases hp : (st.getIn i).parent with
  | none => rfl
  | some p =>
    dsimp only
    show ((removeChild st p i).getOut w).labelF = (st.getOut w).labelF
    rw [getOut_labelF_removeChild st p i w]

theorem replay_pres (mp : List (Nat × MapTarget)) :
    ∀ (conns : List (Nat × Nat)) (st : Store),
      (∀ w, (((replayConns false mp conns st).2).getIn w).labelF = (st.getIn w).labelF) ∧
      (∀ w, (((replayConns false mp conns st).2).getOut w).labelF = (st.getOut w).labelF) ∧
      (∀ w, (((replayConns false mp conns st).2).findIn w).isSome = (st.findIn w).isSome) ∧
      (∀ w, (((replayConns false mp conns st).2).findOut w).isSome = (st.findOut w).isSome)
  | [], st => ⟨fun _ => rfl, fun _ => rfl, fun _ => rfl, fun _ => rfl⟩
  | c :: rest, st => by
    cases hx : mapLookup mp c.1 with
    | none =>
      rw [replayConns, hx]
      exact replay_pres mp rest st
    | some tx =>
      cases tx with
      | nodeM =>
        rw [replayConns, hx]
        exact replay_pres mp rest st
      | inM o =>
        rw [replayConns, hx]
        exact replay_pres mp rest st
      | outM o =>
        cases hy : mapLookup mp c.2 with
        | none =>
          rw [replayConns, hx, hy]
          exact replay_pres mp rest st
        | some ty =>
          cases ty with
          | nodeM =>
            rw [replayConns, hx, hy]
            exact ⟨fun _ => rfl, fun _ => rfl, fun _ => rfl, fun _ => rfl⟩
          | outM o2 =>
            rw [replayConns, hx, hy]
            exact ⟨fun _ => rfl, fun _ => rfl, fun _ => rfl, fun _ => rfl⟩
          | inM i =>
            rw [replayConns, hx, hy]
            dsimp only
            simp only [Bool.false_eq_true, if_false]
            obtain ⟨ih1, ih2, ih3, ih4⟩ := replay_pres mp rest
              (((clearConnection st i).updateOut o
                  (fun a => { a with children := a.children ++ [i] })).updateIn i
                (fun a => { a with parent := some o }))
            refine ⟨?l1, ?l2, ?l3, ?l4⟩
            case l1 =>
              intro w
              rw [ih1 w]
              rw [getIn_labelF_updateIn _ i (fun a => { a with parent := some o })
                  (fun a => rfl) (fun a => rfl) w]
              show (((clearConnection st i)).getIn w).labelF = (st.getIn w).labelF
              rw [getIn_labelF_clearConnection st i w]
            case l2 =>
              intro w
              rw [ih2 w]
              show (((clearConnection st i).updateOut o
                  (fun a => { a with children := a.children ++ [i] })).getOut w).labelF =
                (st.getOut w).labelF
              rw [getOut_labelF_updateOut (clearConnection st i) o
                  (fun a => { a with children := a.children ++ [i] })
                  (fun a => rfl) (fun a => rfl) w,
                getOut_labelF_clearConnection st i w]
            case l3 =>
              intro w
              rw [ih3 w]
              rw [isSome_findIn_updateIn _ i w (fun a => { a with parent := some o })
                  (fun a => rfl)]
              show ((clearConnection st i).findIn w).isSome = (st.findIn w).isSome
              rw [findIn_isSome_clearConnection st i w]
            case l4 =>
              intro w
              rw [ih4 w]
              show (((clearConnection st i).updateOut o
                  (fun a => { a with children := a.children ++ [i] })).findOut w).isSome =
                (st.findOut w).isSome
              rw [isSome_findOut_updateOut (clearConnection st i) o w
                  (fun a => { a with children := a.children ++ [i] }) (fun a => rfl),
                findOut_isSome_clearConnection st i w]

theorem tgtIns_nil (mp : List (Nat × MapTarget)) : tgtIns mp [] = [] := rfl

theorem tgtIns_cons_in (mp : List (Nat × MapTarget)) (c : Nat × Nat)
    (rest : List (Nat × Nat)) (i : Nat)
    (hy : mapLookup mp c.2 = some (MapTarget.inM i)) :
    tgtIns mp (c :: rest) = i :: tgtIns mp rest := by
  unfold tgtIns
  rw [List.filterMap_cons, hy]

theorem tgtIns_mem_in (mp : List (Nat × MapTarget)) (rest : List (Nat × Nat))
    (c' : Nat × Nat) (i' : Nat) (hc : c' ∈ rest)
    (hy : mapLookup mp c'.2 = some (MapTarget.inM i')) :
    i' ∈ tgtIns mp rest :=
  List.mem_filterMap.mpr ⟨c', hc, by rw [hy]⟩

theorem transOf_nil (mp : List (Nat × MapTarget)) (u : Nat) : transOf mp [] u = [] := rfl

theorem transOf_cons (mp : List (Nat × MapTarget)) (c : Nat × Nat)
    (rest : List (Nat × Nat)) (u o i : Nat)
    (hx : mapLookup mp c.1 = some (MapTarget.outM o))
    (hy : mapLookup mp c.2 = some (MapTarget.inM i)) :
    transOf mp (c :: rest) u =
      (if o = u then [i] else []) ++ transOf mp rest u := by
  unfold transOf
  rw [List.filterMap_cons, hx, hy]
  by_cases h : o = u <;> simp [h]

theorem replay_char (mp : List (Nat × MapTarget)) :
    ∀ (conns : List (Nat × Nat)) (st : Store),
      (∀ c ∈ conns, ∃ o i,
        mapLookup mp c.1 = some (MapTarget.outM o) ∧
        mapLookup mp c.2 = some (MapTarget.inM i) ∧
        (st.findOut o).isSome ∧ (st.findIn i).isSome ∧ (st.getIn i).parent = none) →
      (tgtIns mp conns).Nodup →
      (replayConns false mp conns st).1 = true ∧
      ∀ u, ((replayConns false mp conns st).2.getOut u).children =
        (st.getOut u).children ++ transOf mp conns u
  | [], st, _, _ => ⟨rfl, fun u => by rw [transOf_nil, List.append_nil]; rfl⟩
  | c :: rest, st, h1, hnd => by
    obtain ⟨o, i, hx, hy, ho, hi, hpar⟩ := h1 c (List.mem_cons_self c rest)
    rw [tgtIns_cons_in mp c rest i hy] at hnd
    have hnotin : i ∉ tgtIns mp rest := (List.nodup_cons.mp hnd).1
    have hnd' : (tgtIns mp rest).Nodup := (List.nodup_cons.mp hnd).2
    rw [replayConns, hx, hy]
    dsimp only
    simp only [Bool.false_eq_true, if_false]
    rw [clearConnection_parent_none st i hpar]
    set stc := (st.updateIn i (fun a => { a with parent := none })).updateIn i
      (fun a => { a with buffer := [], lastData := none }) with hstc
    set st2 := (stc.updateOut o
        (fun a => { a with children := a.children ++ [i] })).updateIn i
      (fun a => { a with parent := some o }) with hst2
    have hfindO_stc : ∀ w, stc.findOut w = st.findOut w := fun w => rfl
    have hgetO_stc : ∀ w, stc.getOut w = st.getOut w := fun w => rfl
    have hgetIn_stc_ne : ∀ w, w ≠ i → stc.getIn w = st.getIn w := by
      intro w hw
      rw [hstc,
        getIn_updateIn_ne _ i w (fun a => { a with buffer := [], lastData := none })
          (fun a => rfl) hw,
        getIn_updateIn_ne st i w (fun a => { a with parent := none })
          (fun a => rfl) hw]
    have hgetIn2_ne : ∀ w, w ≠ i → st2.getIn w = st.getIn w := by
      intro w hw
      rw [hst2,
        getIn_updateIn_ne _ i w (fun a => { a with parent := some o })
          (fun a => rfl) hw]
      show (stc.updateOut o (fun a => { a with children := a.children ++ [i] })).getIn w =
        st.getIn w
      rw [getIn_updateOut]
      exact hgetIn_stc_ne w hw
    have hchild2 : ∀ u, (st2.getOut u).children =
        (st.getOut u).children ++ (if o = u then [i] else []) := by
      intro u
      rw [hst2]
      show ((stc.updateOut o (fun a => { a with children := a.children ++ [i] })).getOut u).children =
        _
      by_cases hu : u = o
      · subst hu
        rw [getOut_updateOut_self stc u (fun a => { a with children := a.children ++ [i] })
            (fun a => rfl) (by rw [hfindO_stc]; exact ho)]
        rw [if_pos rfl, hgetO_stc]
      · rw [getOut_updateOut_ne stc o u (fun a => { a with children := a.children ++ [i] })
            (fun a => rfl) hu]
        rw [if_neg (fun h => hu h.symm), List.append_nil, hgetO_stc]
    have h1' : ∀ c' ∈ rest, ∃ o' i',
        mapLookup mp c'.1 = some (MapTarget.outM o') ∧
        mapLookup mp c'.2 = some (MapTarget.inM i') ∧
        (st2.findOut o').isSome ∧ (st2.findIn i').isSome ∧
        (st2.getIn i').parent = none := by
      intro c' hc'
      obtain ⟨o', i', hx', hy', ho', hi', hpar'⟩ := h1 c' (List.mem_cons_of_mem c hc')
      have hii : i' ≠ i := by
        intro h
        exact hnotin (h ▸ tgtIns_mem_in mp rest c' i' hc' hy')
      refine ⟨o', i', hx', hy', ?o, ?i, ?p⟩
      case o =>
        rw [hst2]
        show ((stc.updateOut o (fun a => { a with children := a.children ++ [i] })).findOut o').isSome
        rw [isSome_findOut_updateOut stc o o' (fun a => { a with children := a.children ++ [i] })
            (fun a => rfl), hfindO_stc]
        exact ho'
      case i =>
        rw [hst2,
          isSome_findIn_updateIn _ i i' (fun a => { a with parent := some o })
            (fun a => rfl)]
        show ((stc.updateOut o (fun a => { a with children := a.children ++ [i] })).findIn i').isSome
        rw [show ((stc.updateOut o (fun a => { a with children := a.children ++ [i] })).findIn i') = stc.findIn i' from rfl]
        rw [hstc,
          isSome_findIn_updateIn _ i i' (fun a => { a with buffer := [], lastData := none })
            (fun a => rfl),
          isSome_findIn_updateIn st i i' (fun a => { a with parent := none })
            (fun a => rfl)]
        exact hi'
      case p =>
        rw [hgetIn2_ne i' hii]
        exact hpar'
    obtain ⟨hok, hch⟩ := replay_char mp rest st2 h1' hnd'
    refine ⟨hok, ?ch⟩
    case ch =>
      intro u
      rw [hch u, hchild2 u, transOf_cons mp c rest u o i hx hy]
      by_cases h : o = u <;> simp [h]


/-! ## C8 batch 4a: facts about the exported record -/

theorem flatMap_congr {α β : Type} {l : List α} {f g : α → List β}
    (h : ∀ a ∈ l, f a = g a) : l.flatMap f = l.flatMap g := by
  induction l with
  | nil => rfl
  | cons a t ih =>
    simp only [List.flatMap_cons, h a (List.mem_cons_self a t)]
    rw [ih (fun x hx => h x (List.mem_cons_of_mem a hx))]

theorem getIn_uuid_of_isSome (st : Store) (u : Nat) (h : (st.findIn u).isSome) :
    (st.getIn u).uuid = u := by
  obtain ⟨a, ha⟩ := Option.isSome_iff_exists.mp h
  unfold Store.getIn
  rw [ha]
  exact (find?_some_uuid_in ha).1

theorem getOut_uuid_of_isSome (st : Store) (u : Nat) (h : (st.findOut u).isSome) :
    (st.getOut u).uuid = u := by
  obtain ⟨a, ha⟩ := Option.isSome_iff_exists.mp h
  unfold Store.getOut
  rw [ha]
  exact (find?_some_uuid_out ha).1

theorem save_nodesR (e : Editor) (st : Store) :
    (save e st).nodesR = e.nodes.map (nodeToDict st) := rfl

theorem save_conns_mem (e : Editor) (st : Store) (x y : Nat) :
    (x, y) ∈ (save e st).connectionsR ↔
      ∃ ent ∈ e.nodes, x ∈ ent.node.outAttrs ∧ y ∈ (st.getOut x).children := by
  show (x, y) ∈ e.nodes.flatMap (fun ent =>
    ent.node.outAttrs.flatMap (fun ou =>
      ((st.getOut ou).children).map (fun iu => (ou, iu)))) ↔ _
  constructor
  · intro hm
    obtain ⟨ent, hent, hm2⟩ := List.mem_flatMap.mp hm
    obtain ⟨ou, hou, hm3⟩ := List.mem_flatMap.mp hm2
    obtain ⟨iu, hiu, heq⟩ := List.mem_map.mp hm3
    have hx : ou = x := congrArg Prod.fst heq
    have hy : iu = y := congrArg Prod.snd heq
    subst hx
    subst hy
    exact ⟨ent, hent, hou, hiu⟩
  · intro ⟨ent, hent, hou, hiu⟩
    exact List.mem_flatMap.mpr ⟨ent, hent, List.mem_flatMap.mpr
      ⟨x, hou, List.mem_map.mpr ⟨y, hiu, rfl⟩⟩⟩

theorem save_conns_snd (e : Editor) (st : Store) :
    (save e st).connectionsR.map Prod.snd =
      e.nodes.flatMap (fun ent => ent.node.outAttrs.flatMap
        (fun ou => (st.getOut ou).children)) := by
  show (e.nodes.flatMap (fun ent =>
    ent.node.outAttrs.flatMap (fun ou =>
      ((st.getOut ou).children).map (fun iu => (ou, iu))))).map Prod.snd = _
  rw [List.map_flatMap]
  refine flatMap_congr (fun ent _ => ?inner)
  case inner =>
    rw [List.map_flatMap]
    refine flatMap_congr (fun ou _ => ?inner2)
    case inner2 =>
      rw [List.map_map]
      exact List.map_id ((st.getOut ou).children)

theorem save_RecOK (reg : Registry) (e : Editor) (st : Store) (hwf : EdWF reg e st) :
    ∀ r ∈ (save e st).nodesR, RecOK reg r := by
  intro r hr
  rw [save_nodesR] at hr
  obtain ⟨ent, hent, hrec⟩ := List.mem_map.mp hr
  subst hrec
  obtain ⟨hne, fd, hfd, hty, hlin, hlout⟩ := hwf.registered ent hent
  refine ⟨hne, fd, hfd, ?lin, ?lout⟩
  case lin =>
    show (ent.node.inAttrs.map (attrRecOfIn st)).map (fun a => a.labelR) = fd.inLabelsF
    rw [List.map_map]
    exact hlin
  case lout =>
    show (ent.node.outAttrs.map (attrRecOfOut st)).map (fun a => a.labelR) = fd.outLabelsF
    rw [List.map_map]
    exact hlout

theorem save_keys_eq (reg : Registry) (e : Editor) (st : Store) (hwf : EdWF reg e st) :
    (save e st).nodesR.flatMap (fun rec => rec.uuidR ::
        (rec.inputAttributesR.map (fun a => a.uuidR) ++
         rec.outputAttributesR.map (fun a => a.uuidR))) = allMapKeys e := by
  rw [save_nodesR, List.flatMap_map]
  refine flatMap_congr (fun ent hent => ?per)
  case per =>
    show (nodeToDict st ent).uuidR ::
        ((nodeToDict st ent).inputAttributesR.map (fun a => a.uuidR) ++
         (nodeToDict st ent).outputAttributesR.map (fun a => a.uuidR)) =
      ent.node.uuid :: (ent.node.inAttrs ++ ent.node.outAttrs)
    congr 1
    show (ent.node.inAttrs.map (attrRecOfIn st)).map (fun a => a.uuidR) ++
        (ent.node.outAttrs.map (attrRecOfOut st)).map (fun a => a.uuidR) =
      ent.node.inAttrs ++ ent.node.outAttrs
    rw [List.map_map, List.map_map]
    congr 1
    · have : ∀ u ∈ ent.node.inAttrs,
          ((fun a => a.uuidR) ∘ attrRecOfIn st) u = id u := by
        intro u hu
        show (st.getIn u).uuid = u
        exact getIn_uuid_of_isSome st u (hwf.inResolve ent hent u hu)
      rw [List.map_congr_left this, List.map_id]
    · have : ∀ u ∈ ent.node.outAttrs,
          ((fun a => a.uuidR) ∘ attrRecOfOut st) u = id u := by
        intro u hu
        show (st.getOut u).uuid = u
        exact getOut_uuid_of_isSome st u (hwf.outResolve ent hent u hu)
      rw [List.map_congr_left this, List.map_id]

theorem simOf_keys_nodup (reg : Registry) (e : Editor) (st : Store)
    (hwf : EdWF reg e st) :
    ((simOf reg e st).mp.map Prod.fst).Nodup := by
  unfold simOf
  rw [← save_nodesR]
  rw [loadSim_mp_keys reg (save e st).nodesR st.nextUuid (save_RecOK reg e st hwf)]
  rw [save_keys_eq reg e st hwf]
  exact hwf.keysNodup

/-! ## C8 batch 4b: fresh uuids are position-injective -/

theorem built_in_get?_inv (fd : FactoryDef) (rec : NodeRec) (c j u : Nat)
    (h : (builtNode fd rec c).inAttrs.get? j = some u) :
    j < fd.inLabelsF.length ∧ u = c + 2 + j := by
  have hj : j < fd.inLabelsF.length := by
    by_contra hge
    rw [List.get?_eq_none.mpr (by rw [builtNode_inAttrs_length]; omega)] at h
    exact nomatch h
  have h2 := builtNode_inAttrs_get? fd rec c j hj
  rw [h] at h2
  injection h2 with h2
  exact ⟨hj, h2⟩

theorem built_out_get?_inv (fd : FactoryDef) (rec : NodeRec) (c j u : Nat)
    (h : (builtNode fd rec c).outAttrs.get? j = some u) :
    j < fd.outLabelsF.length ∧ u = c + 2 + fd.inLabelsF.length + j := by
  have hj : j < fd.outLabelsF.length := by
    by_contra hge
    rw [List.get?_eq_none.mpr (by rw [builtNode_outAttrs_length]; omega)] at h
    exact nomatch h
  have h2 := builtNode_outAttrs_get? fd rec c j hj
  rw [h] at h2
  injection h2 with h2
  exact ⟨hj, h2⟩

theorem sim_inj_in (reg : Registry) (rs : List NodeRec) (c : Nat)
    (hok : ∀ r ∈ rs, RecOK reg r) (k k' j j' u : Nat) (ent ent' : Entry)
    (hk : (loadSim reg rs c).entries.get? k = some ent)
    (hk' : (loadSim reg rs c).entries.get? k' = some ent')
    (hj : ent.node.inAttrs.get? j = some u)
    (hj' : ent'.node.inAttrs.get? j' = some u) :
    k = k' ∧ j = j' := by
  obtain ⟨rec, hrec⟩ := loadSim_rec_of_entry reg rs c hok k ent hk
  obtain ⟨rec', hrec'⟩ := loadSim_rec_of_entry reg rs c hok k' ent' hk'
  obtain ⟨fd, ck, _, _, _, _, _, hget⟩ := loadSim_entry_char reg rs c hok k rec hrec
  obtain ⟨fd', ck', _, _, _, _, _, hget'⟩ := loadSim_entry_char reg rs c hok k' rec' hrec'
  rw [hk] at hget
  injection hget with hget
  subst hget
  rw [hk'] at hget'
  injection hget' with hget'
  subst hget'
  dsimp only at hj hj'
  obtain ⟨hjlt, hju⟩ := built_in_get?_inv fd rec ck j u hj
  obtain ⟨hjlt', hju'⟩ := built_in_get?_inv fd' rec' ck' j' u hj'
  rcases Nat.lt_trichotomy k k' with hkk | hkk | hkk
  · exfalso
    have hd := loadSim_entry_disj reg rs c hok k k' hkk _ _ hk hk'
    dsimp only at hd
    rw [builtNode_inAttrs_length, builtNode_outAttrs_length] at hd
    show False
    have : (builtNode fd rec ck).uuid = ck := rfl
    rw [this] at hd
    have : (builtNode fd' rec' ck').uuid = ck' := rfl
    omega
  · subst hkk
    rw [hk] at hk'
    injection hk' with hk'
    have hnode : builtNode fd rec ck = builtNode fd' rec' ck' :=
      congrArg Entry.node hk'
    have hcc : ck = ck' := congrArg NodeObj.uuid hnode
    constructor
    · rfl
    · omega
  · exfalso
    have hd := loadSim_entry_disj reg rs c hok k' k hkk _ _ hk' hk
    dsimp only at hd
    rw [builtNode_inAttrs_length, builtNode_outAttrs_length] at hd
    have : (builtNode fd' rec' ck').uuid = ck' := rfl
    rw [this] at hd
    have : (builtNode fd rec ck).uuid = ck := rfl
    omega

theorem sim_inj_out (reg : Registry) (rs : List NodeRec) (c : Nat)
    (hok : ∀ r ∈ rs, RecOK reg r) (k k' j j' u : Nat) (ent ent' : Entry)
    (hk : (loadSim reg rs c).entries.get? k = some ent)
    (hk' : (loadSim reg rs c).entries.get? k' = some ent')
    (hj : ent.node.outAttrs.get? j = some u)
    (hj' : ent'.node.outAttrs.get? j' = some u) :
    k = k' ∧ j = j' := by
  obtain ⟨rec, hrec⟩ := loadSim_rec_of_entry reg rs c hok k ent hk
  obtain ⟨rec', hrec'⟩ := loadSim_rec_of_entry reg rs c hok k' ent' hk'
  obtain ⟨fd, ck, _, _, _, _, _, hget⟩ := loadSim_entry_char reg rs c hok k rec hrec
  obtain ⟨fd', ck', _, _, _, _, _, hget'⟩ := loadSim_entry_char reg rs c hok k' rec' hrec'
  rw [hk] at hget
  injection hget with hget
  subst hget
  rw [hk'] at hget'
  injection hget' with hget'
  subst hget'
  dsimp only at hj hj'
  obtain ⟨hjlt, hju⟩ := built_out_get?_inv fd rec ck j u hj
  obtain ⟨hjlt', hju'⟩ := built_out_get?_inv fd' rec' ck' j' u hj'
  rcases Nat.lt_trichotomy k k' with hkk | hkk | hkk
  · exfalso
    have hd := loadSim_entry_disj reg rs c hok k k' hkk _ _ hk hk'
    dsimp only at hd
    rw [builtNode_inAttrs_length, builtNode_outAttrs_length] at hd
    have h1 : (builtNode fd rec ck).uuid = ck := rfl
    rw [h1] at hd
    have h2 : (builtNode fd' rec' ck').uuid = ck' := rfl
    omega
  · subst hkk
    rw [hk] at hk'
    injection hk' with hk'
    have hnode : builtNode fd rec ck = builtNode fd' rec' ck' :=
      congrArg Entry.node hk'
    have hcc : ck = ck' := congrArg NodeObj.uuid hnode
    have hff : fd.inLabelsF.length = fd'.inLabelsF.length := by
      have hl := congrArg (fun n => n.inAttrs.length) hnode
      dsimp only at hl
      rwa [builtNode_inAttrs_length, builtNode_inAttrs_length] at hl
    constructor
    · rfl
    · omega
  · exfalso
    have hd := loadSim_entry_disj reg rs c hok k' k hkk _ _ hk' hk
    dsimp only at hd
    rw [builtNode_inAttrs_length, builtNode_outAttrs_length] at hd
    have h1 : (builtNode fd' rec' ck').uuid = ck' := rfl
    rw [h1] at hd
    have h2 : (builtNode fd rec ck).uuid = ck := rfl
    omega

/-! ## C8 batch 4c: the rebuilt store resolves the fresh attributes -/

theorem stB_findIn_fresh (reg : Registry) (rs : List NodeRec) (N : Nat)
    (hok : ∀ r ∈ rs, RecOK reg r) (pre : List InAttr) (preO : List OutAttr)
    (hpre : ∀ a ∈ pre, a.uuid < N)
    (k : Nat) (rec : NodeRec) (ent : Entry)
    (hrec : rs.get? k = some rec)
    (hent : (loadSim reg rs N).entries.get? k = some ent)
    (j u : Nat) (ar : AttrRec)
    (hju : ent.node.inAttrs.get? j = some u)
    (hjar : rec.inputAttributesR.get? j = some ar) :
    (Store.mk (pre ++ (loadSim reg rs N).newIns)
        (preO ++ (loadSim reg rs N).newOuts) (loadSim reg rs N).next).findIn u =
      some (mkInAttr ar.labelR u) := by
  show (pre ++ (loadSim reg rs N).newIns).find? (fun a => a.uuid = u) = _
  have hge : N + 2 ≤ u :=
    (loadSim_entry_uuid_ge reg rs N hok k ent hent).2.1 u (List.get?_mem hju)
  rw [find?_append_none _ pre _ (fun a ha => by
    simp only [decide_eq_true_eq]
    have := hpre a ha
    omega)]
  exact loadSim_newIns_find reg rs N hok k rec ent hrec hent j u ar hju hjar

theorem stB_findOut_fresh (reg : Registry) (rs : List NodeRec) (N : Nat)
    (hok : ∀ r ∈ rs, RecOK reg r) (pre : List InAttr) (preO : List OutAttr)
    (hpreO : ∀ a ∈ preO, a.uuid < N)
    (k : Nat) (rec : NodeRec) (ent : Entry)
    (hrec : rs.get? k = some rec)
    (hent : (loadSim reg rs N).entries.get? k = some ent)
    (j u : Nat) (ar : AttrRec)
    (hju : ent.node.outAttrs.get? j = some u)
    (hjar : rec.outputAttributesR.get? j = some ar) :
    (Store.mk (pre ++ (loadSim reg rs N).newIns)
        (preO ++ (loadSim reg rs N).newOuts) (loadSim reg rs N).next).findOut u =
      some (mkOutAttr ar.labelR u) := by
  show (preO ++ (loadSim reg rs N).newOuts).find? (fun a => a.uuid = u) = _
  have hge : N + 2 ≤ u :=
    (loadSim_entry_uuid_ge reg rs N hok k ent hent).2.2 u (List.get?_mem hju)
  rw [find?_append_none _ preO _ (fun a ha => by
    simp only [decide_eq_true_eq]
    have := hpreO a ha
    omega)]
  exact loadSim_newOuts_find reg rs N hok k rec ent hrec hent j u ar hju hjar

theorem sim_entry_in_len (reg : Registry) (rs : List NodeRec) (c : Nat)
    (hok : ∀ r ∈ rs, RecOK reg r) (k : Nat) (rec : NodeRec) (ent : Entry)
    (hrec : rs.get? k = some rec)
    (hent : (loadSim reg rs c).entries.get? k = some ent) :
    ent.node.inAttrs.length = rec.inputAttributesR.length := by
  obtain ⟨fd, ck, _, hlin, _, _, _, hget⟩ := loadSim_entry_char reg rs c hok k rec hrec
  rw [hent] at hget
  injection hget with hget
  subst hget
  dsimp only
  rw [builtNode_inAttrs_length, ← hlin, List.length_map]

theorem sim_entry_out_len (reg : Registry) (rs : List NodeRec) (c : Nat)
    (hok : ∀ r ∈ rs, RecOK reg r) (k : Nat) (rec : NodeRec) (ent : Entry)
    (hrec : rs.get? k = some rec)
    (hent : (loadSim reg rs c).entries.get? k = some ent) :
    ent.node.outAttrs.length = rec.outputAttributesR.length := by
  obtain ⟨fd, ck, _, _, hlout, _, _, hget⟩ := loadSim_entry_char reg rs c hok k rec hrec
  rw [hent] at hget
  injection hget with hget
  subst hget
  dsimp only
  rw [builtNode_outAttrs_length, ← hlout, List.length_map]

theorem stB_labels_in (reg : Registry) (rs : List NodeRec) (N : Nat)
    (hok : ∀ r ∈ rs, RecOK reg r) (pre : List InAttr) (preO : List OutAttr)
    (hpre : ∀ a ∈ pre, a.uuid < N)
    (k : Nat) (rec : NodeRec) (ent : Entry)
    (hrec : rs.get? k = some rec)
    (hent : (loadSim reg rs N).entries.get? k = some ent) :
    ent.node.inAttrs.map (fun u =>
        ((Store.mk (pre ++ (loadSim reg rs N).newIns)
          (preO ++ (loadSim reg rs N).newOuts) (loadSim reg rs N).next).getIn u).labelF) =
      rec.inputAttributesR.map (fun a => a.labelR) := by
  apply List.ext_get?
  intro j
  rw [List.get?_map, List.get?_map]
  have hlen := sim_entry_in_len reg rs N hok k rec ent hrec hent
  cases hju : ent.node.inAttrs.get? j with
  | none =>
    have hj : ent.node.inAttrs.length ≤ j := List.get?_eq_none.mp hju
    rw [List.get?_eq_none.mpr (by omega)]
    rfl
  | some u =>
    have hj : j < ent.node.inAttrs.length := by
      by_contra hge
      rw [List.get?_eq_none.mpr (by omega)] at hju
      exact nomatch hju
    cases hjar : rec.inputAttributesR.get? j with
    | none =>
      have := List.get?_eq_none.mp hjar
      omega
    | some ar =>
      have hfind := stB_findIn_fresh reg rs N hok pre preO hpre k rec ent hrec hent
        j u ar hju hjar
      show some ((Store.getIn _ u).labelF) = _
      unfold Store.getIn
      rw [hfind]
      rfl

theorem stB_labels_out (reg : Registry) (rs : List NodeRec) (N : Nat)
    (hok : ∀ r ∈ rs, RecOK reg r) (pre : List InAttr) (preO : List OutAttr)
    (hpreO : ∀ a ∈ preO, a.uuid < N)
    (k : Nat) (rec : NodeRec) (ent : Entry)
    (hrec : rs.get? k = some rec)
    (hent : (loadSim reg rs N).entries.get? k = some ent) :
    ent.node.outAttrs.map (fun u =>
        ((Store.mk (pre ++ (loadSim reg rs N).newIns)
          (preO ++ (loadSim reg rs N).newOuts) (loadSim reg rs N).next).getOut u).labelF) =
      rec.outputAttributesR.map (fun a => a.labelR) := by
  apply List.ext_get?
  intro j
  rw [List.get?_map, List.get?_map]
  have hlen := sim_entry_out_len reg rs N hok k rec ent hrec hent
  cases hju : ent.node.outAttrs.get? j with
  | none =>
    have hj : ent.node.outAttrs.length ≤ j := List.get?_eq_none.mp hju
    rw [List.get?_eq_none.mpr (by omega)]
    rfl
  | some u =>
    have hj : j < ent.node.outAttrs.length := by
      by_contra hge
      rw [List.get?_eq_none.mpr (by omega)] at hju
      exact nomatch hju
    cases hjar : rec.outputAttributesR.get? j with
    | none =>
      have := List.get?_eq_none.mp hjar
      omega
    | some ar =>
      have hfind := stB_findOut_fresh reg rs N hok pre preO hpreO k rec ent hrec hent
        j u ar hju hjar
      show some ((Store.getOut _ u).labelF) = _
      unfold Store.getOut
      rw [hfind]
      rfl

/-! ## C8 batch 4d: how the uuid mapping translates the export's handles -/

theorem hok_saveRecs (reg : Registry) (e : Editor) (st : Store) (hwf : EdWF reg e st) :
    ∀ r ∈ e.nodes.map (nodeToDict st), RecOK reg r := by
  rw [← save_nodesR]
  exact save_RecOK reg e st hwf

theorem roundtrip_lookup_out (reg : Registry) (e : Editor) (st : Store)
    (hwf : EdWF reg e st) (k p : Nat) (ent : Entry) (x : Nat)
    (hk : e.nodes.get? k = some ent) (hx : ent.node.outAttrs.get? p = some x) :
    ∃ ent2 u, (simOf reg e st).entries.get? k = some ent2 ∧
      ent2.node.outAttrs.get? p = some u ∧
      mapLookup (simOf reg e st).mp x = some (MapTarget.outM u) := by
  have hok0 := hok_saveRecs reg e st hwf
  have hrec : (e.nodes.map (nodeToDict st)).get? k = some (nodeToDict st ent) := by
    rw [List.get?_map, hk]
    rfl
  obtain ⟨fd, ck, hfd, hlin, hlout, hck, hnext, hget⟩ :=
    loadSim_entry_char reg (e.nodes.map (nodeToDict st)) st.nextUuid hok0 k
      (nodeToDict st ent) hrec
  have hplt : p < ent.node.outAttrs.length := by
    by_contra hge
    rw [List.get?_eq_none.mpr (by omega)] at hx
    exact nomatch hx
  have hleno : ent.node.outAttrs.length = fd.outLabelsF.length := by
    rw [← hlout, List.length_map]
    show ent.node.outAttrs.length = (ent.node.outAttrs.map (attrRecOfOut st)).length
    rw [List.length_map]
  have hu : (builtNode fd (nodeToDict st ent) ck).outAttrs.get? p =
      some (ck + 2 + fd.inLabelsF.length + p) :=
    builtNode_outAttrs_get? fd (nodeToDict st ent) ck p (by omega)
  have har : (nodeToDict st ent).outputAttributesR.get? p = some (attrRecOfOut st x) := by
    show (ent.node.outAttrs.map (attrRecOfOut st)).get? p = _
    rw [List.get?_map, hx]
    rfl
  have hmem := loadSim_mp_intro_out reg (e.nodes.map (nodeToDict st)) st.nextUuid hok0
    k (nodeToDict st ent)
    ⟨(nodeToDict st ent).nodeIdR, (nodeToDict st ent).nodeUuidR,
      builtNode fd (nodeToDict st ent) ck⟩
    p (attrRecOfOut st x) (ck + 2 + fd.inLabelsF.length + p) hrec hget har hu
  have huuidR : (attrRecOfOut st x).uuidR = x :=
    getOut_uuid_of_isSome st x
      (hwf.outResolve ent (List.get?_mem hk) x (List.get?_mem hx))
  rw [huuidR] at hmem
  exact ⟨_, _, hget, hu, mapLookup_of_mem_nodup (simOf_keys_nodup reg e st hwf) hmem⟩

theorem roundtrip_lookup_in (reg : Registry) (e : Editor) (st : Store)
    (hwf : EdWF reg e st) (k q : Nat) (ent : Entry) (y : Nat)
    (hk : e.nodes.get? k = some ent) (hy : ent.node.inAttrs.get? q = some y) :
    ∃ ent2 i, (simOf reg e st).entries.get? k = some ent2 ∧
      ent2.node.inAttrs.get? q = some i ∧
      mapLookup (simOf reg e st).mp y = some (MapTarget.inM i) := by
  have hok0 := hok_saveRecs reg e st hwf
  have hrec : (e.nodes.map (nodeToDict st)).get? k = some (nodeToDict st ent) := by
    rw [List.get?_map, hk]
    rfl
  obtain ⟨fd, ck, hfd, hlin, hlout, hck, hnext, hget⟩ :=
    loadSim_entry_char reg (e.nodes.map (nodeToDict st)) st.nextUuid hok0 k
      (nodeToDict st ent) hrec
  have hqlt : q < ent.node.inAttrs.length := by
    by_contra hge
    rw [List.get?_eq_none.mpr (by omega)] at hy
    exact nomatch hy
  have hleni : ent.node.inAttrs.length = fd.inLabelsF.length := by
    rw [← hlin, List.length_map]
    show ent.node.inAttrs.length = (ent.node.inAttrs.map (attrRecOfIn st)).length
    rw [List.length_map]
  have hi : (builtNode fd (nodeToDict st ent) ck).inAttrs.get? q =
      some (ck + 2 + q) :=
    builtNode_inAttrs_get? fd (nodeToDict st ent) ck q (by omega)
  have har : (nodeToDict st ent).inputAttributesR.get? q = some (attrRecOfIn st y) := by
    show (ent.node.inAttrs.map (attrRecOfIn st)).get? q = _
    rw [List.get?_map, hy]
    rfl
  have hmem := loadSim_mp_intro_in reg (e.nodes.map (nodeToDict st)) st.nextUuid hok0
    k (nodeToDict st ent)
    ⟨(nodeToDict st ent).nodeIdR, (nodeToDict st ent).nodeUuidR,
      builtNode fd (nodeToDict st ent) ck⟩
    q (attrRecOfIn st y) (ck + 2 + q) hrec hget har hi
  have huuidR : (attrRecOfIn st y).uuidR = y :=
    getIn_uuid_of_isSome st y
      (hwf.inResolve ent (List.get?_mem hk) y (List.get?_mem hy))
  rw [huuidR] at hmem
  exact ⟨_, _, hget, hi, mapLookup_of_mem_nodup (simOf_keys_nodup reg e st hwf) hmem⟩

theorem roundtrip_elim_out (reg : Registry) (e : Editor) (st : Store)
    (hwf : EdWF reg e st) (x u : Nat)
    (hm : mapLookup (simOf reg e st).mp x = some (MapTarget.outM u)) :
    ∃ k p ent ent2, e.nodes.get? k = some ent ∧
      (simOf reg e st).entries.get? k = some ent2 ∧
      ent.node.outAttrs.get? p = some x ∧
      ent2.node.outAttrs.get? p = some u := by
  have hok0 := hok_saveRecs reg e st hwf
  have hmem : (x, MapTarget.outM u) ∈
      (loadSim reg (e.nodes.map (nodeToDict st)) st.nextUuid).mp := mapLookup_mem hm
  rcases loadSim_mp_elim reg (e.nodes.map (nodeToDict st)) st.nextUuid hok0 x
      (MapTarget.outM u) hmem with
    ⟨k, rec, hk, hx, ht⟩ |
    ⟨k, rec, ent2, j, ar, u0, hk, hent, har, hju, hx, ht⟩ |
    ⟨k, rec, ent2, j, ar, u0, hk, hent, har, hju, hx, ht⟩
  · exact nomatch ht
  · exact nomatch ht
  · have hu0 : u0 = u := by
      injection ht with ht
      exact ht.symm
    subst hu0
    rw [List.get?_map] at hk
    cases hke : e.nodes.get? k with
    | none =>
      rw [hke] at hk
      exact nomatch hk
    | some ent =>
      rw [hke] at hk
      injection hk with hk
      subst hk
      have har2 : (ent.node.outAttrs.map (attrRecOfOut st)).get? j = some ar := har
      rw [List.get?_map] at har2
      cases hxa : ent.node.outAttrs.get? j with
      | none =>
        rw [hxa] at har2
        exact nomatch har2
      | some x0 =>
        rw [hxa] at har2
        injection har2 with har2
        subst har2
        have hxx : x = x0 := by
          rw [hx]
          exact getOut_uuid_of_isSome st x0
            (hwf.outResolve ent (List.get?_mem hke) x0 (List.get?_mem hxa))
        subst hxx
        exact ⟨k, j, ent, ent2, hke, hent, hxa, hju⟩

theorem roundtrip_elim_in (reg : Registry) (e : Editor) (st : Store)
    (hwf : EdWF reg e st) (y i : Nat)
    (hm : mapLookup (simOf reg e st).mp y = some (MapTarget.inM i)) :
    ∃ k q ent ent2, e.nodes.get? k = some ent ∧
      (simOf reg e st).entries.get? k = some ent2 ∧
      ent.node.inAttrs.get? q = some y ∧
      ent2.node.inAttrs.get? q = some i := by
  have hok0 := hok_saveRecs reg e st hwf
  have hmem : (y, MapTarget.inM i) ∈
      (loadSim reg (e.nodes.map (nodeToDict st)) st.nextUuid).mp := mapLookup_mem hm
  rcases loadSim_mp_elim reg (e.nodes.map (nodeToDict st)) st.nextUuid hok0 y
      (MapTarget.inM i) hmem with
    ⟨k, rec, hk, hx, ht⟩ |
    ⟨k, rec, ent2, j, ar, u0, hk, hent, har, hju, hx, ht⟩ |
    ⟨k, rec, ent2, j, ar, u0, hk, hent, har, hju, hx, ht⟩
  · exact nomatch ht
  · have hu0 : u0 = i := by
      injection ht with ht
      exact ht.symm
    subst hu0
    rw [List.get?_map] at hk
    cases hke : e.nodes.get? k with
    | none =>
      rw [hke] at hk
      exact nomatch hk
    | some ent =>
      rw [hke] at hk
      injection hk with hk
      subst hk
      have har2 : (ent.node.inAttrs.map (attrRecOfIn st)).get? j = some ar := har
      rw [List.get?_map] at har2
      cases hxa : ent.node.inAttrs.get? j with
      | none =>
        rw [hxa] at har2
        exact nomatch har2
      | some y0 =>
        rw [hxa] at har2
        injection har2 with har2
        subst har2
        have hyy : y = y0 := by
          rw [hx]
          exact getIn_uuid_of_isSome st y0
            (hwf.inResolve ent (List.get?_mem hke) y0 (List.get?_mem hxa))
        subst hyy
        exact ⟨k, j, ent, ent2, hke, hent, hxa, hju⟩
  · exact nomatch ht


/-! ## C8 batch 5a: unfolding load on the editor's own export -/

theorem clearGraph_fst (e : Editor) (st : Store) :
    (clearGraph e st).1 = { e with nodes := [] } := rfl

theorem clearGraph_ins_bound (reg : Registry) (e : Editor) (st : Store)
    (hwf : EdWF reg e st) :
    ∀ a ∈ (clearGraph e st).2.ins, a.uuid < st.nextUuid := by
  intro a ha
  have hmap := (sameUuids_clearGraph e st).1
  have hm : a.uuid ∈ (clearGraph e st).2.ins.map (fun a => a.uuid) :=
    List.mem_map_of_mem _ ha
  rw [hmap] at hm
  obtain ⟨b, hb, hba⟩ := List.mem_map.mp hm
  rw [← hba]
  exact hwf.insBound b hb

theorem clearGraph_outs_bound (reg : Registry) (e : Editor) (st : Store)
    (hwf : EdWF reg e st) :
    ∀ a ∈ (clearGraph e st).2.outs, a.uuid < st.nextUuid := by
  intro a ha
  have hmap := (sameUuids_clearGraph e st).2.1
  have hm : a.uuid ∈ (clearGraph e st).2.outs.map (fun a => a.uuid) :=
    List.mem_map_of_mem _ ha
  rw [hmap] at hm
  obtain ⟨b, hb, hba⟩ := List.mem_map.mp hm
  rw [← hba]
  exact hwf.outsBound b hb

theorem load_save_unfold (reg : Registry) (e : Editor) (st : Store)
    (hwf : EdWF reg e st) :
    load reg (save e st) e st =
      ((replayConns false (simOf reg e st).mp (save e st).connectionsR
          (stBOf reg e st)).1,
       ⟨(simOf reg e st).entries, false⟩,
       (replayConns false (simOf reg e st).mp (save e st).connectionsR
          (stBOf reg e st)).2) := by
  have hnext : (clearGraph e st).2.nextUuid = st.nextUuid :=
    (sameUuids_clearGraph e st).2.2
  have hloop := loadNodesLoop_eq_sim reg (save e st).nodesR (clearGraph e st).1
    (clearGraph e st).2 [] (save_RecOK reg e st hwf)
  rw [hnext] at hloop
  unfold load
  dsimp only
  rw [hloop]
  dsimp only
  rw [clearGraph_fst]
  dsimp only
  rw [hwf.notSubmitted]
  rw [List.nil_append]
  rfl

/-! ## C8 batch 5b: the replay hypotheses hold for the editor's own export -/

theorem roundtrip_H1 (reg : Registry) (e : Editor) (st : Store) (hwf : EdWF reg e st) :
    ∀ c ∈ (save e st).connectionsR, ∃ o i,
      mapLookup (simOf reg e st).mp c.1 = some (MapTarget.outM o) ∧
      mapLookup (simOf reg e st).mp c.2 = some (MapTarget.inM i) ∧
      ((stBOf reg e st).findOut o).isSome ∧
      ((stBOf reg e st).findIn i).isSome ∧
      ((stBOf reg e st).getIn i).parent = none := by
  intro c hc
  obtain ⟨x, y⟩ := c
  obtain ⟨ent, hent, hou, hiu⟩ := (save_conns_mem e st x y).mp hc
  obtain ⟨k, hk⟩ := List.mem_iff_get?.mp hent
  obtain ⟨p, hp⟩ := List.mem_iff_get?.mp hou
  obtain ⟨b, q, hbq⟩ := hwf.childOwned ent hent x hou y hiu
  unfold attrInAt at hbq
  cases hkb : e.nodes.get? b with
  | none =>
    rw [hkb] at hbq
    exact nomatch hbq
  | some entB =>
    rw [hkb] at hbq
    dsimp only [Option.bind] at hbq
    obtain ⟨ent2, u, hent2, hu, hlookO⟩ :=
      roundtrip_lookup_out reg e st hwf k p ent x hk hp
    obtain ⟨entB2, i, hentB2, hi, hlookI⟩ :=
      roundtrip_lookup_in reg e st hwf b q entB y hkb hbq
    have hok0 := hok_saveRecs reg e st hwf
    have hrecK : (e.nodes.map (nodeToDict st)).get? k = some (nodeToDict st ent) := by
      rw [List.get?_map, hk]
      rfl
    have hrecB : (e.nodes.map (nodeToDict st)).get? b = some (nodeToDict st entB) := by
      rw [List.get?_map, hkb]
      rfl
    have harO : (nodeToDict st ent).outputAttributesR.get? p =
        some (attrRecOfOut st x) := by
      show (ent.node.outAttrs.map (attrRecOfOut st)).get? p = _
      rw [List.get?_map, hp]
      rfl
    have harI : (nodeToDict st entB).inputAttributesR.get? q =
        some (attrRecOfIn st y) := by
      show (entB.node.inAttrs.map (attrRecOfIn st)).get? q = _
      rw [List.get?_map, hbq]
      rfl
    have hfindO : (stBOf reg e st).findOut u =
        some (mkOutAttr (attrRecOfOut st x).labelR u) :=
      stB_findOut_fresh reg (e.nodes.map (nodeToDict st)) st.nextUuid hok0
        (clearGraph e st).2.ins (clearGraph e st).2.outs
        (clearGraph_outs_bound reg e st hwf)
        k (nodeToDict st ent) ent2 hrecK hent2 p u (attrRecOfOut st x) hu harO
    have hfindI : (stBOf reg e st).findIn i =
        some (mkInAttr (attrRecOfIn st y).labelR i) :=
      stB_findIn_fresh reg (e.nodes.map (nodeToDict st)) st.nextUuid hok0
        (clearGraph e st).2.ins (clearGraph e st).2.outs
        (clearGraph_ins_bound reg e st hwf)
        b (nodeToDict st entB) entB2 hrecB hentB2 q i (attrRecOfIn st y) hi harI
    refine ⟨u, i, hlookO, hlookI, ?so, ?si, ?pn⟩
    case so =>
      rw [hfindO]
      rfl
    case si =>
      rw [hfindI]
      rfl
    case pn =>
      unfold Store.getIn
      rw [hfindI]
      rfl

theorem roundtrip_in_lookup_inj (reg : Registry) (e : Editor) (st : Store)
    (hwf : EdWF reg e st) :
    ∀ y y' i, mapLookup (simOf reg e st).mp y = some (MapTarget.inM i) →
      mapLookup (simOf reg e st).mp y' = some (MapTarget.inM i) → y = y' := by
  intro y y' i h1 h2
  obtain ⟨k, q, ent, ent2, hke, hent, hya, hia⟩ := roundtrip_elim_in reg e st hwf y i h1
  obtain ⟨k', q', ent', ent2', hke', hent', hya', hia'⟩ :=
    roundtrip_elim_in reg e st hwf y' i h2
  obtain ⟨hkk, hqq⟩ := sim_inj_in reg (e.nodes.map (nodeToDict st)) st.nextUuid
    (hok_saveRecs reg e st hwf) k k' q q' i ent2 ent2' hent hent' hia hia'
  subst hkk
  subst hqq
  rw [hke] at hke'
  injection hke' with hke'
  subst hke'
  rw [hya'] at hya
  injection hya with hya
  exact hya.symm

theorem tgtIns_nodup_aux (mp : List (Nat × MapTarget)) :
    ∀ (conns : List (Nat × Nat)),
      (∀ c ∈ conns, ∃ i, mapLookup mp c.2 = some (MapTarget.inM i)) →
      (conns.map Prod.snd).Nodup →
      (∀ y y' i, mapLookup mp y = some (MapTarget.inM i) →
        mapLookup mp y' = some (MapTarget.inM i) → y = y') →
      (tgtIns mp conns).Nodup
  | [], _, _, _ => List.nodup_nil
  | c :: rest, htr, hsnd, hinj => by
    obtain ⟨i, hi⟩ := htr c (List.mem_cons_self c rest)
    rw [tgtIns_cons_in mp c rest i hi]
    rw [List.map_cons, List.nodup_cons] at hsnd
    refine List.nodup_cons.mpr ⟨?notin, ?tail⟩
    case notin =>
      intro hmem
      obtain ⟨c', hc', hfc'⟩ := List.mem_filterMap.mp hmem
      cases hl : mapLookup mp c'.2 with
      | none =>
        rw [hl] at hfc'
        exact nomatch hfc'
      | some t =>
        cases t with
        | nodeM =>
          rw [hl] at hfc'
          exact nomatch hfc'
        | outM o =>
          rw [hl] at hfc'
          exact nomatch hfc'
        | inM i' =>
          rw [hl] at hfc'
          injection hfc' with hfc'
          subst hfc'
          have := hinj c.2 c'.2 i' hi hl
          exact hsnd.1 (this ▸ List.mem_map_of_mem Prod.snd hc')
    case tail =>
      exact tgtIns_nodup_aux mp rest
        (fun c' hc' => htr c' (List.mem_cons_of_mem c hc')) hsnd.2 hinj

theorem roundtrip_H3 (reg : Registry) (e : Editor) (st : Store) (hwf : EdWF reg e st) :
    (tgtIns (simOf reg e st).mp (save e st).connectionsR).Nodup := by
  refine tgtIns_nodup_aux (simOf reg e st).mp (save e st).connectionsR ?htr ?hsnd
    (roundtrip_in_lookup_inj reg e st hwf)
  case htr =>
    intro c hc
    obtain ⟨o, i, _, hlookI, _⟩ := roundtrip_H1 reg e st hwf c hc
    exact ⟨i, hlookI⟩
  case hsnd =>
    rw [save_conns_snd]
    exact hwf.allChildNodup

/-! ## C8 batch 5c: the connection topology survives the round trip -/

theorem roundtrip_topology (reg : Registry) (e : Editor) (st : Store)
    (hwf : EdWF reg e st) (a p b q : Nat) :
    ConnectedAt ⟨(simOf reg e st).entries, false⟩
        (replayConns false (simOf reg e st).mp (save e st).connectionsR
          (stBOf reg e st)).2 a p b q ↔
      ConnectedAt e st a p b q := by
  have hok0 := hok_saveRecs reg e st hwf
  obtain ⟨hok, hch⟩ := replay_char (simOf reg e st).mp (save e st).connectionsR
    (stBOf reg e st) (roundtrip_H1 reg e st hwf) (roundtrip_H3 reg e st hwf)
  constructor
  · rintro ⟨ou, iu, hOA, hIA, hmem⟩
    unfold attrOutAt at hOA
    unfold attrInAt at hIA
    dsimp only at hOA hIA
    cases hA : (simOf reg e st).entries.get? a with
    | none =>
      rw [hA] at hOA
      exact nomatch hOA
    | some ent2a =>
    cases hB : (simOf reg e st).entries.get? b with
    | none =>
      rw [hB] at hIA
      exact nomatch hIA
    | some ent2b2 =>
    rw [hA] at hOA
    rw [hB] at hIA
    dsimp only [Option.bind] at hOA hIA
    obtain ⟨recA, hrecA⟩ := loadSim_rec_of_entry reg (e.nodes.map (nodeToDict st))
      st.nextUuid hok0 a ent2a hA
    have hplt : p < ent2a.node.outAttrs.length := by
      by_contra hge
      rw [List.get?_eq_none.mpr (by omega)] at hOA
      exact nomatch hOA
    have hlenA := sim_entry_out_len reg (e.nodes.map (nodeToDict st)) st.nextUuid
      hok0 a recA ent2a hrecA hA
    cases harA : recA.outputAttributesR.get? p with
    | none =>
      have := List.get?_eq_none.mp harA
      omega
    | some arA =>
    have hfindO : (stBOf reg e st).findOut ou = some (mkOutAttr arA.labelR ou) :=
      stB_findOut_fresh reg (e.nodes.map (nodeToDict st)) st.nextUuid
        hok0 (clearGraph e st).2.ins (clearGraph e st).2.outs
        (clearGraph_outs_bound reg e st hwf) a recA ent2a hrecA hA p ou arA hOA harA
    have hchB : ((stBOf reg e st).getOut ou).children = [] := by
      unfold Store.getOut
      rw [hfindO]
      rfl
    rw [hch ou, hchB, List.nil_append] at hmem
    obtain ⟨cn, hcn, hf⟩ := List.mem_filterMap.mp hmem
    obtain ⟨x, y⟩ := cn
    dsimp only at hf
    cases h1 : mapLookup (simOf reg e st).mp x with
    | none =>
      rw [h1] at hf
      exact nomatch hf
    | some t1 =>
    cases t1 with
    | nodeM =>
      rw [h1] at hf
      exact nomatch hf
    | inM o0 =>
      rw [h1] at hf
      exact nomatch hf
    | outM o =>
    cases h2 : mapLookup (simOf reg e st).mp y with
    | none =>
      rw [h1, h2] at hf
      exact nomatch hf
    | some t2 =>
    cases t2 with
    | nodeM =>
      rw [h1, h2] at hf
      exact nomatch hf
    | outM i0 =>
      rw [h1, h2] at hf
      exact nomatch hf
    | inM i =>
    rw [h1, h2] at hf
    dsimp only at hf
    split_ifs at hf with ho
    injection hf with hf
    rw [ho] at h1
    rw [hf] at h2
    obtain ⟨k, p0, entk, ent2k, hkeK, hentK, hxK, huK⟩ :=
      roundtrip_elim_out reg e st hwf x ou h1
    obtain ⟨kb, q0, entb, ent2bb, hkeB, hentB, hyB, hiB⟩ :=
      roundtrip_elim_in reg e st hwf y iu h2
    obtain ⟨hka, hpp⟩ := sim_inj_out reg (e.nodes.map (nodeToDict st)) st.nextUuid
      hok0 k a p0 p ou ent2k ent2a hentK hA huK hOA
    subst hka
    subst hpp
    obtain ⟨hkb, hqq⟩ := sim_inj_in reg (e.nodes.map (nodeToDict st)) st.nextUuid
      hok0 kb b q0 q iu ent2bb ent2b2 hentB hB hiB hIA
    subst hkb
    subst hqq
    obtain ⟨ent0, hent0, hou0, hiu0⟩ := (save_conns_mem e st x y).mp hcn
    refine ⟨x, y, ?oa, ?ia, hiu0⟩
    case oa =>
      unfold attrOutAt
      rw [hkeK]
      exact hxK
    case ia =>
      unfold attrInAt
      rw [hkeB]
      exact hyB
  · rintro ⟨ou, iu, hOA, hIA, hmem⟩
    unfold attrOutAt at hOA
    unfold attrInAt at hIA
    cases hA : e.nodes.get? a with
    | none =>
      rw [hA] at hOA
      exact nomatch hOA
    | some enta =>
    cases hB : e.nodes.get? b with
    | none =>
      rw [hB] at hIA
      exact nomatch hIA
    | some entb =>
    rw [hA] at hOA
    rw [hB] at hIA
    dsimp only [Option.bind] at hOA hIA
    obtain ⟨ent2a, u, hent2a, hu, hlookO⟩ :=
      roundtrip_lookup_out reg e st hwf a p enta ou hA hOA
    obtain ⟨ent2b, i, hent2b, hi, hlookI⟩ :=
      roundtrip_lookup_in reg e st hwf b q entb iu hB hIA
    have hconn : (ou, iu) ∈ (save e st).connectionsR :=
      (save_conns_mem e st ou iu).mpr
        ⟨enta, List.get?_mem hA, List.get?_mem hOA, hmem⟩
    have htr : i ∈ transOf (simOf reg e st).mp (save e st).connectionsR u := by
      refine List.mem_filterMap.mpr ⟨(ou, iu), hconn, ?f⟩
      case f =>
        dsimp only
        rw [hlookO, hlookI]
        simp
    have hrecA : (e.nodes.map (nodeToDict st)).get? a = some (nodeToDict st enta) := by
      rw [List.get?_map, hA]
      rfl
    have harA : (nodeToDict st enta).outputAttributesR.get? p =
        some (attrRecOfOut st ou) := by
      show (enta.node.outAttrs.map (attrRecOfOut st)).get? p = _
      rw [List.get?_map, hOA]
      rfl
    have hfindO : (stBOf reg e st).findOut u =
        some (mkOutAttr (attrRecOfOut st ou).labelR u) :=
      stB_findOut_fresh reg (e.nodes.map (nodeToDict st)) st.nextUuid
        hok0 (clearGraph e st).2.ins (clearGraph e st).2.outs
        (clearGraph_outs_bound reg e st hwf) a (nodeToDict st enta) ent2a hrecA
        hent2a p u (attrRecOfOut st ou) hu harA
    have hchB : ((stBOf reg e st).getOut u).children = [] := by
      unfold Store.getOut
      rw [hfindO]
      rfl
    refine ⟨u, i, ?oa, ?ia, ?mem⟩
    case oa =>
      unfold attrOutAt
      show ((simOf reg e st).entries.get? a).bind (fun ent => ent.node.outAttrs.get? p) =
        some u
      rw [hent2a]
      exact hu
    case ia =>
      unfold attrInAt
      show ((simOf reg e st).entries.get? b).bind (fun ent => ent.node.inAttrs.get? q) =
        some i
      rw [hent2b]
      exact hi
    case mem =>
      rw [hch u, hchB, List.nil_append]
      exact htr

/-! ## C8 batch 5d: the persistent node data survives the round trip -/

theorem roundtrip_stable (reg : Registry) (e : Editor) (st : Store)
    (hwf : EdWF reg e st) :
    (simOf reg e st).entries.map
        (entStable (replayConns false (simOf reg e st).mp (save e st).connectionsR
          (stBOf reg e st)).2) =
      e.nodes.map (entStable st) := by
  have hok0 := hok_saveRecs reg e st hwf
  obtain ⟨hpres1, hpres2, _, _⟩ :=
    replay_pres (simOf reg e st).mp (save e st).connectionsR (stBOf reg e st)
  apply List.ext_get?
  intro k
  rw [List.get?_map, List.get?_map]
  cases hk : e.nodes.get? k with
  | none =>
    have hlen : e.nodes.length ≤ k := List.get?_eq_none.mp hk
    have hnone : (simOf reg e st).entries.get? k = none := by
      rw [List.get?_eq_none.mpr]
      show (loadSim reg (e.nodes.map (nodeToDict st)) st.nextUuid).entries.length ≤ k
      rw [loadSim_entries_length reg (e.nodes.map (nodeToDict st)) st.nextUuid hok0,
        List.length_map]
      exact hlen
    rw [hnone]
    rfl
  | some ent =>
    have hrec : (e.nodes.map (nodeToDict st)).get? k = some (nodeToDict st ent) := by
      rw [List.get?_map, hk]
      rfl
    obtain ⟨fd, ck, hfd, hlin, hlout, hck, hnext, hget⟩ :=
      loadSim_entry_char reg (e.nodes.map (nodeToDict st)) st.nextUuid hok0 k
        (nodeToDict st ent) hrec
    have hget2 : (simOf reg e st).entries.get? k =
        some ⟨(nodeToDict st ent).nodeIdR, (nodeToDict st ent).nodeUuidR,
          builtNode fd (nodeToDict st ent) ck⟩ := hget
    rw [hget2]
    refine congrArg some ?e
    have hin : (builtNode fd (nodeToDict st ent) ck).inAttrs.map (fun u =>
          (((replayConns false (simOf reg e st).mp (save e st).connectionsR
            (stBOf reg e st)).2).getIn u).labelF) =
        ent.node.inAttrs.map (fun u => ((st.getIn u).labelF)) := by
      have step1 : (builtNode fd (nodeToDict st ent) ck).inAttrs.map (fun u =>
            (((replayConns false (simOf reg e st).mp (save e st).connectionsR
              (stBOf reg e st)).2).getIn u).labelF) =
          (builtNode fd (nodeToDict st ent) ck).inAttrs.map (fun u =>
            (((stBOf reg e st)).getIn u).labelF) :=
        List.map_congr_left (fun u _ => hpres1 u)
      have step2 : (builtNode fd (nodeToDict st ent) ck).inAttrs.map (fun u =>
            (((stBOf reg e st)).getIn u).labelF) =
          (nodeToDict st ent).inputAttributesR.map (fun a => a.labelR) :=
        stB_labels_in reg (e.nodes.map (nodeToDict st)) st.nextUuid hok0
          (clearGraph e st).2.ins (clearGraph e st).2.outs
          (clearGraph_ins_bound reg e st hwf) k (nodeToDict st ent)
          ⟨(nodeToDict st ent).nodeIdR, (nodeToDict st ent).nodeUuidR,
            builtNode fd (nodeToDict st ent) ck⟩ hrec hget
      have step3 : (nodeToDict st ent).inputAttributesR.map (fun a => a.labelR) =
          ent.node.inAttrs.map (fun u => ((st.getIn u).labelF)) := by
        show (ent.node.inAttrs.map (attrRecOfIn st)).map (fun a => a.labelR) = _
        rw [List.map_map]
        rfl
      exact (step1.trans step2).trans step3
    have hout : (builtNode fd (nodeToDict st ent) ck).outAttrs.map (fun u =>
          (((replayConns false (simOf reg e st).mp (save e st).connectionsR
            (stBOf reg e st)).2).getOut u).labelF) =
        ent.node.outAttrs.map (fun u => ((st.getOut u).labelF)) := by
      have step1 : (builtNode fd (nodeToDict st ent) ck).outAttrs.map (fun u =>
            (((replayConns false (simOf reg e st).mp (save e st).connectionsR
              (stBOf reg e st)).2).getOut u).labelF) =
          (builtNode fd (nodeToDict st ent) ck).outAttrs.map (fun u =>
            (((stBOf reg e st)).getOut u).labelF) :=
        List.map_congr_left (fun u _ => hpres2 u)
      have step2 : (builtNode fd (nodeToDict st ent) ck).outAttrs.map (fun u =>
            (((stBOf reg e st)).getOut u).labelF) =
          (nodeToDict st ent).outputAttributesR.map (fun a => a.labelR) :=
        stB_labels_out reg (e.nodes.map (nodeToDict st)) st.nextUuid hok0
          (clearGraph e st).2.ins (clearGraph e st).2.outs
          (clearGraph_outs_bound reg e st hwf) k (nodeToDict st ent)
          ⟨(nodeToDict st ent).nodeIdR, (nodeToDict st ent).nodeUuidR,
            builtNode fd (nodeToDict st ent) ck⟩ hrec hget
      have step3 : (nodeToDict st ent).outputAttributesR.map (fun a => a.labelR) =
          ent.node.outAttrs.map (fun u => ((st.getOut u).labelF)) := by
        show (ent.node.outAttrs.map (attrRecOfOut st)).map (fun a => a.labelR) = _
        rw [List.map_map]
        rfl
      exact (step1.trans step2).trans step3
    unfold entStable
    dsimp only
    rw [hin, hout]
    rfl


/-! ## Claim C8 -/

/-- C8 counterexample: the claim says the exported record expresses
connections as pairs of attribute *stable ids* rather than transient
handles.  The two fixture graphs agree on every stable id and label (their
stable-id connection lists are equal) yet `save` emits `[(10, 11)]` for
one and `[(20, 21)]` for the other: the `connections` field holds the
transient dpg uuids (widget.py 170-171 stores `output_attr.uuid` /
`input_attr.uuid`, not `_id`). -/
theorem c8_counterexample :
    stableConnections cx1Editor cx1Store = stableConnections cx2Editor cx2Store ∧
    (save cx1Editor cx1Store).connectionsR = [(10, 11)] ∧
    (save cx2Editor cx2Store).connectionsR = [(20, 21)] ∧
    (save cx1Editor cx1Store).connectionsR ≠ (save cx2Editor cx2Store).connectionsR :=
  ⟨rfl, rfl, rfl, by decide⟩

/-- C8 (amended): for a well-formed editor whose node types are all
registered (`EdWF`), `load(save(g))` succeeds and reproduces the same
node sequence by type id, node type, static uuid and `internal_data`,
the same attribute labels, and the same position-level connection
topology; the exported record expresses connections as pairs of
transient attribute uuids, remapped through `uuid_mapping` on import
(not as stable ids). -/
theorem c8_roundtrip (reg : Registry) (e : Editor) (st : Store) (hwf : EdWF reg e st) :
    (load reg (save e st) e st).1 = true ∧
    (load reg (save e st) e st).2.1.nodes.map
        (entStable (load reg (save e st) e st).2.2) =
      e.nodes.map (entStable st) ∧
    ∀ a p b q,
      ConnectedAt (load reg (save e st) e st).2.1
          (load reg (save e st) e st).2.2 a p b q ↔
        ConnectedAt e st a p b q := by
  rw [load_save_unfold reg e st hwf]
  dsimp only
  refine ⟨?ok, ?stable, ?topo⟩
  case ok =>
    exact (replay_char (simOf reg e st).mp (save e st).connectionsR
      (stBOf reg e st) (roundtrip_H1 reg e st hwf) (roundtrip_H3 reg e st hwf)).1
  case stable =>
    exact roundtrip_stable reg e st hwf
  case topo =>
    intro a p b q
    exact roundtrip_topology reg e st hwf a p b q

/-- The concrete two-node witness graph is well-formed for the registry
that built it. -/
theorem c8fix_wf : EdWF c8reg c8editor c8store := by
  refine ⟨rfl, ?reg, ?inr, ?outr, ?keys, ?own, ?cnd, ?insb, ?outsb⟩
  case reg =>
    intro ent h
    rcases List.mem_cons.mp h with rfl | h
    · exact ⟨by decide, ⟨NT_PROCESS, 0, false, [], ["out"]⟩, rfl, rfl, rfl, rfl⟩
    · rcases List.mem_cons.mp h with rfl | h
      · exact ⟨by decide, ⟨NT_PROCESS, 0, false, ["in"], []⟩, rfl, rfl, rfl, rfl⟩
      · exact absurd h (List.not_mem_nil ent)
  case inr =>
    intro ent h u hu
    rcases List.mem_cons.mp h with rfl | h
    · exact absurd hu (List.not_mem_nil u)
    · rcases List.mem_cons.mp h with rfl | h
      · rcases List.mem_cons.mp hu with rfl | hu
        · decide
        · exact absurd hu (List.not_mem_nil u)
      · exact absurd h (List.not_mem_nil ent)
  case outr =>
    intro ent h u hu
    rcases List.mem_cons.mp h with rfl | h
    · rcases List.mem_cons.mp hu with rfl | hu
      · decide
      · exact absurd hu (List.not_mem_nil u)
    · rcases List.mem_cons.mp h with rfl | h
      · exact absurd hu (List.not_mem_nil u)
      · exact absurd h (List.not_mem_nil ent)
  case keys =>
    decide
  case own =>
    intro ent h ou hou c hc
    rcases List.mem_cons.mp h with rfl | h
    · rcases List.mem_cons.mp hou with rfl | hou
      · rcases List.mem_cons.mp hc with rfl | hc
        · exact ⟨1, 0, rfl⟩
        · exact absurd hc (List.not_mem_nil c)
      · exact absurd hou (List.not_mem_nil ou)
    · rcases List.mem_cons.mp h with rfl | h
      · exact absurd hou (List.not_mem_nil ou)
      · exact absurd h (List.not_mem_nil ent)
  case cnd =>
    decide
  case insb =>
    decide
  case outsb =>
    decide

/-- C8 witness: the amended round-trip theorem applied to the concrete
registered two-node graph with its one connection. -/
theorem c8_witness :
    EdWF c8reg c8editor c8store ∧
    ((load c8reg (save c8editor c8store) c8editor c8store).1 = true ∧
     (load c8reg (save c8editor c8store) c8editor c8store).2.1.nodes.map
         (entStable (load c8reg (save c8editor c8store) c8editor c8store).2.2) =
       c8editor.nodes.map (entStable c8store) ∧
     ∀ a p b q,
       ConnectedAt (load c8reg (save c8editor c8store) c8editor c8store).2.1
           (load c8reg (save c8editor c8store) c8editor c8store).2.2 a p b q ↔
         ConnectedAt c8editor c8store a p b q) :=
  ⟨c8fix_wf, c8_roundtrip c8reg c8editor c8store c8fix_wf⟩

end DPG
